import Mathlib

/-! # backme: directory backup to an object store

A shallow embedding of the Go packages `internal/config`, `internal/s3`,
`internal/backup` and `internal/scheduler`, followed by the properties proved
about them.

Conventions of the embedding:

* Go `string` is `String`; the byte-level routines of package `path` work on
  the character list of a string (the bytes `/` and `.` they inspect are ASCII).
* Go `int` is `Int`, a nil-able pointer `*T` is `Option T`.
* `error` results are `Except String _`, or `Option String` for a bare `error`.
* Instants (`time.Time`) are `Int`.
-/

set_option autoImplicit false

namespace Backme

/-! ## internal/config -/

/-- The struct `config.DatabaseConfig`. -/
structure DatabaseConfig where
  Host : String
  Port : Int
  User : String
  Password : String
  Name : String
  deriving DecidableEq, Repr

/-- The struct `config.AWSConfig`. -/
structure AWSConfig where
  AccessKeyID : String
  SecretAccessKey : String
  Region : String
  Bucket : String
  DatabasePrefix : String
  DirectoryPrefix : String
  deriving DecidableEq, Repr

/-- The struct `config.DatabaseSchedule`. -/
structure DatabaseSchedule where
  Name : String
  Expression : String
  Database : DatabaseConfig
  AWS : Option AWSConfig
  deriving DecidableEq, Repr

/-- The struct `config.DirectorySchedule`. -/
structure DirectorySchedule where
  Name : String
  Expression : String
  SourcePath : String
  Sync : Bool
  Delete : Bool
  AWS : Option AWSConfig
  deriving DecidableEq, Repr

/-- The struct `config.Schedules`. -/
structure Schedules where
  Databases : List DatabaseSchedule
  Directories : List DirectorySchedule
  deriving DecidableEq, Repr

/-- The struct `config.Config`. -/
structure Config where
  Database : DatabaseConfig
  AWS : AWSConfig
  Schedules : Schedules
  deriving DecidableEq, Repr

/-- Go zero value of `config.DatabaseConfig`. -/
def DatabaseConfig.zero : DatabaseConfig :=
  { Host := "", Port := 0, User := "", Password := "", Name := "" }

/-- Go zero value of `config.AWSConfig`. -/
def AWSConfig.zero : AWSConfig :=
  { AccessKeyID := "", SecretAccessKey := "", Region := "", Bucket := "",
    DatabasePrefix := "", DirectoryPrefix := "" }

/-- Go zero value of `config.Schedules` (two nil slices). -/
def Schedules.zero : Schedules :=
  { Databases := [], Directories := [] }

/-! ## internal/s3: the client -/

/-- The struct `s3.Options`. -/
structure Options where
  Endpoint : String
  deriving DecidableEq, Repr

/-- The struct `s3.Client`: the SDK client is described by what it was built from
(region, static credentials, optional base endpoint), next to the bucket name. -/
structure Client where
  region : String
  accessKeyID : String
  secretAccessKey : String
  baseEndpoint : Option String
  bucket : String
  deriving DecidableEq, Repr

/-- The function `s3.New`. `loadErr` is the outcome of the SDK call
`awsconfig.LoadDefaultConfig` (`none` when it succeeds). -/
def New (loadErr : Option String) (cfg : Config) (opts : Option Options) : Except String Client :=
  match loadErr with
  | some err => .error ("unable to load AWS config: " ++ err)
  | none =>
    .ok
      { region := cfg.AWS.Region
        accessKeyID := cfg.AWS.AccessKeyID
        secretAccessKey := cfg.AWS.SecretAccessKey
        baseEndpoint :=
          match opts with
          | some o => if o.Endpoint ≠ "" then some o.Endpoint else none
          | none => none
        bucket := cfg.AWS.Bucket }

/-! ## internal/backup: configuration overrides -/

/-- The struct `backup.Service`. -/
structure Service where
  cfg : Config
  s3Client : Client
  deriving DecidableEq, Repr

/-- The configuration `newCfg` that `getS3ClientForConfig` assembles for a non-nil
override (backup.go lines 33-62): a copy of the base AWS block, then one guarded
assignment per field. -/
def newCfgFor (s : Service) (awsCfg : AWSConfig) : Config :=
  let newCfg : Config :=
    { Database := DatabaseConfig.zero
      AWS :=
        { Region := s.cfg.AWS.Region
          AccessKeyID := s.cfg.AWS.AccessKeyID
          SecretAccessKey := s.cfg.AWS.SecretAccessKey
          Bucket := s.cfg.AWS.Bucket
          DatabasePrefix := s.cfg.AWS.DatabasePrefix
          DirectoryPrefix := s.cfg.AWS.DirectoryPrefix }
      Schedules := Schedules.zero }
  let newCfg :=
    if awsCfg.Region ≠ "" then { newCfg with AWS := { newCfg.AWS with Region := awsCfg.Region } }
    else newCfg
  let newCfg :=
    if awsCfg.AccessKeyID ≠ "" then
      { newCfg with AWS := { newCfg.AWS with AccessKeyID := awsCfg.AccessKeyID } }
    else newCfg
  let newCfg :=
    if awsCfg.SecretAccessKey ≠ "" then
      { newCfg with AWS := { newCfg.AWS with SecretAccessKey := awsCfg.SecretAccessKey } }
    else newCfg
  let newCfg :=
    if awsCfg.Bucket ≠ "" then { newCfg with AWS := { newCfg.AWS with Bucket := awsCfg.Bucket } }
    else newCfg
  let newCfg :=
    if awsCfg.DatabasePrefix ≠ "" then
      { newCfg with AWS := { newCfg.AWS with DatabasePrefix := awsCfg.DatabasePrefix } }
    else newCfg
  let newCfg :=
    if awsCfg.DirectoryPrefix ≠ "" then
      { newCfg with AWS := { newCfg.AWS with DirectoryPrefix := awsCfg.DirectoryPrefix } }
    else newCfg
  newCfg

/-- The method `Service.getS3ClientForConfig`. -/
def getS3ClientForConfig (loadErr : Option String) (s : Service) (awsCfg : Option AWSConfig) :
    Except String Client :=
  match awsCfg with
  | none => .ok s.s3Client
  | some awsCfg => New loadErr (newCfgFor s awsCfg) none

/-- The method `Service.getDatabaseConfigForConfig`. -/
def getDatabaseConfigForConfig (s : Service) (dbCfg : Option DatabaseConfig) : DatabaseConfig :=
  match dbCfg with
  | none => s.cfg.Database
  | some dbCfg =>
    let newCfg : DatabaseConfig :=
      { Host := s.cfg.Database.Host
        Port := s.cfg.Database.Port
        User := s.cfg.Database.User
        Password := s.cfg.Database.Password
        Name := s.cfg.Database.Name }
    let newCfg := if dbCfg.Host ≠ "" then { newCfg with Host := dbCfg.Host } else newCfg
    let newCfg := if dbCfg.Port ≠ 0 then { newCfg with Port := dbCfg.Port } else newCfg
    let newCfg := if dbCfg.User ≠ "" then { newCfg with User := dbCfg.User } else newCfg
    let newCfg := if dbCfg.Password ≠ "" then { newCfg with Password := dbCfg.Password } else newCfg
    let newCfg := if dbCfg.Name ≠ "" then { newCfg with Name := dbCfg.Name } else newCfg
    newCfg

/-- The inheritance rule of the specification for one string field: the override's
value when it is non-empty, the base's value otherwise. -/
def inherit (base override : String) : String :=
  if override = "" then base else override

/-- The resolver `resolve(base, override)` as the specification words it: the base
when the override is absent, field-wise inheritance otherwise. -/
def resolve (base : AWSConfig) (override : Option AWSConfig) : AWSConfig :=
  match override with
  | none => base
  | some o =>
    { AccessKeyID := inherit base.AccessKeyID o.AccessKeyID
      SecretAccessKey := inherit base.SecretAccessKey o.SecretAccessKey
      Region := inherit base.Region o.Region
      Bucket := inherit base.Bucket o.Bucket
      DatabasePrefix := inherit base.DatabasePrefix o.DatabasePrefix
      DirectoryPrefix := inherit base.DirectoryPrefix o.DirectoryPrefix }

/-- The listing prefix of `BackupDirectory` in sync mode (backup.go lines 175-180). -/
def listPrefix (s : Service) (awsCfg : Option AWSConfig) : String :=
  let pfx := ""
  match awsCfg with
  | some a =>
    if a.DirectoryPrefix ≠ "" then a.DirectoryPrefix ++ "/"
    else if s.cfg.AWS.DirectoryPrefix ≠ "" then s.cfg.AWS.DirectoryPrefix ++ "/"
    else pfx
  | none =>
    if s.cfg.AWS.DirectoryPrefix ≠ "" then s.cfg.AWS.DirectoryPrefix ++ "/"
    else pfx

/-- The key prefix of `BackupDirectory` (backup.go lines 195-198). -/
def keyPrefix (s : Service) (awsCfg : Option AWSConfig) : String :=
  let pfx := s.cfg.AWS.DirectoryPrefix
  match awsCfg with
  | some a => a.DirectoryPrefix
  | none => pfx

/-! ## Package path of the Go standard library, as used by `GetObjectKey`

`path.Clean` scans the bytes of its argument with a read index `r` and writes the
result through a buffer `out` with write index `out.w`. Here the unread bytes
`path[r:]` are the list `rest` and the written bytes `out[0:out.w]` are the list
`out`, so that `out.w` is `out.length`. The loop consumes at least one byte per
iteration, so `len(path)` iterations always suffice; the iteration bound is the
explicit first argument of `cleanLoop`. -/

/-- The loop `for out.w > dotdot && out.index(out.w) != '/' { out.w-- }` of
`path.Clean`, on the reversed buffer: `dropped` is the byte at index `out.w`, the
one removed by the last decrement. -/
def cleanBacktrackRev (dotdot : Nat) : Char → List Char → List Char
  | _, [] => []
  | dropped, c :: revInit =>
    if (c :: revInit).length > dotdot ∧ dropped ≠ '/' then cleanBacktrackRev dotdot c revInit
    else c :: revInit

/-- The backtracking of a `..` element in `path.Clean`: `out.w--` followed by the
loop above. -/
def cleanBacktrack (dotdot : Nat) (out : List Char) : List Char :=
  match out.reverse with
  | [] => out
  | c :: revInit => (cleanBacktrackRev dotdot c revInit).reverse

/-- The main loop `for r < n { switch { ... } }` of `path.Clean`. -/
def cleanLoop (rooted : Bool) : Nat → List Char → List Char → Nat → List Char
  | 0, _, out, _ => out
  | fuel + 1, rest, out, dotdot =>
    match rest with
    | [] => out
    | c :: t =>
      if c = '/' then
        -- empty path element
        cleanLoop rooted fuel t out dotdot
      else if c = '.' ∧ (t = [] ∨ t.head? = some '/') then
        -- . element
        cleanLoop rooted fuel t out dotdot
      else if c = '.' ∧ t.head? = some '.' ∧ (t.tail = [] ∨ t.tail.head? = some '/') then
        -- .. element: remove to last /
        if out.length > dotdot then
          cleanLoop rooted fuel t.tail (cleanBacktrack dotdot out) dotdot
        else if rooted = false then
          let out1 := if out.length > 0 then out ++ ['/'] else out
          let out2 := out1 ++ ['.', '.']
          cleanLoop rooted fuel t.tail out2 out2.length
        else
          cleanLoop rooted fuel t.tail out dotdot
      else
        -- real path element: add slash if needed, copy element
        let out1 :=
          if (rooted = true ∧ out.length ≠ 1) ∨ (rooted = false ∧ out.length ≠ 0) then out ++ ['/']
          else out
        cleanLoop rooted fuel (rest.dropWhile (fun b => b ≠ '/'))
          (out1 ++ rest.takeWhile (fun b => b ≠ '/')) dotdot

/-- The function `path.Clean`. -/
def Clean (path : String) : String :=
  if path = "" then "."
  else
    let rooted : Bool := path.data.head? = some '/'
    let out :=
      if rooted then cleanLoop rooted path.data.length path.data.tail ['/'] 1
      else cleanLoop rooted path.data.length path.data [] 0
    -- Turn empty string into "."
    if out.length = 0 then "." else String.mk out

/-- The function `path.Join`. -/
def Join (elem : List String) : String :=
  let size := (elem.map fun e => e.data.length).sum
  if size = 0 then ""
  else
    let buf : List Char :=
      elem.foldl
        (fun buf e =>
          if buf.length > 0 ∨ e ≠ "" then (if buf.length > 0 then buf ++ ['/'] else buf) ++ e.data
          else buf)
        []
    Clean (String.mk buf)

/-! ## internal/s3: key derivation -/

/-- The function `s3.GetObjectKey`. -/
def GetObjectKey (pfx : String) (parts : List String) : String :=
  if pfx = "" then Join parts
  else Join ([pfx] ++ parts)

/-! ## Normalised paths -/

/-- The segments of a path: the pieces between its slashes. -/
def segments : List Char → List (List Char)
  | [] => [[]]
  | c :: t =>
    if c = '/' then [] :: segments t
    else
      match segments t with
      | [] => [[c]]
      | seg :: segs => (c :: seg) :: segs

/-- Segments written back as a path, with a slash between neighbours. -/
def joinSegs : List (List Char) → List Char
  | [] => []
  | [seg] => seg
  | seg :: seg2 :: segs => seg ++ '/' :: joinSegs (seg2 :: segs)

/-- A normalised slash-separated relative path: every segment is non-empty and
none is `.` or `..`. -/
def Normalised (p : String) : Prop :=
  ∀ seg ∈ segments p.data, seg ≠ [] ∧ seg ≠ ['.'] ∧ seg ≠ ['.', '.']

instance (p : String) : Decidable (Normalised p) := by
  unfold Normalised; infer_instance

/-! ## The object store and the local file system

The store behind the SDK client and the local file system are the environment
of `BackupDirectory`. The store is a key-value store of objects addressed by
bucket name and key; every SDK call may fail (`Env.fault`), and the store stamps
an uploaded object with a time of its own (`Env.stamp`). The file system gives,
for a source path, the entries `filepath.Walk` visits, in order. -/

/-- An object held by the store: the `LastModified` of its metadata and its bytes. -/
structure Object where
  lastModified : Int
  body : String
  deriving DecidableEq, Repr

/-- One stored object with its address. -/
structure Stored where
  bucket : String
  key : String
  obj : Object
  deriving DecidableEq, Repr

/-- The contents of the object store. -/
abbrev Store := List Stored

/-- The object at an address, if any (`HeadObject` / `GetObject`). -/
def Store.get (st : Store) (bucket key : String) : Option Object :=
  (st.find? fun e => e.bucket = bucket ∧ e.key = key).map fun e => e.obj

/-- The store after `PutObject`: the object at the address is replaced. -/
def Store.put (st : Store) (bucket key : String) (obj : Object) : Store :=
  { bucket := bucket, key := key, obj := obj } :: st.filter fun e => ¬(e.bucket = bucket ∧ e.key = key)

/-- The store after `DeleteObject`. -/
def Store.remove (st : Store) (bucket key : String) : Store :=
  st.filter fun e => ¬(e.bucket = bucket ∧ e.key = key)

/-- The keys of a bucket that begin with `pfx` (`ListObjectsV2`, all pages). -/
def Store.keys (st : Store) (bucket pfx : String) : List String :=
  (st.filter fun e => e.bucket = bucket ∧ pfx.data.isPrefixOf e.key.data = true).map fun e => e.key

/-- A call issued to the store. -/
inductive Call where
  | list (bucket pfx : String)
  | head (bucket key : String)
  | put (bucket key body : String)
  | delete (bucket key : String)
  deriving DecidableEq, Repr

/-- The store together with the calls issued to it so far, oldest first. -/
structure Remote where
  store : Store
  trace : List Call
  deriving DecidableEq, Repr

/-- What `filepath.Walk` hands to its callback for one visited path, with what the
callback can observe of the file: `walkErr` is the `err` argument, `relPath` the
result of `filepath.Rel(sourcePath, path)` (which cannot fail for a path below the
root of the walk), `openErr` the outcome of `os.Open(path)`. -/
structure Entry where
  path : String
  relPath : String
  isDir : Bool
  modTime : Int
  walkErr : Option String
  openErr : Option String
  body : String
  deriving DecidableEq, Repr

/-- The environment of a run. `fs sourcePath` is `none` when the error of
`os.Stat(sourcePath)` satisfies `os.IsNotExist`. In every other case it is the list
of the entries `filepath.Walk` visits; for a path on which `os.Lstat` fails for
another reason (a path below a regular file, say) that is the root alone, handed to
the callback with the error of `os.Lstat` as `walkErr`. -/
structure Env where
  loadErr : Option String
  fs : String → Option (List Entry)
  fault : Call → Option String
  stamp : String → String → Int

/-- The method `Client.ListObjects`. -/
def Client.ListObjects (c : Client) (env : Env) (r : Remote) (pfx : String) :
    Except String (List String) × Remote :=
  let r1 : Remote := { r with trace := r.trace ++ [Call.list c.bucket pfx] }
  match env.fault (Call.list c.bucket pfx) with
  | some err => (.error ("failed to list objects in S3: " ++ err), r1)
  | none => (.ok (r.store.keys c.bucket pfx), r1)

/-- The method `Client.GetObjectMetadata`. -/
def Client.GetObjectMetadata (c : Client) (env : Env) (r : Remote) (key : String) :
    Except String Object × Remote :=
  let r1 : Remote := { r with trace := r.trace ++ [Call.head c.bucket key] }
  match env.fault (Call.head c.bucket key) with
  | some err => (.error ("failed to get object metadata from S3: " ++ err), r1)
  | none =>
    match r.store.get c.bucket key with
    | none => (.error "failed to get object metadata from S3: NotFound", r1)
    | some obj => (.ok obj, r1)

/-- The method `Client.Upload`. -/
def Client.Upload (c : Client) (env : Env) (r : Remote) (key body : String) :
    Option String × Remote :=
  let tr := r.trace ++ [Call.put c.bucket key body]
  match env.fault (Call.put c.bucket key body) with
  | some err => (some ("failed to upload file to S3: " ++ err), { r with trace := tr })
  | none =>
    (none,
      { store := r.store.put c.bucket key { lastModified := env.stamp c.bucket key, body := body }
        trace := tr })

/-- The method `Client.DeleteObject`. -/
def Client.DeleteObject (c : Client) (env : Env) (r : Remote) (key : String) :
    Option String × Remote :=
  let tr := r.trace ++ [Call.delete c.bucket key]
  match env.fault (Call.delete c.bucket key) with
  | some err => (some ("failed to delete object from S3: " ++ err), { r with trace := tr })
  | none => (none, { store := r.store.remove c.bucket key, trace := tr })

/-! ## internal/backup: BackupDirectory -/

/-- The variables the walk callback of `BackupDirectory` closes over and updates:
the store with its call trace, and the map `s3FileMap` (a set of keys, held as a
list without repetition). -/
structure WalkState where
  remote : Remote
  s3FileMap : List String
  deriving DecidableEq, Repr

/-- The loop `for _, file := range s3Files { s3FileMap[file] = struct{}{} }`. -/
def mkFileMap (s3Files : List String) : List String :=
  s3Files.foldl (fun m file => if file ∈ m then m else m ++ [file]) []

/-- The block `if sync { ... }` of the walk callback (backup.go lines 218-237):
the decision `shouldUpload` for one file, and `delete(s3FileMap, key)`. -/
def syncCheck (env : Env) (s3Client : Client) (key : String) (e : Entry) (st : WalkState) :
    Except String Bool × WalkState :=
  if key ∈ st.s3FileMap then
    -- File exists, check if it's modified
    match s3Client.GetObjectMetadata env st.remote key with
    | (.error err, r) =>
      (.error ("failed to get S3 object metadata for " ++ e.relPath ++ ": " ++ err),
        { st with remote := r })
    | (.ok metadata, r) =>
      (.ok (decide (metadata.lastModified < e.modTime)),
        { remote := r, s3FileMap := st.s3FileMap.filter fun k => k ≠ key })
  else
    (.ok true, { st with s3FileMap := st.s3FileMap.filter fun k => k ≠ key })

/-- The block `if shouldUpload { ... }` of the walk callback (backup.go lines 239-251). -/
def uploadFile (env : Env) (s3Client : Client) (key : String) (e : Entry) (st : WalkState) :
    Option String × WalkState :=
  match e.openErr with
  | some err => (some ("failed to open file " ++ e.path ++ ": " ++ err), st)
  | none =>
    match s3Client.Upload env st.remote key e.body with
    | (some err, r) =>
      (some ("failed to upload file " ++ e.path ++ " to S3: " ++ err), { st with remote := r })
    | (none, r) => (none, { st with remote := r })

/-- The callback that `BackupDirectory` passes to `filepath.Walk`. -/
def walkFn (env : Env) (s3Client : Client) (pfx : String) (sync : Bool) (st : WalkState)
    (e : Entry) : Option String × WalkState :=
  match e.walkErr with
  | some err => (some err, st)
  | none =>
    if e.isDir then (none, st)
    else
      let key := GetObjectKey pfx [e.relPath]
      if sync then
        match syncCheck env s3Client key e st with
        | (.error err, st1) => (some err, st1)
        | (.ok shouldUpload, st1) =>
          if shouldUpload then uploadFile env s3Client key e st1 else (none, st1)
      else uploadFile env s3Client key e st

/-- The traversal `filepath.Walk`: the callback on every entry in turn, stopping at
the first error it returns. -/
def walk (env : Env) (s3Client : Client) (pfx : String) (sync : Bool) :
    List Entry → WalkState → Option String × WalkState
  | [], st => (none, st)
  | e :: es, st =>
    match walkFn env s3Client pfx sync st e with
    | (some err, st1) => (some err, st1)
    | (none, st1) => walk env s3Client pfx sync es st1

/-- The loop `for key := range s3FileMap { DeleteObject ... }` (backup.go lines
262-267); Go leaves the order of the keys open, here it is the order of the list. -/
def deleteOrphans (env : Env) (s3Client : Client) : List String → Remote → Option String × Remote
  | [], r => (none, r)
  | key :: keys, r =>
    match s3Client.DeleteObject env r key with
    | (some err, r1) => (some ("failed to delete object " ++ key ++ " from S3: " ++ err), r1)
    | (none, r1) => deleteOrphans env s3Client keys r1

/-- The body of `BackupDirectory` once the client is there and the source path
exists (backup.go lines 171-271), on the entries of the walk. -/
def backupEntries (env : Env) (s : Service) (s3Client : Client) (store : Store)
    (entries : List Entry) (sync shouldDelete : Bool) (awsCfg : Option AWSConfig) :
    Option String × Remote :=
  let r0 : Remote := { store := store, trace := [] }
  -- Get list of S3 files if sync is enabled
  let listed : Except String (List String) × Remote :=
    if sync then
      match s3Client.ListObjects env r0 (listPrefix s awsCfg) with
      | (.error err, r) => (.error ("failed to list objects in S3: " ++ err), r)
      | (.ok s3Files, r) => (.ok (mkFileMap s3Files), r)
    else (.ok [], r0)
  match listed with
  | (.error err, r) => (some err, r)
  | (.ok s3FileMap, r) =>
    match walk env s3Client (keyPrefix s awsCfg) sync entries { remote := r, s3FileMap := s3FileMap } with
    | (some err, st) => (some ("failed to backup directory: " ++ err), st.remote)
    | (none, st) =>
      -- Delete files from S3 that don't exist locally
      if sync ∧ shouldDelete ∧ st.s3FileMap.length > 0 then
        deleteOrphans env s3Client st.s3FileMap st.remote
      else (none, st.remote)

/-- The method `Service.BackupDirectory`: the error it returns (`none` for `nil`),
and the store with the calls the run issued to it. -/
def BackupDirectory (env : Env) (s : Service) (store : Store) (sourcePath : String)
    (sync shouldDelete : Bool) (awsCfg : Option AWSConfig) : Option String × Remote :=
  -- Get appropriate S3 client
  match getS3ClientForConfig env.loadErr s awsCfg with
  | .error err => (some ("failed to create S3 client: " ++ err), { store := store, trace := [] })
  | .ok s3Client =>
    match env.fs sourcePath with
    | none => (some ("source path does not exist: " ++ sourcePath), { store := store, trace := [] })
    | some entries => backupEntries env s s3Client store entries sync shouldDelete awsCfg

/-- The object key `BackupDirectory` computes for a visited file. -/
def fileKey (s : Service) (awsCfg : Option AWSConfig) (e : Entry) : String :=
  GetObjectKey (keyPrefix s awsCfg) [e.relPath]

/-- The regular files among the visited entries. -/
def regularFiles (entries : List Entry) : List Entry :=
  entries.filter fun e => e.isDir = false

/-! ## Sample inputs -/

/-- A base configuration with a directory prefix. -/
def sampleConfig : Config :=
  { Database := { Host := "localhost", Port := 5432, User := "backme", Password := "pw", Name := "app" }
    AWS :=
      { AccessKeyID := "test", SecretAccessKey := "test", Region := "us-east-1",
        Bucket := "backme", DatabasePrefix := "db", DirectoryPrefix := "backups" }
    Schedules := Schedules.zero }

/-- A service on the base configuration, with the client `s3.New` builds from it. -/
def sampleService : Service :=
  { cfg := sampleConfig
    s3Client :=
      { region := "us-east-1", accessKeyID := "test", secretAccessKey := "test",
        baseEndpoint := none, bucket := "backme" } }

/-- The service of the end-to-end tests: no prefixes. -/
def plainService : Service :=
  { sampleService with cfg := { sampleConfig with AWS := { sampleConfig.AWS with DirectoryPrefix := "" } } }

/-- An override that sets only the bucket. -/
def bucketOverride : AWSConfig :=
  { AWSConfig.zero with Bucket := "x" }

/-- A regular file of the sample tree. -/
def sampleFile (relPath : String) (modTime : Int) : Entry :=
  { path := "/data/" ++ relPath, relPath := relPath, isDir := false, modTime := modTime,
    walkErr := none, openErr := none, body := "test content" }

/-- A directory of the sample tree. -/
def sampleDir (path relPath : String) : Entry :=
  { path := path, relPath := relPath, isDir := true, modTime := 0,
    walkErr := none, openErr := none, body := "" }

/-- The tree of the end-to-end tests as `filepath.Walk` visits it. -/
def sampleEntries : List Entry :=
  [sampleDir "/data" ".", sampleDir "/data/subdir" "subdir", sampleFile "subdir/test3.txt" 5,
    sampleFile "test1.txt" 5, sampleFile "test2.txt" 5]

/-- An environment without failures: the sample tree at `/data`, an empty directory
at `/empty`, and a store that stamps every upload with the instant 10. -/
def sampleEnv : Env :=
  { loadErr := none
    fs := fun p =>
      if p = "/data" then some sampleEntries
      else if p = "/empty" then some [sampleDir "/empty" "."]
      else none
    fault := fun _ => none
    stamp := fun _ _ => 10 }

/-- A store with an up-to-date copy of `test1.txt`, an outdated copy of `test2.txt`
and an object without a local file. -/
def sampleStore : Store :=
  [ { bucket := "backme", key := "backups/test1.txt", obj := { lastModified := 7, body := "test content" } },
    { bucket := "backme", key := "backups/test2.txt", obj := { lastModified := 3, body := "old content" } },
    { bucket := "backme", key := "backups/stale.txt", obj := { lastModified := 1, body := "stale" } } ]

/-! ## Further notions of the directory backup -/

/-- The state in which the walk of `BackupDirectory` starts once the listing has
succeeded (or was not asked for): the trace holds the listing call and the map the
listed keys in sync mode, both are empty otherwise. -/
def walkStart (s : Service) (s3Client : Client) (store : Store) (sync : Bool)
    (awsCfg : Option AWSConfig) : WalkState :=
  if sync then
    { remote := { store := store, trace := [Call.list s3Client.bucket (listPrefix s awsCfg)] }
      s3FileMap := mkFileMap (store.keys s3Client.bucket (listPrefix s awsCfg)) }
  else { remote := { store := store, trace := [] }, s3FileMap := [] }

/-- A relative path as `filepath.Rel` yields it on a host whose separator is the
backslash: every separator of the slash spelling is a backslash. -/
def toBackslash (p : String) : String :=
  String.mk (p.data.map fun c => if c = '/' then '\\' else c)

/-- Whether the walk callback gets to the upload of a regular file: always without
sync; with sync when the key is not in the map, or its metadata is fetched and the
stored object is older than the file. -/
def uploadDue (env : Env) (s3Client : Client) (key : String) (e : Entry) (st : WalkState)
    (sync : Bool) : Bool :=
  !sync || decide (key ∉ st.s3FileMap) ||
    ((env.fault (Call.head s3Client.bucket key)).isNone &&
      match st.remote.store.get s3Client.bucket key with
      | some obj => decide (obj.lastModified < e.modTime)
      | none => false)

/-- An override that sets only the directory prefix. -/
def prefixOverride : AWSConfig :=
  { AWSConfig.zero with DirectoryPrefix := "nightly" }

/-- The sample environment with one more path, `/data/test1.txt/sub`: it lies below
a regular file, so `os.Stat` and `os.Lstat` fail with `not a directory`, an error
that does not satisfy `os.IsNotExist`. -/
def notDirEnv : Env :=
  { sampleEnv with
    fs := fun p =>
      if p = "/data/test1.txt/sub" then
        some [{ path := "/data/test1.txt/sub", relPath := ".", isDir := false, modTime := 0,
                walkErr := some "lstat /data/test1.txt/sub: not a directory", openErr := none,
                body := "" }]
      else sampleEnv.fs p }

/-- The sample tree on a host whose path separator is the backslash: the relative
paths are what `filepath.Rel` yields there. -/
def backslashEnv : Env :=
  { sampleEnv with
    fs := fun p =>
      if p = "C:\\data" then
        some (sampleEntries.map fun e => { e with relPath := toBackslash e.relPath })
      else none }

/-- An environment in which fetching the metadata of `backups/test1.txt` fails. -/
def faultyEnv : Env :=
  { sampleEnv with
    fault := fun call =>
      if call = Call.head "backme" "backups/test1.txt" then some "timeout" else none }

/-! ## internal/scheduler: the trigger engine

The cron library (`github.com/robfig/cron/v3`) is outside the repository. What the
scheduler uses of it is the validation of a spec string, `cron.ParseStandard`,
which is also what `Cron.AddFunc` applies to its spec on a cron made by
`cron.New()`. Its entry, `Parser.Parse`, is embedded up to the point where the time
zone is taken off the spec, because that part can panic; the loading of the zone
and the parsing of descriptors and fields are the parameter `lib`. A call that can
panic has an `Outcome`. A registered job is the closure of `Start` over its
schedule; it is held as data and run by `Job.run`. -/

/-- The outcome of a Go call that can panic: the value it returns, or the panic. -/
inductive Outcome (α : Type) where
  | ret (value : α)
  | panic (msg : String)
  deriving DecidableEq, Repr

/-- What lies behind `Parser.Parse` of the cron library: `time.LoadLocation` (its
error, `none` when the zone loads) and the parsing of a spec without time zone,
descriptors and fields (its error, `none` when the spec parses). -/
structure CronLib where
  loadLocation : String → Option String
  parseFields : String → Option String

/-- The function `unicode.IsSpace`. -/
def isSpace (c : Char) : Bool :=
  c = '\t' ∨ c = '\n' ∨ c.val = 0x0B ∨ c.val = 0x0C ∨ c = '\r' ∨ c = ' ' ∨ c.val = 0x85 ∨
    c.val = 0xA0 ∨ c.val = 0x1680 ∨ (0x2000 ≤ c.val ∧ c.val ≤ 0x200A) ∨ c.val = 0x2028 ∨
    c.val = 0x2029 ∨ c.val = 0x202F ∨ c.val = 0x205F ∨ c.val = 0x3000

/-- The function `strings.TrimSpace`. -/
def TrimSpace (s : String) : String :=
  String.mk ((s.data.dropWhile isSpace).reverse.dropWhile isSpace).reverse

/-- The function `cron.ParseStandard`, that is `Parser.Parse` of the standard
parser, as far as validity goes: the error it returns (`none` for a spec that
parses), or the panic. For a spec that begins with `TZ=` or `CRON_TZ=` the zone is
`spec[eq+1 : i]` with `i := strings.Index(spec, " ")`; without a space `i` is `-1`
and the slice expression panics. -/
def ParseStandard (lib : CronLib) (spec : String) : Outcome (Option String) :=
  if spec = "" then .ret (some "empty spec string")
  else if "TZ=".data.isPrefixOf spec.data = true ∨ "CRON_TZ=".data.isPrefixOf spec.data = true then
    let i := spec.data.indexOf ' '
    let eq := spec.data.indexOf '='
    if i = spec.data.length then .panic "runtime error: slice bounds out of range [:-1]"
    else
      match lib.loadLocation (String.mk ((spec.data.take i).drop (eq + 1))) with
      | some err =>
        .ret (some ("provided bad location " ++ String.mk ((spec.data.take i).drop (eq + 1)) ++
          ": " ++ err))
      | none => .ret (lib.parseFields (TrimSpace (String.mk (spec.data.drop i))))
  else .ret (lib.parseFields spec)

/-- The value handed to a callback as `cfg any`, by its dynamic type: the anonymous
struct with an embedded `config.DatabaseConfig` and a field `AWS`, or the one with
an embedded `config.DirectorySchedule` and a field `AWS`. -/
inductive Payload where
  | database (DatabaseConfig : DatabaseConfig) (AWS : Option AWSConfig)
  | directory (DirectorySchedule : DirectorySchedule) (AWS : Option AWSConfig)
  deriving DecidableEq, Repr

/-- The function literal that `Start` passes to `AddFunc`, with the schedule it
closes over. -/
inductive Job where
  | database (dbSchedule : DatabaseSchedule)
  | directory (dirSchedule : DirectorySchedule)
  deriving DecidableEq, Repr

/-- An entry of the cron: the spec it was added with and its job. -/
structure CronEntry where
  spec : String
  job : Job
  deriving DecidableEq, Repr

/-- The cron, as far as the scheduler observes it. -/
structure Cron where
  entries : List CronEntry
  running : Bool
  deriving DecidableEq, Repr

/-- The struct `scheduler.Scheduler`. -/
structure Scheduler where
  cfg : Config
  cron : Cron
  deriving DecidableEq, Repr

/-- The function `scheduler.New`. -/
def Scheduler.New (cfg : Config) : Scheduler :=
  { cfg := cfg, cron := { entries := [], running := false } }

/-- The method `Cron.AddFunc` of the library: the spec is parsed, and the job is
added when it parses. -/
def Cron.AddFunc (lib : CronLib) (c : Cron) (spec : String) (job : Job) :
    Outcome (Option String × Cron) :=
  match ParseStandard lib spec with
  | .panic msg => .panic msg
  | .ret (some err) => .ret (some err, c)
  | .ret none => .ret (none, { c with entries := c.entries ++ [{ spec := spec, job := job }] })

/-- The method `Scheduler.getCronExpression`. -/
def getCronExpression (lib : CronLib) (expr : String) : Outcome String :=
  if expr = "daily" then .ret "0 0 * * *"
  else if expr = "twice_daily" then .ret "0 */12 * * *"
  else if expr = "thrice_daily" then .ret "0 */8 * * *"
  else
    match ParseStandard lib expr with
    | .panic msg => .panic msg
    | .ret none => .ret expr
    | .ret (some _) => .ret ""

/-- One iteration of the first loop of `Start` (scheduler.go lines 27-62): the cron
after it, or the panic that ends `Start`. -/
def scheduleDatabase (lib : CronLib) (c : Cron) (schedule : DatabaseSchedule) : Outcome Cron :=
  let dbSchedule := schedule
  match getCronExpression lib dbSchedule.Expression with
  | .panic msg => .panic msg
  | .ret cronExpr =>
    if cronExpr = "" then .ret c
    else
      match c.AddFunc lib cronExpr (Job.database dbSchedule) with
      | .panic msg => .panic msg
      | .ret (some _, c1) => .ret c1
      | .ret (none, c1) => .ret c1

/-- One iteration of the second loop of `Start` (scheduler.go lines 65-100). -/
def scheduleDirectory (lib : CronLib) (c : Cron) (schedule : DirectorySchedule) : Outcome Cron :=
  let dirSchedule := schedule
  match getCronExpression lib dirSchedule.Expression with
  | .panic msg => .panic msg
  | .ret cronExpr =>
    if cronExpr = "" then .ret c
    else
      match c.AddFunc lib cronExpr (Job.directory dirSchedule) with
      | .panic msg => .panic msg
      | .ret (some _, c1) => .ret c1
      | .ret (none, c1) => .ret c1

/-- A loop `for _, schedule := range list { ... }` of `Start`: the body on every
schedule in turn, until one panics; the panic, if any, and the cron as the loop
left it. -/
def scheduleEach {σ : Type} (body : Cron → σ → Outcome Cron) : List σ → Cron → Option String × Cron
  | [], c => (none, c)
  | schedule :: rest, c =>
    match body c schedule with
    | .panic msg => (some msg, c)
    | .ret c1 => scheduleEach body rest c1

/-- The method `Scheduler.Start`: the error it returns, or the panic that ends it,
and the scheduler as it is left. -/
def Scheduler.Start (lib : CronLib) (s : Scheduler) : Outcome (Option String) × Scheduler :=
  match scheduleEach (scheduleDatabase lib) s.cfg.Schedules.Databases s.cron with
  | (some msg, c1) => (.panic msg, { s with cron := c1 })
  | (none, c1) =>
    match scheduleEach (scheduleDirectory lib) s.cfg.Schedules.Directories c1 with
    | (some msg, c2) => (.panic msg, { s with cron := c2 })
    | (none, c2) => (.ret none, { s with cron := { c2 with running := true } })

/-- A call of one of the two callbacks given to `Start`. -/
inductive Invocation where
  | dbBackupFunc (cfg : Payload)
  | dirBackupFunc (cfg : Payload)
  deriving DecidableEq, Repr

/-- What running a job does: the callbacks it calls, in order, and the error lines
it logs. The job itself returns nothing. -/
def Job.run (dbBackupFunc dirBackupFunc : Payload → Option String) :
    Job → List Invocation × List String
  | .database dbSchedule =>
    let cfg := Payload.database dbSchedule.Database dbSchedule.AWS
    match dbBackupFunc cfg with
    | some err => ([Invocation.dbBackupFunc cfg], ["Failed to execute scheduled database backup: " ++ err])
    | none => ([Invocation.dbBackupFunc cfg], [])
  | .directory dirSchedule =>
    let cfg := Payload.directory dirSchedule dirSchedule.AWS
    match dirBackupFunc cfg with
    | some err => ([Invocation.dirBackupFunc cfg], ["Failed to execute scheduled directory backup: " ++ err])
    | none => ([Invocation.dirBackupFunc cfg], [])

/-- The database callback of the worker (worker.go lines 37-47); `backupDatabase` is
the method `Service.BackupDatabase`, which runs the external dump tool. -/
def workerDatabaseCallback (backupDatabase : DatabaseConfig → Option AWSConfig → Option String)
    (cfg : Payload) : Option String :=
  match cfg with
  | .database dbConfig aws => backupDatabase dbConfig aws
  | _ => some "invalid database configuration in scheduler"

/-- The directory callback of the worker (worker.go lines 48-58). -/
def workerDirectoryCallback (env : Env) (backupSvc : Service) (store : Store) (cfg : Payload) :
    Option String × Remote :=
  match cfg with
  | .directory dirConfig aws =>
    BackupDirectory env backupSvc store dirConfig.SourcePath dirConfig.Sync dirConfig.Delete aws
  | _ => (some "invalid directory configuration in scheduler", { store := store, trace := [] })

/-- Whether `Start` accepts an expression: it is one of the three presets or it
passes the validation of the cron library. -/
def acceptedExpression (lib : CronLib) (expr : String) : Bool :=
  expr = "daily" ∨ expr = "twice_daily" ∨ expr = "thrice_daily" ∨
    ParseStandard lib expr = .ret none

/-- The specs on which `cron.ParseStandard` panics: those that begin with `TZ=` or
`CRON_TZ=` and hold no space. -/
def parsePanics (spec : String) : Bool :=
  ("TZ=".data.isPrefixOf spec.data = true ∨ "CRON_TZ=".data.isPrefixOf spec.data = true) ∧
    ' ' ∉ spec.data

/-! ## internal/scheduler: the schedule registry

The registry mutates the lists of the configuration it points to. Writing the
configuration file (`viper.WriteConfig`) is outside the repository; its outcome is
the parameter `saveErr` (`none` when it succeeds). It happens after the mutation. -/

/-- The struct `scheduler.ScheduleManager`. -/
structure ScheduleManager where
  cfg : Config
  deriving DecidableEq, Repr

/-- Go zero value of `config.DatabaseSchedule`. -/
def DatabaseSchedule.zero : DatabaseSchedule :=
  { Name := "", Expression := "", Database := DatabaseConfig.zero, AWS := none }

/-- Go zero value of `config.DirectorySchedule`. -/
def DirectorySchedule.zero : DirectorySchedule :=
  { Name := "", Expression := "", SourcePath := "", Sync := false, Delete := false, AWS := none }

/-- The method `ScheduleManager.saveConfig`. -/
def saveConfig (saveErr : Option String) : Option String :=
  match saveErr with
  | some err => some ("failed to save config: " ++ err)
  | none => none

/-- The search `for i, s := range list { if s.Name == name { ... } }` of the two
`Add` methods: the index `i` at which the body runs, if any. -/
def findNamed {σ : Type} (name : σ → String) (target : String) : List σ → Option Nat
  | [] => none
  | s :: rest =>
    if name s = target then some 0 else (findNamed name target rest).map fun i => i + 1

/-- The method `ScheduleManager.AddDatabaseSchedule`. -/
def AddDatabaseSchedule (saveErr : Option String) (sm : ScheduleManager)
    (schedule : DatabaseSchedule) : Option String × ScheduleManager :=
  match findNamed (fun s : DatabaseSchedule => s.Name) schedule.Name sm.cfg.Schedules.Databases with
  | some i =>
    -- Replace existing schedule
    (saveConfig saveErr,
      { cfg := { sm.cfg with Schedules := { sm.cfg.Schedules with
          Databases := sm.cfg.Schedules.Databases.set i schedule } } })
  | none =>
    -- Add new schedule
    (saveConfig saveErr,
      { cfg := { sm.cfg with Schedules := { sm.cfg.Schedules with
          Databases := sm.cfg.Schedules.Databases ++ [schedule] } } })

/-- The method `ScheduleManager.AddDirectorySchedule`. -/
def AddDirectorySchedule (saveErr : Option String) (sm : ScheduleManager)
    (schedule : DirectorySchedule) : Option String × ScheduleManager :=
  match findNamed (fun s : DirectorySchedule => s.Name) schedule.Name sm.cfg.Schedules.Directories with
  | some i =>
    -- Replace existing schedule
    (saveConfig saveErr,
      { cfg := { sm.cfg with Schedules := { sm.cfg.Schedules with
          Directories := sm.cfg.Schedules.Directories.set i schedule } } })
  | none =>
    -- Add new schedule
    (saveConfig saveErr,
      { cfg := { sm.cfg with Schedules := { sm.cfg.Schedules with
          Directories := sm.cfg.Schedules.Directories ++ [schedule] } } })

/-- The method `ScheduleManager.GetDatabaseSchedule`. -/
def GetDatabaseSchedule (sm : ScheduleManager) (name : String) : DatabaseSchedule × Bool :=
  match sm.cfg.Schedules.Databases.find? fun s => s.Name = name with
  | some s => (s, true)
  | none => (DatabaseSchedule.zero, false)

/-- The method `ScheduleManager.GetDirectorySchedule`. -/
def GetDirectorySchedule (sm : ScheduleManager) (name : String) : DirectorySchedule × Bool :=
  match sm.cfg.Schedules.Directories.find? fun s => s.Name = name with
  | some s => (s, true)
  | none => (DirectorySchedule.zero, false)

/-- The filtering loop of `RemoveSchedule` (types.go lines 62-69 and 78-85). The
slice `schedules := list[:0]` shares the backing array of the list it is filled
from: the loop reads element `i` of the array `arr` and appends the entries it
keeps at index `j = len(schedules)` of the same array. The first argument counts
the iterations left; the result is the array, `len(schedules)` and `found`. -/
def removeLoop {σ : Type} (name : σ → String) (target : String) :
    Nat → Nat → List σ → Nat → Bool → List σ × Nat × Bool
  | 0, _, arr, j, found => (arr, j, found)
  | left + 1, i, arr, j, found =>
    match arr.get? i with
    | none => (arr, j, found)
    | some s =>
      if name s ≠ target then removeLoop name target left (i + 1) (arr.set j s) (j + 1) found
      else removeLoop name target left (i + 1) arr j true

/-- The method `ScheduleManager.RemoveSchedule`. When the name is not found the
list of the configuration is still the slice of the old length over the array the
loop has written to. -/
def RemoveSchedule (saveErr : Option String) (sm : ScheduleManager) (name scheduleType : String) :
    Option String × ScheduleManager :=
  if scheduleType = "database" then
    match removeLoop (fun s : DatabaseSchedule => s.Name) name sm.cfg.Schedules.Databases.length 0
        sm.cfg.Schedules.Databases 0 false with
    | (arr, j, found) =>
      if found = false then
        (some ("schedule '" ++ name ++ "' not found"),
          { cfg := { sm.cfg with Schedules := { sm.cfg.Schedules with
              Databases := arr.take sm.cfg.Schedules.Databases.length } } })
      else
        (saveConfig saveErr,
          { cfg := { sm.cfg with Schedules := { sm.cfg.Schedules with Databases := arr.take j } } })
  else if scheduleType = "directory" then
    match removeLoop (fun s : DirectorySchedule => s.Name) name sm.cfg.Schedules.Directories.length 0
        sm.cfg.Schedules.Directories 0 false with
    | (arr, j, found) =>
      if found = false then
        (some ("schedule '" ++ name ++ "' not found"),
          { cfg := { sm.cfg with Schedules := { sm.cfg.Schedules with
              Directories := arr.take sm.cfg.Schedules.Directories.length } } })
      else
        (saveConfig saveErr,
          { cfg := { sm.cfg with Schedules := { sm.cfg.Schedules with Directories := arr.take j } } })
  else (some ("invalid schedule type: " ++ scheduleType), sm)

/-- A directory schedule of the sample registry. -/
def sampleDirSchedule (name expr : String) : DirectorySchedule :=
  { Name := name, Expression := expr, SourcePath := "/data", Sync := true, Delete := false,
    AWS := none }

/-- A database schedule of the sample registry. -/
def sampleDbSchedule (name expr : String) : DatabaseSchedule :=
  { Name := name, Expression := expr, Database := { DatabaseConfig.zero with Name := name },
    AWS := some bucketOverride }

/-- A registry with two database and three directory schedules. -/
def sampleManager : ScheduleManager :=
  { cfg := { sampleConfig with Schedules :=
      { Databases := [sampleDbSchedule "orders" "daily", sampleDbSchedule "users" "bad"]
        Directories :=
          [sampleDirSchedule "docs" "daily", sampleDirSchedule "media" "not a cron",
            sampleDirSchedule "logs" "*/5 * * * *"] } } }

/-- A stand-in for the field parsing of the cron library on the few specs the
samples use: it accepts the three expansions of the presets and `*/5 * * * *`. -/
def sampleParse (spec : String) : Option String :=
  if spec = "0 0 * * *" ∨ spec = "0 */12 * * *" ∨ spec = "0 */8 * * *" ∨ spec = "*/5 * * * *" then none
  else some "invalid spec"

/-- The sample library: every zone loads, fields parse as `sampleParse` says. -/
def sampleLib : CronLib :=
  { loadLocation := fun _ => none, parseFields := sampleParse }

/-- A configuration whose second directory schedule has the expression `TZ=UTC`. -/
def zoneConfig : Config :=
  { sampleConfig with Schedules :=
      { Databases := []
        Directories :=
          [sampleDirSchedule "docs" "daily", sampleDirSchedule "tz" "TZ=UTC",
            sampleDirSchedule "logs" "*/5 * * * *"] } }

/-- The expression `getCronExpression` returns (`""` when it panics). -/
def cronExpressionOf (lib : CronLib) (expr : String) : String :=
  match getCronExpression lib expr with
  | .ret cronExpr => cronExpr
  | .panic _ => ""

/-- Whether an iteration of `Start` adds a job for an expression: the expression
it derives is not empty and `AddFunc` accepts it. -/
def registersExpression (lib : CronLib) (expr : String) : Bool :=
  match getCronExpression lib expr with
  | .ret cronExpr => cronExpr ≠ "" ∧ ParseStandard lib cronExpr = .ret none
  | .panic _ => false

/-- The entry `Start` adds for a database schedule. -/
def databaseEntry (lib : CronLib) (d : DatabaseSchedule) : CronEntry :=
  { spec := cronExpressionOf lib d.Expression, job := Job.database d }

/-- The entry `Start` adds for a directory schedule. -/
def directoryEntry (lib : CronLib) (d : DirectorySchedule) : CronEntry :=
  { spec := cronExpressionOf lib d.Expression, job := Job.directory d }

/-- The database schedules the first loop of `Start` gets through: those before the
first one whose expression makes the validation panic. -/
def reachedDatabases (cfg : Config) : List DatabaseSchedule :=
  cfg.Schedules.Databases.takeWhile fun d => !parsePanics d.Expression

/-- The directory schedules the second loop of `Start` gets through: none when the
first loop panicked, else those before the first one whose expression makes the
validation panic. -/
def reachedDirectories (cfg : Config) : List DirectorySchedule :=
  if cfg.Schedules.Databases.all (fun d => !parsePanics d.Expression) = true then
    cfg.Schedules.Directories.takeWhile fun d => !parsePanics d.Expression
  else []

/-- What the two `Add` methods do to their list: the schedule replaces the first
entry of its name, or is appended when there is none. -/
def upsertNamed {σ : Type} (name : σ → String) (schedule : σ) (list : List σ) : List σ :=
  match findNamed name (name schedule) list with
  | some i => list.set i schedule
  | none => list ++ [schedule]

/-! # Theorems -/

/-! ## Key derivation on normalised paths -/

theorem segments_ne_nil (l : List Char) : segments l ≠ [] := by
  cases l with
  | nil => simp [segments]
  | cons c t =>
    simp only [segments]
    split
    · simp
    · split <;> simp

theorem joinSegs_cons (seg : List Char) (segs : List (List Char)) (h : segs ≠ []) :
    joinSegs (seg :: segs) = seg ++ '/' :: joinSegs segs := by
  cases segs with
  | nil => exact absurd rfl h
  | cons a b => rfl

theorem joinSegs_segments (l : List Char) : joinSegs (segments l) = l := by
  induction l with
  | nil => rfl
  | cons c t ih =>
    simp only [segments]
    split
    · next h =>
      rw [joinSegs_cons _ _ (segments_ne_nil t), ih, h]
      rfl
    · next h =>
      have hne := segments_ne_nil t
      cases hs : segments t with
      | nil => exact absurd hs hne
      | cons seg segs =>
        rw [hs] at ih
        cases segs with
        | nil =>
          simp only [joinSegs] at ih ⊢
          rw [ih]
        | cons a b =>
          simp only [joinSegs] at ih ⊢
          rw [← ih]; rfl

theorem segments_no_slash (l : List Char) : ∀ seg ∈ segments l, '/' ∉ seg := by
  induction l with
  | nil => simp [segments]
  | cons c t ih =>
    simp only [segments]
    split
    · next h =>
      intro seg hseg
      rcases List.mem_cons.1 hseg with h1 | h1
      · simp [h1]
      · exact ih seg h1
    · next h =>
      cases hs : segments t with
      | nil => simp; exact fun hc => h hc.symm
      | cons seg segs =>
        rw [hs] at ih
        intro x hx
        rcases List.mem_cons.1 hx with h1 | h1
        · subst h1
          have := ih seg (List.mem_cons_self _ _)
          simp only [List.mem_cons, not_or]
          exact ⟨fun hc => h hc.symm, this⟩
        · exact ih x (List.mem_cons_of_mem _ h1)

theorem span_segment (seg tail : List Char) (hs : '/' ∉ seg)
    (ht : tail = [] ∨ tail.head? = some '/') :
    (seg ++ tail).takeWhile (fun b => b ≠ '/') = seg ∧
      (seg ++ tail).dropWhile (fun b => b ≠ '/') = tail := by
  induction seg with
  | nil =>
    rcases ht with rfl | ht
    · simp
    · cases tail with
      | nil => simp
      | cons a b =>
        simp only [List.head?_cons, Option.some.injEq] at ht
        subst ht
        simp
  | cons c s ih =>
    simp only [List.mem_cons, not_or] at hs
    have hc : c ≠ '/' := fun h => hs.1 h.symm
    have := ih hs.2
    simpa [List.takeWhile_cons, List.dropWhile_cons, hc] using this

theorem cleanLoop_nil (rooted : Bool) (fuel : Nat) (out : List Char) (dotdot : Nat) :
    cleanLoop rooted fuel [] out dotdot = out := by
  cases fuel <;> simp [cleanLoop]

theorem cleanLoop_slash (rooted : Bool) (fuel : Nat) (t out : List Char) (dotdot : Nat) :
    cleanLoop rooted (fuel + 1) ('/' :: t) out dotdot = cleanLoop rooted fuel t out dotdot := by
  simp [cleanLoop]

/-- One iteration of the loop on a real path element, for a relative path. -/
theorem cleanLoop_elem (fuel : Nat) (seg tail out : List Char) (dotdot : Nat)
    (h1 : seg ≠ []) (h2 : '/' ∉ seg) (h3 : seg ≠ ['.']) (h4 : seg ≠ ['.', '.'])
    (ht : tail = [] ∨ tail.head? = some '/') :
    cleanLoop false (fuel + 1) (seg ++ tail) out dotdot =
      cleanLoop false fuel tail ((if out.length ≠ 0 then out ++ ['/'] else out) ++ seg) dotdot := by
  obtain ⟨hsp1, hsp2⟩ := span_segment seg tail h2 ht
  cases seg with
  | nil => exact absurd rfl h1
  | cons c s =>
    simp only [List.mem_cons, not_or] at h2
    have hc : c ≠ '/' := fun h => h2.1 h.symm
    have hA : ¬ (c = '.' ∧ (s ++ tail = [] ∨ (s ++ tail).head? = some '/')) := by
      rintro ⟨rfl, h | h⟩
      · simp only [List.append_eq_nil] at h
        exact h3 (by rw [h.1])
      · cases s with
        | nil => exact h3 rfl
        | cons d s' =>
          simp only [List.cons_append, List.head?_cons, Option.some.injEq] at h
          subst h
          exact h2.2 (List.mem_cons_self _ _)
    have hB : ¬ (c = '.' ∧ (s ++ tail).head? = some '.' ∧
        ((s ++ tail).tail = [] ∨ (s ++ tail).tail.head? = some '/')) := by
      rintro ⟨rfl, hd, h⟩
      cases s with
      | nil =>
        simp only [List.nil_append] at hd
        rcases ht with rfl | ht
        · simp at hd
        · rw [ht] at hd; simp at hd
      | cons d s' =>
        simp only [List.cons_append, List.head?_cons, Option.some.injEq] at hd
        subst hd
        simp only [List.cons_append, List.tail_cons] at h
        rcases h with h | h
        · simp only [List.append_eq_nil] at h
          exact h4 (by rw [h.1])
        · cases s' with
          | nil => exact h4 rfl
          | cons e s'' =>
            simp only [List.cons_append, List.head?_cons, Option.some.injEq] at h
            subst h
            exact h2.2 (List.mem_cons_of_mem _ (List.mem_cons_self _ _))
    rw [List.cons_append] at hsp1 hsp2 ⊢
    rw [cleanLoop]
    simp only [hc, hA, hB, if_false, hsp1, hsp2]
    simp

theorem joinSegs_length_pos (segs : List (List Char)) (h : segs ≠ [])
    (hv : ∀ seg ∈ segs, seg ≠ []) : 0 < (joinSegs segs).length := by
  cases segs with
  | nil => exact absurd rfl h
  | cons a b =>
    have ha := hv a (List.mem_cons_self _ _)
    cases b with
    | nil => simpa [joinSegs] using List.length_pos.2 ha
    | cons c d => simp [joinSegs]

/-- The loop copies a sequence of real path elements to the buffer unchanged. -/
theorem cleanLoop_joinSegs (segs : List (List Char)) :
    ∀ (fuel : Nat) (out : List Char) (dotdot : Nat), segs ≠ [] →
      (∀ seg ∈ segs, seg ≠ [] ∧ '/' ∉ seg ∧ seg ≠ ['.'] ∧ seg ≠ ['.', '.']) →
      (joinSegs segs).length ≤ fuel →
      cleanLoop false fuel (joinSegs segs) out dotdot =
        (if out.length ≠ 0 then out ++ ['/'] else out) ++ joinSegs segs := by
  induction segs with
  | nil => intro _ _ _ h; exact absurd rfl h
  | cons seg rest ih =>
    intro fuel out dotdot _ hv hfuel
    obtain ⟨h1, h2, h3, h4⟩ := hv seg (List.mem_cons_self _ _)
    cases rest with
    | nil =>
      simp only [joinSegs] at hfuel ⊢
      have hpos : 0 < seg.length := List.length_pos.2 h1
      obtain ⟨f, rfl⟩ : ∃ f, fuel = f + 1 := ⟨fuel - 1, by omega⟩
      have := cleanLoop_elem f seg [] out dotdot h1 h2 h3 h4 (Or.inl rfl)
      rw [List.append_nil] at this
      rw [this, cleanLoop_nil]
    | cons seg2 rest2 =>
      have hv2 : ∀ x ∈ seg2 :: rest2, x ≠ [] ∧ '/' ∉ x ∧ x ≠ ['.'] ∧ x ≠ ['.', '.'] :=
        fun x hx => hv x (List.mem_cons_of_mem _ hx)
      have hpos : 0 < seg.length := List.length_pos.2 h1
      simp only [joinSegs_cons seg (seg2 :: rest2) (by simp)] at hfuel ⊢
      simp only [List.length_append, List.length_cons] at hfuel
      obtain ⟨f, rfl⟩ : ∃ f, fuel = f + 2 := ⟨fuel - 2, by omega⟩
      rw [cleanLoop_elem (f + 1) seg ('/' :: joinSegs (seg2 :: rest2)) out dotdot h1 h2 h3 h4
        (Or.inr rfl), cleanLoop_slash, ih f _ dotdot (by simp) hv2 (by omega)]
      have hlen : ((if out.length ≠ 0 then out ++ ['/'] else out) ++ seg).length ≠ 0 := by
        simp only [List.length_append]; omega
      rw [if_pos hlen]
      simp

/-- On a non-empty sequence of real path elements `path.Clean` is the identity. -/
theorem Clean_joinSegs (segs : List (List Char)) (hne : segs ≠ [])
    (hv : ∀ seg ∈ segs, seg ≠ [] ∧ '/' ∉ seg ∧ seg ≠ ['.'] ∧ seg ≠ ['.', '.']) :
    Clean (String.mk (joinSegs segs)) = String.mk (joinSegs segs) := by
  have hpos := joinSegs_length_pos segs hne (fun s hs => (hv s hs).1)
  have hhead : (joinSegs segs).head? ≠ some '/' := by
    cases segs with
    | nil => exact absurd rfl hne
    | cons a b =>
      obtain ⟨h1, h2, -, -⟩ := hv a (List.mem_cons_self _ _)
      cases a with
      | nil => exact absurd rfl h1
      | cons c s =>
        simp only [List.mem_cons, not_or] at h2
        cases b with
        | nil => simp [joinSegs]; exact fun h => h2.1 h.symm
        | cons d e => simp [joinSegs]; exact fun h => h2.1 h.symm
  have hne2 : String.mk (joinSegs segs) ≠ "" := by
    intro h
    have := congrArg String.length h
    simp only [String.length] at this
    simp at this
    rw [this] at hpos
    simp at hpos
  unfold Clean
  rw [if_neg hne2]
  simp only [hhead, decide_False, Bool.false_eq_true, if_false]
  rw [cleanLoop_joinSegs segs _ [] 0 hne hv (le_refl _)]
  simp only [List.length_nil, ne_eq, not_true_eq_false, if_false, List.nil_append]
  rw [if_neg (by omega)]

theorem joinSegs_append (a b : List (List Char)) (ha : a ≠ []) (hb : b ≠ []) :
    joinSegs (a ++ b) = joinSegs a ++ '/' :: joinSegs b := by
  induction a with
  | nil => exact absurd rfl ha
  | cons x xs ih =>
    cases xs with
    | nil =>
      rw [List.singleton_append, joinSegs_cons x b hb]
      rfl
    | cons y ys =>
      rw [List.cons_append, joinSegs_cons x _ (by simp), ih (by simp),
        joinSegs_cons x (y :: ys) (by simp)]
      simp

theorem Normalised.valid {p : String} (hp : Normalised p) :
    ∀ seg ∈ segments p.data, seg ≠ [] ∧ '/' ∉ seg ∧ seg ≠ ['.'] ∧ seg ≠ ['.', '.'] :=
  fun seg hseg =>
    ⟨(hp seg hseg).1, segments_no_slash p.data seg hseg, (hp seg hseg).2.1, (hp seg hseg).2.2⟩

theorem Normalised.ne_empty {p : String} (hp : Normalised p) : p ≠ "" := by
  rintro rfl
  exact (hp [] (by simp [segments])).1 rfl

theorem data_length_pos {p : String} (hp : p ≠ "") : 0 < p.data.length := by
  rcases p with ⟨l⟩
  cases l with
  | nil => exact absurd rfl hp
  | cons a b => simp

/-- Joining a single normalised path gives the path back. -/
theorem Join_single (p : String) (hp : Normalised p) : Join [p] = p := by
  have hne := hp.ne_empty
  have hpos := data_length_pos hne
  unfold Join
  simp only [List.map_cons, List.map_nil, List.sum_cons, List.sum_nil, Nat.add_zero,
    List.foldl_cons, List.foldl_nil, List.length_nil, Nat.lt_irrefl, false_or, if_false,
    List.nil_append]
  rw [if_neg (by omega), if_pos hne]
  have h := Clean_joinSegs (segments p.data) (segments_ne_nil _) hp.valid
  rw [joinSegs_segments] at h
  exact h

/-- Joining a normalised prefix and a normalised path puts one slash between them. -/
theorem Join_pair (pfx p : String) (hpfx : Normalised pfx) (hp : Normalised p) :
    Join [pfx, p] = pfx ++ "/" ++ p := by
  have hne := hpfx.ne_empty
  have hpos := data_length_pos hne
  unfold Join
  simp only [List.map_cons, List.map_nil, List.sum_cons, List.sum_nil, Nat.add_zero,
    List.foldl_cons, List.foldl_nil, List.length_nil, Nat.lt_irrefl, false_or, if_false,
    List.nil_append]
  rw [if_neg (by omega), if_pos hne]
  simp only [hpos, true_or, if_true]
  have hv : ∀ seg ∈ segments pfx.data ++ segments p.data,
      seg ≠ [] ∧ '/' ∉ seg ∧ seg ≠ ['.'] ∧ seg ≠ ['.', '.'] := by
    intro seg hseg
    rcases List.mem_append.1 hseg with h | h
    · exact hpfx.valid seg h
    · exact hp.valid seg h
  have h := Clean_joinSegs (segments pfx.data ++ segments p.data)
    (by simp [segments_ne_nil]) hv
  rw [joinSegs_append _ _ (segments_ne_nil _) (segments_ne_nil _), joinSegs_segments,
    joinSegs_segments] at h
  have e : pfx ++ "/" ++ p = String.mk (pfx.data ++ '/' :: p.data) := by
    apply String.ext
    simp [String.data_append]
  rw [e, ← h]
  simp

/-- C10: for every normalised slash-separated relative path `p`, `GetObjectKey "" p`
is `p` itself, and for every non-empty normalised prefix `GetObjectKey pfx p` is
the prefix, one slash and `p`; in particular `a/b.txt` is kept under the empty
prefix and becomes `backups/a/b.txt` under the prefix `backups`. -/
theorem GetObjectKey_normalised (p : String) (hp : Normalised p) :
    GetObjectKey "" [p] = p ∧
      (∀ pfx : String, pfx ≠ "" → Normalised pfx → GetObjectKey pfx [p] = pfx ++ "/" ++ p) ∧
      GetObjectKey "" ["a/b.txt"] = "a/b.txt" ∧
      GetObjectKey "backups" ["a/b.txt"] = "backups/a/b.txt" := by
  refine ⟨?_, ?_, by decide, by decide⟩
  · unfold GetObjectKey
    rw [if_pos rfl]
    exact Join_single p hp
  · intro pfx hne hpfx
    unfold GetObjectKey
    rw [if_neg hne]
    exact Join_pair pfx p hpfx hp

/-- C10 at the path `subdir/test3.txt` and the prefix `backups`. -/
theorem GetObjectKey_normalised_witness :
    Normalised "subdir/test3.txt" ∧ GetObjectKey "" ["subdir/test3.txt"] = "subdir/test3.txt" ∧
      GetObjectKey "backups" ["subdir/test3.txt"] = "backups" ++ "/" ++ "subdir/test3.txt" :=
  ⟨by decide, (GetObjectKey_normalised "subdir/test3.txt" (by decide)).1,
    (GetObjectKey_normalised "subdir/test3.txt" (by decide)).2.1 "backups" (by decide)
      (by decide)⟩

/-- The iteration bound of `cleanLoop` is never the reason the loop ends: with at
least as many iterations as unread bytes the result does not depend on it. -/
theorem cleanLoop_fuel (rooted : Bool) :
    ∀ (n : Nat) (rest out : List Char) (dotdot f1 f2 : Nat),
      rest.length ≤ n → n ≤ f1 → n ≤ f2 →
      cleanLoop rooted f1 rest out dotdot = cleanLoop rooted f2 rest out dotdot := by
  intro n
  induction n with
  | zero =>
    intro rest out dotdot f1 f2 hlen _ _
    have : rest = [] := List.length_eq_zero.1 (Nat.le_zero.1 hlen)
    subst this
    rw [cleanLoop_nil, cleanLoop_nil]
  | succ n ih =>
    intro rest out dotdot f1 f2 hlen h1 h2
    cases rest with
    | nil => rw [cleanLoop_nil, cleanLoop_nil]
    | cons c t =>
      obtain ⟨a, rfl⟩ : ∃ a, f1 = a + 1 := ⟨f1 - 1, by omega⟩
      obtain ⟨b, rfl⟩ : ∃ b, f2 = b + 1 := ⟨f2 - 1, by omega⟩
      have ht : t.length ≤ n := by simpa using hlen
      have htt : t.tail.length ≤ n := by rw [List.length_tail]; omega
      simp only [cleanLoop]
      split
      · exact ih _ _ _ _ _ ht (by omega) (by omega)
      · split
        · exact ih _ _ _ _ _ ht (by omega) (by omega)
        · split
          · split
            · exact ih _ _ _ _ _ htt (by omega) (by omega)
            · split
              · exact ih _ _ _ _ _ htt (by omega) (by omega)
              · exact ih _ _ _ _ _ htt (by omega) (by omega)
          · next hc _ _ =>
            have hd : ((c :: t).dropWhile fun b => decide (b ≠ '/')).length ≤ n := by
              rw [List.dropWhile_cons_of_pos (by simpa using hc)]
              exact le_trans (List.dropWhile_sublist _).length_le ht
            exact ih _ _ _ _ _ hd (by omega) (by omega)

/-- Under the empty prefix or a normalised one, normalised relative paths that
differ have keys that differ. -/
theorem GetObjectKey_injective (pfx : String) (hpfx : pfx = "" ∨ Normalised pfx) (p q : String)
    (hp : Normalised p) (hq : Normalised q)
    (h : GetObjectKey pfx [p] = GetObjectKey pfx [q]) : p = q := by
  unfold GetObjectKey at h
  rcases hpfx with rfl | hpfx
  · rw [if_pos rfl, if_pos rfl, Join_single p hp, Join_single q hq] at h
    exact h
  · rw [if_neg hpfx.ne_empty, if_neg hpfx.ne_empty] at h
    have e1 := Join_pair pfx p hpfx hp
    have e2 := Join_pair pfx q hpfx hq
    simp only [List.singleton_append] at h
    rw [e1, e2] at h
    have := congrArg String.data h
    simp only [String.data_append, List.append_cancel_left_eq] at this
    exact String.ext this

/-- The keys of a walk are pairwise distinct when the relative paths are normalised
and pairwise distinct, under the empty prefix or a normalised one. -/
theorem fileKey_nodup (s : Service) (awsCfg : Option AWSConfig) (files : List Entry)
    (hpfx : keyPrefix s awsCfg = "" ∨ Normalised (keyPrefix s awsCfg))
    (hn : ∀ e ∈ files, Normalised e.relPath) (hnd : (files.map fun e => e.relPath).Nodup) :
    (files.map (fileKey s awsCfg)).Nodup := by
  induction files with
  | nil => simp
  | cons e es ih =>
    rw [List.map_cons, List.nodup_cons] at hnd ⊢
    refine ⟨?_, ih (fun x hx => hn x (List.mem_cons_of_mem _ hx)) hnd.2⟩
    intro hmem
    obtain ⟨x, hx, hkey⟩ := List.mem_map.1 hmem
    apply hnd.1
    have := GetObjectKey_injective _ hpfx x.relPath e.relPath
      (hn x (List.mem_cons_of_mem _ hx)) (hn e (List.mem_cons_self _ _)) hkey
    exact List.mem_map.2 ⟨x, hx, this⟩

/-! ## The object store -/

theorem find?_filter_of_imp {α : Type} (p q : α → Bool) (l : List α)
    (h : ∀ x, q x = true → p x = true) : (l.filter p).find? q = l.find? q := by
  induction l with
  | nil => rfl
  | cons x xs ih =>
    by_cases hp : p x = true
    · by_cases hq : q x = true
      · simp [List.filter_cons, hp, List.find?_cons, hq]
      · simp [List.filter_cons, hp, List.find?_cons, hq, ih]
    · have hq : ¬ q x = true := fun hq => hp (h x hq)
      simp [List.filter_cons, hp, List.find?_cons, hq, ih]

theorem Store.get_filter_ne (st : Store) (b k b1 k1 : String) (h : ¬(b1 = b ∧ k1 = k)) :
    Store.get (st.filter fun e => ¬(e.bucket = b ∧ e.key = k)) b1 k1 = Store.get st b1 k1 := by
  unfold Store.get
  rw [find?_filter_of_imp]
  intro x hx
  simp only [decide_eq_true_eq] at hx ⊢
  rintro ⟨h1, h2⟩
  exact h ⟨hx.1.symm.trans h1, hx.2.symm.trans h2⟩

theorem Store.get_filter_eq (st : Store) (b k : String) :
    Store.get (st.filter fun e => ¬(e.bucket = b ∧ e.key = k)) b k = none := by
  unfold Store.get
  rw [Option.map_eq_none', List.find?_eq_none]
  intro x hx
  have := (List.mem_filter.1 hx).2
  simp only [decide_eq_true_eq] at this ⊢
  exact this

theorem Store.get_put_eq (st : Store) (b k : String) (o : Object) :
    (st.put b k o).get b k = some o := by
  simp [Store.get, Store.put]

theorem Store.get_put_ne (st : Store) (b k b1 k1 : String) (o : Object) (h : ¬(b1 = b ∧ k1 = k)) :
    (st.put b k o).get b1 k1 = st.get b1 k1 := by
  have h2 : ¬(b = b1 ∧ k = k1) := fun hh => h ⟨hh.1.symm, hh.2.symm⟩
  have := Store.get_filter_ne st b k b1 k1 h
  unfold Store.get at this ⊢
  unfold Store.put
  simp only [List.find?_cons, h2, decide_False]
  exact this

theorem Store.get_remove_eq (st : Store) (b k : String) : (st.remove b k).get b k = none :=
  Store.get_filter_eq st b k

theorem Store.get_remove_ne (st : Store) (b k b1 k1 : String) (h : ¬(b1 = b ∧ k1 = k)) :
    (st.remove b k).get b1 k1 = st.get b1 k1 :=
  Store.get_filter_ne st b k b1 k1 h

theorem Store.get_of_mem_keys (st : Store) (b pfx k : String) (h : k ∈ st.keys b pfx) :
    ∃ o, st.get b k = some o := by
  unfold Store.keys at h
  obtain ⟨x, hx, rfl⟩ := List.mem_map.1 h
  obtain ⟨hx1, hx2⟩ := List.mem_filter.1 hx
  simp only [Bool.decide_and, Bool.and_eq_true, decide_eq_true_eq] at hx2
  unfold Store.get
  cases hf : st.find? fun e => e.bucket = b ∧ e.key = x.key with
  | none =>
    rw [List.find?_eq_none] at hf
    have := hf x hx1
    simp [hx2.1] at this
  | some y => exact ⟨y.obj, rfl⟩

theorem mem_foldl_insert (l : List String) : ∀ (acc : List String) (k : String),
    k ∈ l.foldl (fun m file => if file ∈ m then m else m ++ [file]) acc ↔ k ∈ acc ∨ k ∈ l := by
  induction l with
  | nil => intro acc k; simp
  | cons x xs ih =>
    intro acc k
    rw [List.foldl_cons, ih]
    by_cases hx : x ∈ acc
    · rw [if_pos hx]
      constructor
      · rintro (h | h)
        · exact Or.inl h
        · exact Or.inr (List.mem_cons_of_mem _ h)
      · rintro (h | h)
        · exact Or.inl h
        · rcases List.mem_cons.1 h with rfl | h
          · exact Or.inl hx
          · exact Or.inr h
    · rw [if_neg hx]
      simp only [List.mem_append, List.mem_singleton, List.mem_cons]
      tauto

theorem mem_mkFileMap (l : List String) (k : String) : k ∈ mkFileMap l ↔ k ∈ l := by
  unfold mkFileMap
  rw [mem_foldl_insert]
  simp

/-! ## The walk of BackupDirectory -/

theorem walkFn_dir {env : Env} {c : Client} {pfx : String} {sync : Bool} {st st1 : WalkState}
    {e : Entry} (h : walkFn env c pfx sync st e = (none, st1)) (hd : e.isDir = true) :
    st1 = st := by
  unfold walkFn at h
  cases hw : e.walkErr with
  | some err => rw [hw] at h; simp at h
  | none =>
    rw [hw] at h
    simp only [hd, if_true, Prod.mk.injEq, true_and] at h
    exact h.symm

theorem uploadFile_ok {env : Env} {c : Client} {key : String} {e : Entry} {st st1 : WalkState}
    (h : uploadFile env c key e st = (none, st1)) :
    st1 =
      { remote :=
          { store := st.remote.store.put c.bucket key
              { lastModified := env.stamp c.bucket key, body := e.body }
            trace := st.remote.trace ++ [Call.put c.bucket key e.body] }
        s3FileMap := st.s3FileMap } := by
  unfold uploadFile at h
  cases ho : e.openErr with
  | some err => rw [ho] at h; simp at h
  | none =>
    rw [ho] at h
    unfold Client.Upload at h
    cases hf : env.fault (Call.put c.bucket key e.body) with
    | some err => rw [hf] at h; simp at h
    | none =>
      rw [hf] at h
      simp only [Prod.mk.injEq, true_and] at h
      exact h.symm

/-- What a successful call of the walk callback on a regular file does. -/
theorem walkFn_ok {env : Env} {c : Client} {pfx : String} {sync : Bool} {st st1 : WalkState}
    {e : Entry} (h : walkFn env c pfx sync st e = (none, st1)) (hd : e.isDir = false) :
    ∃ up : Bool,
      (up = true ↔ (sync = false ∨ GetObjectKey pfx [e.relPath] ∉ st.s3FileMap ∨
        ∃ o, st.remote.store.get c.bucket (GetObjectKey pfx [e.relPath]) = some o ∧
          o.lastModified < e.modTime)) ∧
      (up = false → ∃ o, st.remote.store.get c.bucket (GetObjectKey pfx [e.relPath]) = some o) ∧
      st1.remote.trace = st.remote.trace ++
        (if sync = true ∧ GetObjectKey pfx [e.relPath] ∈ st.s3FileMap then
          [Call.head c.bucket (GetObjectKey pfx [e.relPath])] else []) ++
        (if up = true then [Call.put c.bucket (GetObjectKey pfx [e.relPath]) e.body] else []) ∧
      st1.remote.store =
        (if up = true then
          st.remote.store.put c.bucket (GetObjectKey pfx [e.relPath])
            { lastModified := env.stamp c.bucket (GetObjectKey pfx [e.relPath]), body := e.body }
        else st.remote.store) ∧
      st1.s3FileMap =
        (if sync = true then st.s3FileMap.filter fun k => k ≠ GetObjectKey pfx [e.relPath]
        else st.s3FileMap) := by
  unfold walkFn at h
  generalize GetObjectKey pfx [e.relPath] = key at h ⊢
  cases hw : e.walkErr with
  | some err => rw [hw] at h; simp at h
  | none =>
    rw [hw] at h
    simp only [hd, Bool.false_eq_true, if_false] at h
    cases sync with
    | false =>
      simp only [Bool.false_eq_true, if_false] at h
      have := uploadFile_ok h
      subst this
      exact ⟨true, by simp, by simp, by simp, by simp, by simp⟩
    | true =>
      simp only [if_true] at h
      unfold syncCheck at h
      by_cases hk : key ∈ st.s3FileMap
      · simp only [hk, if_true] at h
        unfold Client.GetObjectMetadata at h
        cases hf : env.fault (Call.head c.bucket key) with
        | some err => rw [hf] at h; simp at h
        | none =>
          rw [hf] at h
          cases hg : st.remote.store.get c.bucket key with
          | none => rw [hg] at h; simp at h
          | some o =>
            rw [hg] at h
            simp only at h
            by_cases hlt : o.lastModified < e.modTime
            · simp only [hlt, decide_True, if_true] at h
              have := uploadFile_ok h
              subst this
              exact ⟨true, by simp [hk, hlt], by simp, by simp [hk], by simp, by simp⟩
            · simp only [hlt, decide_False, Bool.false_eq_true, if_false, Prod.mk.injEq,
                true_and] at h
              subst h
              exact ⟨false, by simp [hk, hlt], by simp, by simp [hk], by simp, by simp⟩
      · simp only [hk, if_false, if_true] at h
        have := uploadFile_ok h
        subst this
        exact ⟨true, by simp [hk], by simp, by simp [hk], by simp, by simp⟩

theorem walk_cons_ok {env : Env} {c : Client} {pfx : String} {sync : Bool} {e : Entry}
    {es : List Entry} {st st2 : WalkState}
    (h : walk env c pfx sync (e :: es) st = (none, st2)) :
    ∃ st1, walkFn env c pfx sync st e = (none, st1) ∧ walk env c pfx sync es st1 = (none, st2) := by
  rw [walk] at h
  cases hf : walkFn env c pfx sync st e with
  | mk res st1 =>
    rw [hf] at h
    cases res with
    | some err => simp at h
    | none => exact ⟨st1, rfl, h⟩

/-- After a successful walk in sync mode the map holds the keys it held before
that are not the key of a visited regular file. -/
theorem walk_map {env : Env} {c : Client} {pfx : String} (es : List Entry) :
    ∀ {st st2 : WalkState}, walk env c pfx true es st = (none, st2) →
      ∀ k, k ∈ st2.s3FileMap ↔
        k ∈ st.s3FileMap ∧ ∀ e ∈ es, e.isDir = false → k ≠ GetObjectKey pfx [e.relPath] := by
  induction es with
  | nil =>
    intro st st2 h k
    simp only [walk, Prod.mk.injEq, true_and] at h
    subst h
    simp
  | cons e es ih =>
    intro st st2 h k
    obtain ⟨st1, h1, h2⟩ := walk_cons_ok h
    rw [ih h2 k]
    cases hd : e.isDir with
    | true =>
      have := walkFn_dir h1 hd
      subst this
      simp [hd]
    | false =>
      obtain ⟨up, -, -, -, -, hm⟩ := walkFn_ok h1 hd
      simp only [if_true] at hm
      rw [hm]
      simp only [List.mem_filter, decide_eq_true_eq, List.mem_cons, forall_eq_or_imp, hd,
        true_implies, ne_eq, decide_not, Bool.not_eq_eq_eq_not, Bool.not_true,
        decide_eq_false_iff_not]
      tauto

/-- The calls a successful walk adds to the trace are metadata fetches (in sync
mode only) and uploads, each for the key of a visited regular file. -/
theorem walk_trace {env : Env} {c : Client} {pfx : String} {sync : Bool} (es : List Entry) :
    ∀ {st st2 : WalkState}, walk env c pfx sync es st = (none, st2) →
      ∀ call ∈ st2.remote.trace, call ∈ st.remote.trace ∨
        ∃ e ∈ es, e.isDir = false ∧
          ((sync = true ∧ call = Call.head c.bucket (GetObjectKey pfx [e.relPath])) ∨
            call = Call.put c.bucket (GetObjectKey pfx [e.relPath]) e.body) := by
  induction es with
  | nil =>
    intro st st2 h call hc
    simp only [walk, Prod.mk.injEq, true_and] at h
    subst h
    exact Or.inl hc
  | cons e es ih =>
    intro st st2 h call hc
    obtain ⟨st1, h1, h2⟩ := walk_cons_ok h
    rcases ih h2 call hc with h3 | ⟨e1, he1, h3⟩
    · cases hd : e.isDir with
      | true =>
        have := walkFn_dir h1 hd
        subst this
        exact Or.inl h3
      | false =>
        obtain ⟨up, -, -, ht, -, -⟩ := walkFn_ok h1 hd
        rw [ht] at h3
        simp only [List.mem_append] at h3
        rcases h3 with (h3 | h3) | h3
        · exact Or.inl h3
        · right
          refine ⟨e, List.mem_cons_self _ _, hd, Or.inl ?_⟩
          split at h3
          · next hs => exact ⟨hs.1, List.mem_singleton.1 h3⟩
          · simp at h3
        · right
          refine ⟨e, List.mem_cons_self _ _, hd, Or.inr ?_⟩
          split at h3
          · exact List.mem_singleton.1 h3
          · simp at h3
    · exact Or.inr ⟨e1, List.mem_cons_of_mem _ he1, h3⟩

/-- A successful walk keeps every call already in the trace. -/
theorem walk_trace_mono {env : Env} {c : Client} {pfx : String} {sync : Bool} (es : List Entry) :
    ∀ {st st2 : WalkState}, walk env c pfx sync es st = (none, st2) →
      ∀ call ∈ st.remote.trace, call ∈ st2.remote.trace := by
  induction es with
  | nil =>
    intro st st2 h call hc
    simp only [walk, Prod.mk.injEq, true_and] at h
    subst h
    exact hc
  | cons e es ih =>
    intro st st2 h call hc
    obtain ⟨st1, h1, h2⟩ := walk_cons_ok h
    apply ih h2
    cases hd : e.isDir with
    | true =>
      have := walkFn_dir h1 hd
      subst this
      exact hc
    | false =>
      obtain ⟨up, -, -, ht, -, -⟩ := walkFn_ok h1 hd
      rw [ht]
      simp only [List.mem_append]
      exact Or.inl (Or.inl hc)

/-- A successful walk leaves every object alone whose address is not the key of a
visited regular file in the bucket of the client. -/
theorem walk_frame {env : Env} {c : Client} {pfx : String} {sync : Bool} (es : List Entry) :
    ∀ {st st2 : WalkState}, walk env c pfx sync es st = (none, st2) →
      ∀ b k, (∀ e ∈ es, e.isDir = false → ¬(b = c.bucket ∧ k = GetObjectKey pfx [e.relPath])) →
        st2.remote.store.get b k = st.remote.store.get b k := by
  induction es with
  | nil =>
    intro st st2 h b k _
    simp only [walk, Prod.mk.injEq, true_and] at h
    subst h
    rfl
  | cons e es ih =>
    intro st st2 h b k hk
    obtain ⟨st1, h1, h2⟩ := walk_cons_ok h
    rw [ih h2 b k fun e1 he1 => hk e1 (List.mem_cons_of_mem _ he1)]
    cases hd : e.isDir with
    | true =>
      have := walkFn_dir h1 hd
      subst this
      rfl
    | false =>
      obtain ⟨up, -, -, -, hs, -⟩ := walkFn_ok h1 hd
      rw [hs]
      split
      · exact Store.get_put_ne _ _ _ _ _ _ (hk e (List.mem_cons_self _ _) hd)
      · rfl

/-- A successful walk removes no object. -/
theorem walk_keeps {env : Env} {c : Client} {pfx : String} {sync : Bool} (es : List Entry) :
    ∀ {st st2 : WalkState}, walk env c pfx sync es st = (none, st2) →
      ∀ b k, (st.remote.store.get b k).isSome = true → (st2.remote.store.get b k).isSome = true := by
  induction es with
  | nil =>
    intro st st2 h b k hk
    simp only [walk, Prod.mk.injEq, true_and] at h
    subst h
    exact hk
  | cons e es ih =>
    intro st st2 h b k hk
    obtain ⟨st1, h1, h2⟩ := walk_cons_ok h
    apply ih h2
    cases hd : e.isDir with
    | true =>
      have := walkFn_dir h1 hd
      subst this
      exact hk
    | false =>
      obtain ⟨up, -, -, -, hs, -⟩ := walkFn_ok h1 hd
      rw [hs]
      split
      · by_cases hb : b = c.bucket ∧ k = GetObjectKey pfx [e.relPath]
        · rw [hb.1, hb.2, Store.get_put_eq]; rfl
        · rw [Store.get_put_ne _ _ _ _ _ _ hb]; exact hk
      · exact hk

/-- After a successful walk the store holds an object at the key of every visited
regular file. -/
theorem walk_stored {env : Env} {c : Client} {pfx : String} {sync : Bool} (es : List Entry) :
    ∀ {st st2 : WalkState}, walk env c pfx sync es st = (none, st2) →
      ∀ e ∈ es, e.isDir = false →
        (st2.remote.store.get c.bucket (GetObjectKey pfx [e.relPath])).isSome = true := by
  induction es with
  | nil => intro st st2 _ e he; simp at he
  | cons e es ih =>
    intro st st2 h e1 he1 hd1
    obtain ⟨st1, h1, h2⟩ := walk_cons_ok h
    rcases List.mem_cons.1 he1 with rfl | he1
    · apply walk_keeps es h2
      obtain ⟨up, -, hskip, -, hs, -⟩ := walkFn_ok h1 hd1
      rw [hs]
      cases up with
      | true => simp [Store.get_put_eq]
      | false =>
        obtain ⟨o, ho⟩ := hskip rfl
        simp [ho]
    · exact ih h2 e1 he1 hd1

/-- Without sync a successful walk issues exactly one upload per visited regular
file, in the order of the walk. -/
theorem walk_nosync {env : Env} {c : Client} {pfx : String} (es : List Entry) :
    ∀ {st st2 : WalkState}, walk env c pfx false es st = (none, st2) →
      st2.remote.trace = st.remote.trace ++
        (regularFiles es).map fun e => Call.put c.bucket (GetObjectKey pfx [e.relPath]) e.body := by
  induction es with
  | nil =>
    intro st st2 h
    simp only [walk, Prod.mk.injEq, true_and] at h
    subst h
    simp [regularFiles]
  | cons e es ih =>
    intro st st2 h
    obtain ⟨st1, h1, h2⟩ := walk_cons_ok h
    rw [ih h2]
    cases hd : e.isDir with
    | true =>
      have := walkFn_dir h1 hd
      subst this
      simp [regularFiles, hd]
    | false =>
      obtain ⟨up, hup, -, ht, -, -⟩ := walkFn_ok h1 hd
      have : up = true := hup.2 (Or.inl rfl)
      subst this
      rw [ht]
      simp [regularFiles, hd]

theorem regularFiles_cons_dir {e : Entry} (es : List Entry) (hd : e.isDir = true) :
    regularFiles (e :: es) = regularFiles es := by
  simp [regularFiles, hd]

theorem regularFiles_cons_file {e : Entry} (es : List Entry) (hd : e.isDir = false) :
    regularFiles (e :: es) = e :: regularFiles es := by
  simp [regularFiles, hd]

theorem mem_regularFiles {e : Entry} {es : List Entry} :
    e ∈ regularFiles es ↔ e ∈ es ∧ e.isDir = false := by
  simp [regularFiles]

/-- In sync mode, when distinct visited files have distinct keys, a successful walk
uploads a file exactly when its key is not in the map at the start, or the stored
object is older than the file. -/
theorem walk_put_iff {env : Env} {c : Client} {pfx : String} (es : List Entry) :
    ∀ {st st2 : WalkState}, walk env c pfx true es st = (none, st2) →
      ((regularFiles es).map fun e => GetObjectKey pfx [e.relPath]).Nodup →
      ∀ e ∈ es, e.isDir = false →
        (∀ body, Call.put c.bucket (GetObjectKey pfx [e.relPath]) body ∉ st.remote.trace) →
        ((∃ body, Call.put c.bucket (GetObjectKey pfx [e.relPath]) body ∈ st2.remote.trace) ↔
          (GetObjectKey pfx [e.relPath] ∉ st.s3FileMap ∨
            ∃ o, st.remote.store.get c.bucket (GetObjectKey pfx [e.relPath]) = some o ∧
              o.lastModified < e.modTime)) ∧
        ((∃ body, Call.put c.bucket (GetObjectKey pfx [e.relPath]) body ∈ st2.remote.trace) →
          Call.put c.bucket (GetObjectKey pfx [e.relPath]) e.body ∈ st2.remote.trace) := by
  induction es with
  | nil => intro st st2 _ _ e he; simp at he
  | cons e0 es ih =>
    intro st st2 h hnd e he hd hnot
    obtain ⟨st1, h1, h2⟩ := walk_cons_ok h
    cases hd0 : e0.isDir with
    | true =>
      have := walkFn_dir h1 hd0
      subst this
      rw [regularFiles_cons_dir es hd0] at hnd
      rcases List.mem_cons.1 he with rfl | he
      · rw [hd0] at hd; simp at hd
      · exact ih h2 hnd e he hd hnot
    | false =>
      rw [regularFiles_cons_file es hd0, List.map_cons, List.nodup_cons] at hnd
      obtain ⟨hfresh, hnd⟩ := hnd
      obtain ⟨up, hup, -, ht, hs, hm⟩ := walkFn_ok h1 hd0
      simp only [if_true] at hm
      -- the key of `e0` is the key of no later regular file
      have hlater : ∀ e1 ∈ es, e1.isDir = false →
          GetObjectKey pfx [e1.relPath] ≠ GetObjectKey pfx [e0.relPath] := by
        intro e1 he1 hd1 heq
        apply hfresh
        rw [← heq]
        exact List.mem_map.2 ⟨e1, mem_regularFiles.2 ⟨he1, hd1⟩, rfl⟩
      by_cases hkey : GetObjectKey pfx [e.relPath] = GetObjectKey pfx [e0.relPath]
      · -- the entry with the key of the head: it is the head itself
        have hee : e = e0 := by
          rcases List.mem_cons.1 he with rfl | he
          · rfl
          · exact absurd hkey (hlater e he hd)
        subst hee
        have key1 : (∃ body, Call.put c.bucket (GetObjectKey pfx [e.relPath]) body ∈
            st2.remote.trace) → up = true := by
          rintro ⟨body, hb⟩
          rcases walk_trace es h2 _ hb with h3 | ⟨e1, he1, hd1, h3 | h3⟩
          · rw [ht] at h3
            simp only [List.mem_append] at h3
            rcases h3 with (h3 | h3) | h3
            · exact absurd h3 (hnot body)
            · split at h3 <;> simp at h3
            · split at h3
              · assumption
              · simp at h3
          · simp at h3
          · simp only [Call.put.injEq, true_and] at h3
            exact absurd h3.1.symm (hlater e1 he1 hd1)
        have key2 : up = true →
            Call.put c.bucket (GetObjectKey pfx [e.relPath]) e.body ∈ st2.remote.trace := by
          intro hu
          apply walk_trace_mono es h2
          rw [ht, hu]
          simp
        refine ⟨⟨fun hx => ?_, fun hx => ⟨e.body, key2 (hup.2 (Or.inr hx))⟩⟩,
          fun hx => key2 (key1 hx)⟩
        rcases hup.1 (key1 hx) with h3 | h3
        · simp at h3
        · exact h3
      · -- an entry with another key: it is among the later entries
        have he' : e ∈ es := by
          rcases List.mem_cons.1 he with rfl | he
          · exact absurd rfl hkey
          · exact he
        have hnot1 : ∀ body, Call.put c.bucket (GetObjectKey pfx [e.relPath]) body ∉
            st1.remote.trace := by
          intro body hb
          rw [ht] at hb
          simp only [List.mem_append] at hb
          rcases hb with (hb | hb) | hb
          · exact hnot body hb
          · split at hb <;> simp at hb
          · split at hb
            · simp only [List.mem_singleton, Call.put.injEq, true_and] at hb
              exact hkey hb.1
            · simp at hb
        have hmap : GetObjectKey pfx [e.relPath] ∈ st1.s3FileMap ↔
            GetObjectKey pfx [e.relPath] ∈ st.s3FileMap := by
          rw [hm]
          simp [hkey]
        have hget : st1.remote.store.get c.bucket (GetObjectKey pfx [e.relPath]) =
            st.remote.store.get c.bucket (GetObjectKey pfx [e.relPath]) := by
          rw [hs]
          split
          · exact Store.get_put_ne _ _ _ _ _ _ (fun hh => hkey hh.2)
          · rfl
        have := ih h2 hnd e he' hd hnot1
        rw [hmap, hget] at this
        exact this

/-- A successful run of the deletion loop issues one delete per key, removes these
objects and leaves every other object alone. -/
theorem deleteOrphans_ok {env : Env} {c : Client} (keys : List String) :
    ∀ {r r2 : Remote}, deleteOrphans env c keys r = (none, r2) →
      r2.trace = r.trace ++ keys.map (Call.delete c.bucket) ∧
      (∀ b k, ¬(b = c.bucket ∧ k ∈ keys) → r2.store.get b k = r.store.get b k) ∧
      ∀ k ∈ keys, r2.store.get c.bucket k = none := by
  induction keys with
  | nil =>
    intro r r2 h
    simp only [deleteOrphans, Prod.mk.injEq, true_and] at h
    subst h
    simp
  | cons key keys ih =>
    intro r r2 h
    rw [deleteOrphans] at h
    unfold Client.DeleteObject at h
    cases hf : env.fault (Call.delete c.bucket key) with
    | some err => rw [hf] at h; simp at h
    | none =>
      rw [hf] at h
      simp only at h
      obtain ⟨h1, h2, h3⟩ := ih h
      refine ⟨?_, ?_, ?_⟩
      · rw [h1]; simp
      · intro b k hk
        rw [h2 b k fun hh => hk ⟨hh.1, List.mem_cons_of_mem _ hh.2⟩]
        exact Store.get_remove_ne _ _ _ _ _ fun hh => hk ⟨hh.1, hh.2 ▸ List.mem_cons_self _ _⟩
      · intro k hk
        by_cases hk2 : k ∈ keys
        · exact h3 k hk2
        · rw [h2 c.bucket k fun hh => hk2 hh.2]
          rcases List.mem_cons.1 hk with rfl | hk
          · exact Store.get_remove_eq _ _ _
          · exact absurd hk hk2

/-! ## BackupDirectory as a whole -/

theorem BackupDirectory_eq {env : Env} {s : Service} {store : Store} {sourcePath : String}
    {sync shouldDelete : Bool} {awsCfg : Option AWSConfig} {c : Client} {entries : List Entry}
    (hc : getS3ClientForConfig env.loadErr s awsCfg = .ok c)
    (hfs : env.fs sourcePath = some entries) :
    BackupDirectory env s store sourcePath sync shouldDelete awsCfg =
      backupEntries env s c store entries sync shouldDelete awsCfg := by
  unfold BackupDirectory
  rw [hc]
  simp only [hfs]

/-- A successful run in sync mode: the listing and the walk succeeded, and the
deletion loop ran on the keys left in the map when deletion was asked for. -/
theorem backupEntries_sync_ok {env : Env} {s : Service} {c : Client} {store : Store}
    {entries : List Entry} {shouldDelete : Bool} {awsCfg : Option AWSConfig} {r : Remote}
    (h : backupEntries env s c store entries true shouldDelete awsCfg = (none, r)) :
    ∃ st2 : WalkState,
      walk env c (keyPrefix s awsCfg) true entries
          { remote := { store := store, trace := [Call.list c.bucket (listPrefix s awsCfg)] }
            s3FileMap := mkFileMap (store.keys c.bucket (listPrefix s awsCfg)) } = (none, st2) ∧
        ((shouldDelete = true ∧ deleteOrphans env c st2.s3FileMap st2.remote = (none, r)) ∨
          (shouldDelete = false ∧ r = st2.remote)) := by
  unfold backupEntries at h
  simp only [if_true] at h
  unfold Client.ListObjects at h
  cases hf : env.fault (Call.list c.bucket (listPrefix s awsCfg)) with
  | some err => rw [hf] at h; simp at h
  | none =>
    rw [hf] at h
    simp only [List.nil_append] at h
    cases hw : walk env c (keyPrefix s awsCfg) true entries
        { remote := { store := store, trace := [Call.list c.bucket (listPrefix s awsCfg)] }
          s3FileMap := mkFileMap (store.keys c.bucket (listPrefix s awsCfg)) } with
    | mk res st2 =>
      rw [hw] at h
      cases res with
      | some err => simp at h
      | none =>
        refine ⟨st2, rfl, ?_⟩
        simp only [true_and] at h
        cases shouldDelete with
        | false =>
          simp only [Bool.false_eq_true, false_and, if_false, Prod.mk.injEq, true_and] at h
          exact Or.inr ⟨rfl, h.symm⟩
        | true =>
          left
          refine ⟨rfl, ?_⟩
          by_cases hl : st2.s3FileMap.length > 0
          · simpa [hl] using h
          · have hnil : st2.s3FileMap = [] := by
              cases hm : st2.s3FileMap with
              | nil => rfl
              | cons a b => rw [hm] at hl; simp at hl
            simp only [hl, and_false, if_false, Prod.mk.injEq, true_and] at h
            rw [hnil, deleteOrphans, h]

/-- A successful run without sync: the walk succeeded and nothing else happened. -/
theorem backupEntries_nosync_ok {env : Env} {s : Service} {c : Client} {store : Store}
    {entries : List Entry} {shouldDelete : Bool} {awsCfg : Option AWSConfig} {r : Remote}
    (h : backupEntries env s c store entries false shouldDelete awsCfg = (none, r)) :
    ∃ st2 : WalkState,
      walk env c (keyPrefix s awsCfg) false entries
          { remote := { store := store, trace := [] }, s3FileMap := [] } = (none, st2) ∧
        r = st2.remote := by
  unfold backupEntries at h
  simp only [Bool.false_eq_true, if_false, false_and] at h
  cases hw : walk env c (keyPrefix s awsCfg) false entries
      { remote := { store := store, trace := [] }, s3FileMap := [] } with
  | mk res st2 =>
    rw [hw] at h
    cases res with
    | some err => simp at h
    | none =>
      simp only [Prod.mk.injEq, true_and] at h
      exact ⟨st2, rfl, h.symm⟩

theorem uploadFile_trace (env : Env) (c : Client) (key : String) (e : Entry) (st : WalkState) :
    (uploadFile env c key e st).2.remote.trace = st.remote.trace ∨
      (uploadFile env c key e st).2.remote.trace =
        st.remote.trace ++ [Call.put c.bucket key e.body] := by
  unfold uploadFile
  cases e.openErr with
  | some err => exact Or.inl rfl
  | none =>
    unfold Client.Upload
    cases env.fault (Call.put c.bucket key e.body) with
    | some err => exact Or.inr rfl
    | none => exact Or.inr rfl

/-- Without sync the walk issues nothing but uploads of visited regular files,
whatever its outcome. -/
theorem walk_nosync_calls {env : Env} {c : Client} {pfx : String} (es : List Entry) :
    ∀ (st : WalkState), ∀ call ∈ (walk env c pfx false es st).2.remote.trace,
      call ∈ st.remote.trace ∨
        ∃ e ∈ regularFiles es, call = Call.put c.bucket (GetObjectKey pfx [e.relPath]) e.body := by
  induction es with
  | nil => intro st call hc; exact Or.inl hc
  | cons e es ih =>
    intro st call hc
    rw [walk] at hc
    have hstep : ∀ call ∈ (walkFn env c pfx false st e).2.remote.trace,
        call ∈ st.remote.trace ∨
          ∃ e1 ∈ regularFiles (e :: es),
            call = Call.put c.bucket (GetObjectKey pfx [e1.relPath]) e1.body := by
      intro call hc
      unfold walkFn at hc
      cases hw : e.walkErr with
      | some err => rw [hw] at hc; exact Or.inl hc
      | none =>
        rw [hw] at hc
        cases hd : e.isDir with
        | true => simp only [hd, if_true] at hc; exact Or.inl hc
        | false =>
          simp only [hd, Bool.false_eq_true, if_false] at hc
          rcases uploadFile_trace env c (GetObjectKey pfx [e.relPath]) e st with h | h
          · rw [h] at hc; exact Or.inl hc
          · rw [h] at hc
            rcases List.mem_append.1 hc with hc | hc
            · exact Or.inl hc
            · exact Or.inr ⟨e, mem_regularFiles.2 ⟨List.mem_cons_self _ _, hd⟩,
                List.mem_singleton.1 hc⟩
    cases hf : walkFn env c pfx false st e with
    | mk res st1 =>
      rw [hf] at hc hstep
      cases res with
      | some err => exact hstep call hc
      | none =>
        rcases ih st1 call hc with h | ⟨e1, he1, h⟩
        · exact hstep call h
        · refine Or.inr ⟨e1, ?_, h⟩
          rw [mem_regularFiles] at he1 ⊢
          exact ⟨List.mem_cons_of_mem _ he1.1, he1.2⟩

/-- C1: in a successful run in sync mode, a visited regular file is uploaded if and
only if its key is absent from the listing taken at the start of the run, or the
listed object's `lastModified` is strictly before the file's modification time; a
file not newer than its listed object is not uploaded. Distinct visited files are
taken to have distinct keys. -/
theorem BackupDirectory_sync_upload_iff (env : Env) (s : Service) (store : Store)
    (sourcePath : String) (shouldDelete : Bool) (awsCfg : Option AWSConfig) (c : Client)
    (entries : List Entry) (e : Entry)
    (hc : getS3ClientForConfig env.loadErr s awsCfg = .ok c)
    (hfs : env.fs sourcePath = some entries)
    (hrun : (BackupDirectory env s store sourcePath true shouldDelete awsCfg).1 = none)
    (hnd : ((regularFiles entries).map (fileKey s awsCfg)).Nodup)
    (he : e ∈ regularFiles entries) :
    ((∃ body, Call.put c.bucket (fileKey s awsCfg e) body ∈
          (BackupDirectory env s store sourcePath true shouldDelete awsCfg).2.trace) ↔
      (fileKey s awsCfg e ∉ store.keys c.bucket (listPrefix s awsCfg) ∨
        ∃ o, store.get c.bucket (fileKey s awsCfg e) = some o ∧ o.lastModified < e.modTime)) ∧
    ((∃ body, Call.put c.bucket (fileKey s awsCfg e) body ∈
          (BackupDirectory env s store sourcePath true shouldDelete awsCfg).2.trace) →
      Call.put c.bucket (fileKey s awsCfg e) e.body ∈
        (BackupDirectory env s store sourcePath true shouldDelete awsCfg).2.trace) ∧
    (∀ o, fileKey s awsCfg e ∈ store.keys c.bucket (listPrefix s awsCfg) →
      store.get c.bucket (fileKey s awsCfg e) = some o → e.modTime ≤ o.lastModified →
      ¬∃ body, Call.put c.bucket (fileKey s awsCfg e) body ∈
          (BackupDirectory env s store sourcePath true shouldDelete awsCfg).2.trace) := by
  rw [BackupDirectory_eq hc hfs] at hrun ⊢
  cases hb : backupEntries env s c store entries true shouldDelete awsCfg with
  | mk res r =>
    rw [hb] at hrun
    simp only at hrun
    subst hrun
    obtain ⟨st2, hw, hdel⟩ := backupEntries_sync_ok hb
    obtain ⟨he1, hd⟩ := mem_regularFiles.1 he
    have hfresh : ∀ body, Call.put c.bucket (GetObjectKey (keyPrefix s awsCfg) [e.relPath]) body ∉
        [Call.list c.bucket (listPrefix s awsCfg)] := by
      intro body; simp
    obtain ⟨hiff, hbody⟩ := walk_put_iff entries hw hnd e he1 hd hfresh
    simp only [mem_mkFileMap] at hiff
    -- the deletion loop adds no upload to the trace
    have htr : ∀ call : Call, (∀ b k, call ≠ Call.delete b k) →
        (call ∈ r.trace ↔ call ∈ st2.remote.trace) := by
      intro call hcall
      rcases hdel with ⟨-, hdel⟩ | ⟨-, rfl⟩
      · rw [(deleteOrphans_ok _ hdel).1]
        simp only [List.mem_append, List.mem_map]
        constructor
        · rintro (h | ⟨k, -, h⟩)
          · exact h
          · exact absurd h.symm (hcall _ _)
        · exact Or.inl
      · rfl
    have hput : (∃ body, Call.put c.bucket (fileKey s awsCfg e) body ∈ r.trace) ↔
        ∃ body, Call.put c.bucket (fileKey s awsCfg e) body ∈ st2.remote.trace := by
      constructor
      · rintro ⟨body, h⟩; exact ⟨body, (htr _ (by simp)).1 h⟩
      · rintro ⟨body, h⟩; exact ⟨body, (htr _ (by simp)).2 h⟩
    refine ⟨hput.trans hiff, fun h => (htr _ (by simp)).2 (hbody (hput.1 h)), ?_⟩
    intro o hin hget hle hup
    rcases hiff.1 (hput.1 hup) with h | ⟨o1, ho1, hlt⟩
    · exact h hin
    · have : o1 = o := Option.some.inj (ho1.symm.trans hget)
      subst this
      omega

/-- C2: a successful run issues a delete only when `sync` and `shouldDelete` are
both true; in every other combination no delete is issued, every object of the
store is still there after the run, and every object that is not at the key of a
local file is unchanged. -/
theorem BackupDirectory_delete_gated (env : Env) (s : Service) (store : Store)
    (sourcePath : String) (sync shouldDelete : Bool) (awsCfg : Option AWSConfig) (c : Client)
    (entries : List Entry)
    (hc : getS3ClientForConfig env.loadErr s awsCfg = .ok c)
    (hfs : env.fs sourcePath = some entries)
    (hrun : (BackupDirectory env s store sourcePath sync shouldDelete awsCfg).1 = none) :
    ((∃ b k, Call.delete b k ∈
        (BackupDirectory env s store sourcePath sync shouldDelete awsCfg).2.trace) →
      sync = true ∧ shouldDelete = true) ∧
    (¬(sync = true ∧ shouldDelete = true) →
      (∀ b k, Call.delete b k ∉
        (BackupDirectory env s store sourcePath sync shouldDelete awsCfg).2.trace) ∧
      (∀ b k, (store.get b k).isSome = true →
        ((BackupDirectory env s store sourcePath sync shouldDelete awsCfg).2.store.get b k).isSome
          = true) ∧
      ∀ b k, (∀ e ∈ regularFiles entries, ¬(b = c.bucket ∧ k = fileKey s awsCfg e)) →
        (BackupDirectory env s store sourcePath sync shouldDelete awsCfg).2.store.get b k =
          store.get b k) := by
  rw [BackupDirectory_eq hc hfs] at hrun ⊢
  cases hb : backupEntries env s c store entries sync shouldDelete awsCfg with
  | mk res r =>
    rw [hb] at hrun
    simp only at hrun
    subst hrun
    -- the walk behind the run, when no deletion loop ran
    have key : ¬(sync = true ∧ shouldDelete = true) →
        ∃ st st2, walk env c (keyPrefix s awsCfg) sync entries st = (none, st2) ∧
          r = st2.remote ∧ st.remote.store = store ∧
          ∀ b k, Call.delete b k ∉ st.remote.trace := by
      intro hflags
      cases sync with
      | false =>
        obtain ⟨st2, hw, hr⟩ := backupEntries_nosync_ok hb
        exact ⟨_, st2, hw, hr, rfl, by simp⟩
      | true =>
        obtain ⟨st2, hw, hdel⟩ := backupEntries_sync_ok hb
        rcases hdel with ⟨hd, -⟩ | ⟨-, hr⟩
        · exact absurd ⟨rfl, hd⟩ hflags
        · exact ⟨_, st2, hw, hr, rfl, by simp⟩
    have nodel : ¬(sync = true ∧ shouldDelete = true) → ∀ b k, Call.delete b k ∉ r.trace := by
      intro hflags b k hmem
      obtain ⟨st, st2, hw, rfl, -, hinit⟩ := key hflags
      rcases walk_trace entries hw _ hmem with h | ⟨e, -, -, h | h⟩
      · exact hinit b k h
      · simp at h
      · simp at h
    refine ⟨?_, fun hflags => ⟨nodel hflags, ?_, ?_⟩⟩
    · rintro ⟨b, k, hmem⟩
      by_contra hflags
      exact nodel hflags b k hmem
    · intro b k hsome
      obtain ⟨st, st2, hw, rfl, hst, -⟩ := key hflags
      exact walk_keeps entries hw b k (by rw [hst]; exact hsome)
    · intro b k hk
      obtain ⟨st, st2, hw, rfl, hst, -⟩ := key hflags
      rw [walk_frame entries hw b k fun e he hd => hk e (mem_regularFiles.2 ⟨he, hd⟩), hst]

/-- C3: a successful run with `sync` and `shouldDelete` deletes exactly the listed
keys that are the key of no local regular file, and these objects are gone from
the store afterwards; for a source directory without regular files it uploads
nothing and deletes every listed key. -/
theorem BackupDirectory_deletes_orphans (env : Env) (s : Service) (store : Store)
    (sourcePath : String) (awsCfg : Option AWSConfig) (c : Client) (entries : List Entry)
    (hc : getS3ClientForConfig env.loadErr s awsCfg = .ok c)
    (hfs : env.fs sourcePath = some entries)
    (hrun : (BackupDirectory env s store sourcePath true true awsCfg).1 = none) :
    (∀ b k, Call.delete b k ∈ (BackupDirectory env s store sourcePath true true awsCfg).2.trace ↔
      (b = c.bucket ∧ k ∈ store.keys c.bucket (listPrefix s awsCfg) ∧
        ∀ e ∈ regularFiles entries, k ≠ fileKey s awsCfg e)) ∧
    (∀ k ∈ store.keys c.bucket (listPrefix s awsCfg),
      (∀ e ∈ regularFiles entries, k ≠ fileKey s awsCfg e) →
      (BackupDirectory env s store sourcePath true true awsCfg).2.store.get c.bucket k = none) ∧
    (regularFiles entries = [] →
      (∀ b k body, Call.put b k body ∉
        (BackupDirectory env s store sourcePath true true awsCfg).2.trace) ∧
      ∀ k ∈ store.keys c.bucket (listPrefix s awsCfg),
        Call.delete c.bucket k ∈ (BackupDirectory env s store sourcePath true true awsCfg).2.trace ∧
        (BackupDirectory env s store sourcePath true true awsCfg).2.store.get c.bucket k = none) := by
  rw [BackupDirectory_eq hc hfs] at hrun ⊢
  cases hb : backupEntries env s c store entries true true awsCfg with
  | mk res r =>
    rw [hb] at hrun
    simp only at hrun
    subst hrun
    obtain ⟨st2, hw, hdel⟩ := backupEntries_sync_ok hb
    rcases hdel with ⟨-, hdel⟩ | ⟨hd, -⟩
    swap
    · simp at hd
    obtain ⟨htr, -, hgone⟩ := deleteOrphans_ok _ hdel
    have hmap : ∀ k, k ∈ st2.s3FileMap ↔
        k ∈ store.keys c.bucket (listPrefix s awsCfg) ∧
          ∀ e ∈ regularFiles entries, k ≠ fileKey s awsCfg e := by
      intro k
      rw [walk_map entries hw k, mem_mkFileMap]
      simp only [mem_regularFiles, fileKey, and_imp]
    have hwalk : ∀ call ∈ st2.remote.trace, call = Call.list c.bucket (listPrefix s awsCfg) ∨
        ∃ e ∈ regularFiles entries,
          call = Call.head c.bucket (fileKey s awsCfg e) ∨
            call = Call.put c.bucket (fileKey s awsCfg e) e.body := by
      intro call hcall
      rcases walk_trace entries hw call hcall with h | ⟨e, he, hd, h | h⟩
      · exact Or.inl (List.mem_singleton.1 h)
      · exact Or.inr ⟨e, mem_regularFiles.2 ⟨he, hd⟩, Or.inl h.2⟩
      · exact Or.inr ⟨e, mem_regularFiles.2 ⟨he, hd⟩, Or.inr h⟩
    have hiff : ∀ b k, Call.delete b k ∈ r.trace ↔ (b = c.bucket ∧ k ∈ st2.s3FileMap) := by
      intro b k
      rw [htr]
      simp only [List.mem_append, List.mem_map, Call.delete.injEq]
      constructor
      · rintro (h | ⟨k1, hk1, h1, h2⟩)
        · rcases hwalk _ h with h | ⟨e, -, h | h⟩ <;> simp at h
        · exact ⟨h1.symm, h2 ▸ hk1⟩
      · rintro ⟨rfl, hk⟩
        exact Or.inr ⟨k, hk, rfl, rfl⟩
    refine ⟨fun b k => ?_, fun k hk hno => hgone k ((hmap k).2 ⟨hk, hno⟩), fun hempty => ⟨?_, ?_⟩⟩
    · rw [hiff, hmap]
    · intro b k body hmem
      rw [htr] at hmem
      rcases List.mem_append.1 hmem with h | h
      · rcases hwalk _ h with h | ⟨e, he, -⟩
        · simp at h
        · rw [hempty] at he; simp at he
      · simp at h
    · intro k hk
      have hk2 : k ∈ st2.s3FileMap := (hmap k).2 ⟨hk, by rw [hempty]; simp⟩
      exact ⟨(hiff _ k).2 ⟨rfl, hk2⟩, hgone k hk2⟩

/-- C4: without sync, whatever the store holds, a run issues no call to the store
but uploads of local regular files (no listing, no metadata fetch, no deletion),
and a successful run uploads every local regular file, once, in the order of the
walk. -/
theorem BackupDirectory_nosync_uploads_all (env : Env) (s : Service) (store : Store)
    (sourcePath : String) (shouldDelete : Bool) (awsCfg : Option AWSConfig) (c : Client)
    (entries : List Entry)
    (hc : getS3ClientForConfig env.loadErr s awsCfg = .ok c)
    (hfs : env.fs sourcePath = some entries) :
    (∀ call ∈ (BackupDirectory env s store sourcePath false shouldDelete awsCfg).2.trace,
      ∃ e ∈ regularFiles entries, call = Call.put c.bucket (fileKey s awsCfg e) e.body) ∧
    ((BackupDirectory env s store sourcePath false shouldDelete awsCfg).1 = none →
      (BackupDirectory env s store sourcePath false shouldDelete awsCfg).2.trace =
        (regularFiles entries).map fun e => Call.put c.bucket (fileKey s awsCfg e) e.body) := by
  rw [BackupDirectory_eq hc hfs]
  constructor
  · intro call hcall
    have hshape : (backupEntries env s c store entries false shouldDelete awsCfg).2 =
        (walk env c (keyPrefix s awsCfg) false entries
          { remote := { store := store, trace := [] }, s3FileMap := [] }).2.remote := by
      unfold backupEntries
      simp only [Bool.false_eq_true, if_false, false_and]
      cases hw : walk env c (keyPrefix s awsCfg) false entries
          { remote := { store := store, trace := [] }, s3FileMap := [] } with
      | mk res st2 => cases res <;> rfl
    rw [hshape] at hcall
    rcases walk_nosync_calls entries _ call hcall with h | h
    · simp at h
    · exact h
  · intro hrun
    cases hb : backupEntries env s c store entries false shouldDelete awsCfg with
    | mk res r =>
      rw [hb] at hrun
      simp only at hrun
      subst hrun
      obtain ⟨st2, hw, rfl⟩ := backupEntries_nosync_ok hb
      rw [walk_nosync entries hw]
      simp [fileKey]

/-- After a successful run, in sync mode or not, the store holds an object at the
key `GetObjectKey (keyPrefix s awsCfg) relPath` of every local regular file, the
key the run itself derives (`keyPrefix` is the base's `DirectoryPrefix` when there
is no override); under the empty prefix the key of a normalised relative path is
the path itself, as for `test1.txt`, `test2.txt` and `subdir/test3.txt`. -/
theorem BackupDirectory_stores_files (env : Env) (s : Service) (store : Store)
    (sourcePath : String) (sync shouldDelete : Bool) (awsCfg : Option AWSConfig) (c : Client)
    (entries : List Entry) (e : Entry)
    (hc : getS3ClientForConfig env.loadErr s awsCfg = .ok c)
    (hfs : env.fs sourcePath = some entries)
    (hrun : (BackupDirectory env s store sourcePath sync shouldDelete awsCfg).1 = none)
    (he : e ∈ regularFiles entries) :
    ((BackupDirectory env s store sourcePath sync shouldDelete awsCfg).2.store.get c.bucket
        (GetObjectKey (keyPrefix s awsCfg) [e.relPath])).isSome = true ∧
    (keyPrefix s awsCfg = "" → Normalised e.relPath →
      GetObjectKey (keyPrefix s awsCfg) [e.relPath] = e.relPath) ∧
    keyPrefix s none = s.cfg.AWS.DirectoryPrefix ∧
    GetObjectKey "" ["test1.txt"] = "test1.txt" ∧ GetObjectKey "" ["test2.txt"] = "test2.txt" ∧
    GetObjectKey "" ["subdir/test3.txt"] = "subdir/test3.txt" := by
  refine ⟨?_, ?_, rfl, by decide, by decide, by decide⟩
  · rw [BackupDirectory_eq hc hfs] at hrun ⊢
    obtain ⟨he1, hd⟩ := mem_regularFiles.1 he
    cases hb : backupEntries env s c store entries sync shouldDelete awsCfg with
    | mk res r =>
      rw [hb] at hrun
      simp only at hrun
      subst hrun
      cases sync with
      | false =>
        obtain ⟨st2, hw, rfl⟩ := backupEntries_nosync_ok hb
        exact walk_stored entries hw e he1 hd
      | true =>
        obtain ⟨st2, hw, hdel⟩ := backupEntries_sync_ok hb
        rcases hdel with ⟨-, hdel⟩ | ⟨-, rfl⟩
        · obtain ⟨-, hframe, -⟩ := deleteOrphans_ok _ hdel
          have hnot : GetObjectKey (keyPrefix s awsCfg) [e.relPath] ∉ st2.s3FileMap := by
            intro hmem
            exact ((walk_map entries hw _).1 hmem).2 e he1 hd rfl
          simp only
          rw [hframe _ _ fun hh => hnot hh.2]
          exact walk_stored entries hw e he1 hd
        · exact walk_stored entries hw e he1 hd
  · intro hp hn
    rw [hp]
    unfold GetObjectKey
    rw [if_pos rfl]
    exact Join_single e.relPath hn

/-! ## Configuration overrides -/

/-- C7: with a nil override `getS3ClientForConfig` returns the client of the service;
otherwise it builds the client with `s3.New` from a configuration whose AWS block is
`resolve base override`: each of the six fields is the override's value when that
is non-empty and the base's value otherwise, so an override that sets only `Bucket`
to `x` yields the base with `Bucket` replaced by `x`. -/
theorem getS3ClientForConfig_resolve (loadErr : Option String) (s : Service) (o : AWSConfig) :
    getS3ClientForConfig loadErr s none = .ok s.s3Client ∧
    resolve s.cfg.AWS none = s.cfg.AWS ∧
    getS3ClientForConfig loadErr s (some o) = New loadErr (newCfgFor s o) none ∧
    (newCfgFor s o).AWS = resolve s.cfg.AWS (some o) ∧
    (newCfgFor s o).AWS =
      { Region := if o.Region = "" then s.cfg.AWS.Region else o.Region
        AccessKeyID := if o.AccessKeyID = "" then s.cfg.AWS.AccessKeyID else o.AccessKeyID
        SecretAccessKey :=
          if o.SecretAccessKey = "" then s.cfg.AWS.SecretAccessKey else o.SecretAccessKey
        Bucket := if o.Bucket = "" then s.cfg.AWS.Bucket else o.Bucket
        DatabasePrefix :=
          if o.DatabasePrefix = "" then s.cfg.AWS.DatabasePrefix else o.DatabasePrefix
        DirectoryPrefix :=
          if o.DirectoryPrefix = "" then s.cfg.AWS.DirectoryPrefix else o.DirectoryPrefix } ∧
    getS3ClientForConfig none s (some o) =
      .ok { region := (resolve s.cfg.AWS (some o)).Region
            accessKeyID := (resolve s.cfg.AWS (some o)).AccessKeyID
            secretAccessKey := (resolve s.cfg.AWS (some o)).SecretAccessKey
            baseEndpoint := none
            bucket := (resolve s.cfg.AWS (some o)).Bucket } ∧
    (newCfgFor s { AWSConfig.zero with Bucket := "x" }).AWS = { s.cfg.AWS with Bucket := "x" } := by
  have h : (newCfgFor s o).AWS = resolve s.cfg.AWS (some o) := by
    unfold newCfgFor resolve inherit
    by_cases h1 : o.Region = "" <;> by_cases h2 : o.AccessKeyID = "" <;>
      by_cases h3 : o.SecretAccessKey = "" <;> by_cases h4 : o.Bucket = "" <;>
      by_cases h5 : o.DatabasePrefix = "" <;> by_cases h6 : o.DirectoryPrefix = "" <;>
      simp [h1, h2, h3, h4, h5, h6]
  refine ⟨rfl, rfl, rfl, h, ?_, ?_, ?_⟩
  · rw [h]; rfl
  · unfold getS3ClientForConfig New
    simp only [h]
  · rfl

/-- C8: with a nil override `getDatabaseConfigForConfig` returns the base database
configuration; otherwise `Host`, `User`, `Password` and `Name` are the override's
value when non-empty, `Port` the override's value when non-zero, and the base's
value otherwise. The function only reads the service it is given. -/
theorem getDatabaseConfigForConfig_inherit (s : Service) (o : DatabaseConfig) :
    getDatabaseConfigForConfig s none = s.cfg.Database ∧
    getDatabaseConfigForConfig s (some o) =
      { Host := if o.Host = "" then s.cfg.Database.Host else o.Host
        Port := if o.Port = 0 then s.cfg.Database.Port else o.Port
        User := if o.User = "" then s.cfg.Database.User else o.User
        Password := if o.Password = "" then s.cfg.Database.Password else o.Password
        Name := if o.Name = "" then s.cfg.Database.Name else o.Name } ∧
    getDatabaseConfigForConfig sampleService (some { DatabaseConfig.zero with Name := "orders" }) =
      { sampleService.cfg.Database with Name := "orders" } := by
  refine ⟨rfl, ?_, by decide⟩
  unfold getDatabaseConfigForConfig
  by_cases h1 : o.Host = "" <;> by_cases h2 : o.Port = 0 <;> by_cases h3 : o.User = "" <;>
    by_cases h4 : o.Password = "" <;> by_cases h5 : o.Name = "" <;>
    simp [h1, h2, h3, h4, h5]

/-- C9 at an override that leaves `DirectoryPrefix` empty: the run derives keys with
the empty prefix, while the resolved directory prefix is the base's `backups`, as
is the prefix of the listing of the same run. -/
theorem keyPrefix_ignores_base :
    keyPrefix sampleService (some bucketOverride) = "" ∧
      (resolve sampleService.cfg.AWS (some bucketOverride)).DirectoryPrefix = "backups" ∧
      (newCfgFor sampleService bucketOverride).AWS.DirectoryPrefix = "backups" ∧
      listPrefix sampleService (some bucketOverride) = "backups/" ∧
      fileKey sampleService (some bucketOverride) (sampleFile "test1.txt" 5) = "test1.txt" := by
  decide

/-- C5 at an override that leaves `DirectoryPrefix` empty: the first sync run
succeeds and uploads the three files with a stamp after their modification time;
the second sync run, on the store the first one left and the same files, uploads
all three again. -/
theorem BackupDirectory_second_run_uploads :
    (BackupDirectory sampleEnv sampleService [] "/data" true false (some bucketOverride)).1 = none ∧
    (∀ e ∈ regularFiles sampleEntries,
      e.modTime ≤ sampleEnv.stamp "x" (fileKey sampleService (some bucketOverride) e)) ∧
    BackupDirectory sampleEnv sampleService
        (BackupDirectory sampleEnv sampleService [] "/data" true false (some bucketOverride)).2.store
        "/data" true false (some bucketOverride) =
      (none,
        { store :=
            [ { bucket := "x", key := "test2.txt", obj := { lastModified := 10, body := "test content" } },
              { bucket := "x", key := "test1.txt", obj := { lastModified := 10, body := "test content" } },
              { bucket := "x", key := "subdir/test3.txt",
                obj := { lastModified := 10, body := "test content" } } ]
          trace :=
            [ Call.list "x" "backups/", Call.put "x" "subdir/test3.txt" "test content",
              Call.put "x" "test1.txt" "test content", Call.put "x" "test2.txt" "test content" ] }) := by
  decide

/-- C1 on the sample tree and store: `test2.txt` is newer than its stored copy. -/
theorem BackupDirectory_sync_upload_iff_witness :
    getS3ClientForConfig sampleEnv.loadErr sampleService none = .ok sampleService.s3Client ∧
    sampleEnv.fs "/data" = some sampleEntries ∧
    (BackupDirectory sampleEnv sampleService sampleStore "/data" true true none).1 = none ∧
    ((regularFiles sampleEntries).map (fileKey sampleService none)).Nodup ∧
    sampleFile "test2.txt" 5 ∈ regularFiles sampleEntries ∧
    ((∃ body, Call.put sampleService.s3Client.bucket
          (fileKey sampleService none (sampleFile "test2.txt" 5)) body ∈
        (BackupDirectory sampleEnv sampleService sampleStore "/data" true true none).2.trace) ↔
      (fileKey sampleService none (sampleFile "test2.txt" 5) ∉
          Store.keys sampleStore sampleService.s3Client.bucket (listPrefix sampleService none) ∨
        ∃ o, Store.get sampleStore sampleService.s3Client.bucket
            (fileKey sampleService none (sampleFile "test2.txt" 5)) = some o ∧
          o.lastModified < (sampleFile "test2.txt" 5).modTime)) :=
  ⟨rfl, rfl, by decide, by decide, by decide,
    (BackupDirectory_sync_upload_iff sampleEnv sampleService sampleStore "/data" true none
      sampleService.s3Client sampleEntries (sampleFile "test2.txt" 5) rfl rfl (by decide)
      (by decide) (by decide)).1⟩

/-- C2 on the sample tree and store, with `shouldDelete` but without `sync`. -/
theorem BackupDirectory_delete_gated_witness :
    getS3ClientForConfig sampleEnv.loadErr sampleService none = .ok sampleService.s3Client ∧
    sampleEnv.fs "/data" = some sampleEntries ∧
    (BackupDirectory sampleEnv sampleService sampleStore "/data" false true none).1 = none ∧
    ¬(false = true ∧ true = true) ∧
    (∀ e ∈ regularFiles sampleEntries,
      ¬("backme" = sampleService.s3Client.bucket ∧
        "backups/stale.txt" = fileKey sampleService none e)) ∧
    (BackupDirectory sampleEnv sampleService sampleStore "/data" false true none).2.store.get
        "backme" "backups/stale.txt" = Store.get sampleStore "backme" "backups/stale.txt" :=
  ⟨rfl, rfl, by decide, by decide, by decide,
    ((BackupDirectory_delete_gated sampleEnv sampleService sampleStore "/data" false true none
      sampleService.s3Client sampleEntries rfl rfl (by decide)).2 (by decide)).2.2
      "backme" "backups/stale.txt" (by decide)⟩

/-- C3 on the sample tree and store: the object without a local file is deleted. -/
theorem BackupDirectory_deletes_orphans_witness :
    getS3ClientForConfig sampleEnv.loadErr sampleService none = .ok sampleService.s3Client ∧
    sampleEnv.fs "/data" = some sampleEntries ∧
    (BackupDirectory sampleEnv sampleService sampleStore "/data" true true none).1 = none ∧
    "backups/stale.txt" ∈
      Store.keys sampleStore sampleService.s3Client.bucket (listPrefix sampleService none) ∧
    (∀ e ∈ regularFiles sampleEntries, "backups/stale.txt" ≠ fileKey sampleService none e) ∧
    (BackupDirectory sampleEnv sampleService sampleStore "/data" true true none).2.store.get
        sampleService.s3Client.bucket "backups/stale.txt" = none :=
  ⟨rfl, rfl, by decide, by decide, by decide,
    (BackupDirectory_deletes_orphans sampleEnv sampleService sampleStore "/data" none
      sampleService.s3Client sampleEntries rfl rfl (by decide)).2.1
      "backups/stale.txt" (by decide) (by decide)⟩

/-- C4 on the sample tree and store. -/
theorem BackupDirectory_nosync_uploads_all_witness :
    getS3ClientForConfig sampleEnv.loadErr sampleService none = .ok sampleService.s3Client ∧
    sampleEnv.fs "/data" = some sampleEntries ∧
    (BackupDirectory sampleEnv sampleService sampleStore "/data" false false none).1 = none ∧
    (BackupDirectory sampleEnv sampleService sampleStore "/data" false false none).2.trace =
      (regularFiles sampleEntries).map fun e =>
        Call.put sampleService.s3Client.bucket (fileKey sampleService none e) e.body :=
  ⟨rfl, rfl, by decide,
    (BackupDirectory_nosync_uploads_all sampleEnv sampleService sampleStore "/data" false none
      sampleService.s3Client sampleEntries rfl rfl).2 (by decide)⟩

/-- The tree of the end-to-end tests, without prefix, from an empty store: the file
`subdir/test3.txt` is stored under its relative path. -/
theorem BackupDirectory_stores_files_witness :
    getS3ClientForConfig sampleEnv.loadErr plainService none = .ok plainService.s3Client ∧
    sampleEnv.fs "/data" = some sampleEntries ∧
    (BackupDirectory sampleEnv plainService [] "/data" true false none).1 = none ∧
    sampleFile "subdir/test3.txt" 5 ∈ regularFiles sampleEntries ∧
    keyPrefix plainService none = "" ∧ Normalised (sampleFile "subdir/test3.txt" 5).relPath ∧
    ((BackupDirectory sampleEnv plainService [] "/data" true false none).2.store.get
        plainService.s3Client.bucket
        (GetObjectKey (keyPrefix plainService none) [(sampleFile "subdir/test3.txt" 5).relPath])).isSome
      = true ∧
    GetObjectKey (keyPrefix plainService none) [(sampleFile "subdir/test3.txt" 5).relPath] =
      (sampleFile "subdir/test3.txt" 5).relPath :=
  ⟨rfl, rfl, by decide, by decide, by decide, by decide,
    (BackupDirectory_stores_files sampleEnv plainService [] "/data" true false none
      plainService.s3Client sampleEntries (sampleFile "subdir/test3.txt" 5) rfl rfl (by decide)
      (by decide)).1,
    (BackupDirectory_stores_files sampleEnv plainService [] "/data" true false none
      plainService.s3Client sampleEntries (sampleFile "subdir/test3.txt" 5) rfl rfl (by decide)
      (by decide)).2.1 (by decide) (by decide)⟩

/-- C6 at an override that leaves `DirectoryPrefix` empty, on the base prefix
`backups`: the run succeeds, with or without sync, but the store of bucket `x`
holds no object at `backups/test1.txt`, the key under the resolved directory
prefix; the object is at `test1.txt`. With an override that sets the prefix, or
without override, the object is under the resolved prefix. -/
theorem BackupDirectory_misses_resolved_key :
    (BackupDirectory sampleEnv sampleService [] "/data" false false (some bucketOverride)).1 = none ∧
    (BackupDirectory sampleEnv sampleService [] "/data" true false (some bucketOverride)).1 = none ∧
    sampleFile "test1.txt" 5 ∈ regularFiles sampleEntries ∧
    (resolve sampleService.cfg.AWS (some bucketOverride)).DirectoryPrefix = "backups" ∧
    GetObjectKey (resolve sampleService.cfg.AWS (some bucketOverride)).DirectoryPrefix
      [(sampleFile "test1.txt" 5).relPath] = "backups/test1.txt" ∧
    (BackupDirectory sampleEnv sampleService [] "/data" false false
      (some bucketOverride)).2.store.get "x" "backups/test1.txt" = none ∧
    (BackupDirectory sampleEnv sampleService [] "/data" true false
      (some bucketOverride)).2.store.get "x" "backups/test1.txt" = none ∧
    (BackupDirectory sampleEnv sampleService [] "/data" false false
      (some bucketOverride)).2.store.get "x" "test1.txt" =
        some { lastModified := 10, body := "test content" } ∧
    (resolve sampleService.cfg.AWS (some prefixOverride)).DirectoryPrefix = "nightly" ∧
    (BackupDirectory sampleEnv sampleService [] "/data" false false
      (some prefixOverride)).2.store.get "backme" "nightly/test1.txt" =
        some { lastModified := 10, body := "test content" } ∧
    (BackupDirectory sampleEnv sampleService [] "/data" false false none).2.store.get
      "backme" "backups/test1.txt" = some { lastModified := 10, body := "test content" } := by
  decide

/-! ## Failures of BackupDirectory -/

theorem uploadFile_store_of_fail {env : Env} {c : Client} {key : String} {e : Entry}
    {st st1 : WalkState} {err : String} (h : uploadFile env c key e st = (some err, st1)) :
    st1.remote.store = st.remote.store := by
  unfold uploadFile at h
  cases ho : e.openErr with
  | some err1 =>
    rw [ho] at h
    simp only [Prod.mk.injEq] at h
    rw [← h.2]
  | none =>
    rw [ho] at h
    unfold Client.Upload at h
    cases hf : env.fault (Call.put c.bucket key e.body) with
    | some err1 =>
      rw [hf] at h
      simp only [Prod.mk.injEq] at h
      rw [← h.2]
    | none => rw [hf] at h; simp at h

/-- A failing call of the walk callback leaves the store as it was, and the calls
it issued are for the key of its own file. -/
theorem walkFn_fail {env : Env} {c : Client} {pfx : String} {sync : Bool} {st st1 : WalkState}
    {e : Entry} {err : String} (h : walkFn env c pfx sync st e = (some err, st1)) :
    st1.remote.store = st.remote.store ∧
      ∀ call ∈ st1.remote.trace, call ∈ st.remote.trace ∨
        (e.isDir = false ∧
          (call = Call.head c.bucket (GetObjectKey pfx [e.relPath]) ∨
            call = Call.put c.bucket (GetObjectKey pfx [e.relPath]) e.body)) := by
  unfold walkFn at h
  generalize GetObjectKey pfx [e.relPath] = key at h ⊢
  cases hw : e.walkErr with
  | some err1 =>
    rw [hw] at h
    simp only [Prod.mk.injEq] at h
    rw [← h.2]
    exact ⟨rfl, fun call hc => Or.inl hc⟩
  | none =>
    rw [hw] at h
    cases hd : e.isDir with
    | true => simp [hd] at h
    | false =>
      simp only [hd, Bool.false_eq_true, if_false] at h
      have upl : ∀ (sta : WalkState), uploadFile env c key e sta = (some err, st1) →
          st1.remote.store = sta.remote.store ∧
            ∀ call ∈ st1.remote.trace, call ∈ sta.remote.trace ∨
              call = Call.put c.bucket key e.body := by
        intro sta hu
        refine ⟨uploadFile_store_of_fail hu, fun call hc => ?_⟩
        have ht := uploadFile_trace env c key e sta
        rw [hu] at ht
        rcases ht with ht | ht
        · exact Or.inl (ht ▸ hc)
        · rw [ht] at hc
          rcases List.mem_append.1 hc with hc | hc
          · exact Or.inl hc
          · exact Or.inr (List.mem_singleton.1 hc)
      cases sync with
      | false =>
        simp only [Bool.false_eq_true, if_false] at h
        obtain ⟨h1, h2⟩ := upl st h
        refine ⟨h1, fun call hc => ?_⟩
        rcases h2 call hc with h3 | h3
        · exact Or.inl h3
        · exact Or.inr ⟨rfl, Or.inr h3⟩
      | true =>
        simp only [if_true] at h
        unfold syncCheck at h
        by_cases hk : key ∈ st.s3FileMap
        · simp only [hk, if_true] at h
          unfold Client.GetObjectMetadata at h
          cases hf : env.fault (Call.head c.bucket key) with
          | some err1 =>
            rw [hf] at h
            simp only [Prod.mk.injEq] at h
            rw [← h.2]
            refine ⟨rfl, fun call hc => ?_⟩
            rcases List.mem_append.1 hc with hc | hc
            · exact Or.inl hc
            · exact Or.inr ⟨rfl, Or.inl (List.mem_singleton.1 hc)⟩
          | none =>
            rw [hf] at h
            cases hg : st.remote.store.get c.bucket key with
            | none =>
              rw [hg] at h
              simp only [Prod.mk.injEq] at h
              rw [← h.2]
              refine ⟨rfl, fun call hc => ?_⟩
              rcases List.mem_append.1 hc with hc | hc
              · exact Or.inl hc
              · exact Or.inr ⟨rfl, Or.inl (List.mem_singleton.1 hc)⟩
            | some o =>
              rw [hg] at h
              simp only at h
              by_cases hlt : o.lastModified < e.modTime
              · simp only [hlt, decide_True, if_true] at h
                obtain ⟨h1, h2⟩ := upl _ h
                refine ⟨h1, fun call hc => ?_⟩
                rcases h2 call hc with h3 | h3
                · rcases List.mem_append.1 h3 with h3 | h3
                  · exact Or.inl h3
                  · exact Or.inr ⟨rfl, Or.inl (List.mem_singleton.1 h3)⟩
                · exact Or.inr ⟨rfl, Or.inr h3⟩
              · simp [hlt] at h
        · simp only [hk, if_false, if_true] at h
          obtain ⟨h1, h2⟩ := upl _ h
          refine ⟨h1, fun call hc => ?_⟩
          rcases h2 call hc with h3 | h3
          · exact Or.inl h3
          · exact Or.inr ⟨rfl, Or.inr h3⟩

/-- A failing walk fails at one entry, after a successful walk of the entries
before it. -/
theorem walk_fail_split {env : Env} {c : Client} {pfx : String} {sync : Bool} (es : List Entry) :
    ∀ {st st2 : WalkState} {err : String}, walk env c pfx sync es st = (some err, st2) →
      ∃ pre e post st1, es = pre ++ e :: post ∧ walk env c pfx sync pre st = (none, st1) ∧
        walkFn env c pfx sync st1 e = (some err, st2) := by
  induction es with
  | nil => intro st st2 err h; simp [walk] at h
  | cons e es ih =>
    intro st st2 err h
    rw [walk] at h
    cases hf : walkFn env c pfx sync st e with
    | mk res st1 =>
      rw [hf] at h
      cases res with
      | some err1 =>
        simp only [Prod.mk.injEq, Option.some.injEq] at h
        obtain ⟨rfl, rfl⟩ := h
        exact ⟨[], e, es, st, rfl, rfl, hf⟩
      | none =>
        obtain ⟨pre, e1, post, st3, hes, hpre, hfail⟩ := ih h
        refine ⟨e :: pre, e1, post, st3, by rw [hes]; rfl, ?_, hfail⟩
        rw [walk, hf]
        exact hpre

/-- A walk that fails at an entry stops there: the entries after it play no part. -/
theorem walk_append_fail {env : Env} {c : Client} {pfx : String} {sync : Bool} (pre : List Entry) :
    ∀ {st st1 st2 : WalkState} {err : String} (e : Entry) (post : List Entry),
      walk env c pfx sync pre st = (none, st1) → walkFn env c pfx sync st1 e = (some err, st2) →
      walk env c pfx sync (pre ++ e :: post) st = (some err, st2) := by
  induction pre with
  | nil =>
    intro st st1 st2 err e post hpre hfail
    simp only [walk, Prod.mk.injEq, true_and] at hpre
    subst hpre
    rw [List.nil_append, walk, hfail]
  | cons e0 pre ih =>
    intro st st1 st2 err e post hpre hfail
    obtain ⟨st0, h0, h1⟩ := walk_cons_ok hpre
    rw [List.cons_append, walk, h0]
    exact ih e post h1 hfail

/-- The run as a function of its walk. -/
theorem backupEntries_of_walk {env : Env} {s : Service} {c : Client} {store : Store}
    {entries : List Entry} {sync shouldDelete : Bool} {awsCfg : Option AWSConfig}
    (hlist : sync = true → env.fault (Call.list c.bucket (listPrefix s awsCfg)) = none) :
    backupEntries env s c store entries sync shouldDelete awsCfg =
      match walk env c (keyPrefix s awsCfg) sync entries (walkStart s c store sync awsCfg) with
      | (some err, st) => (some ("failed to backup directory: " ++ err), st.remote)
      | (none, st) =>
        if sync = true ∧ shouldDelete = true ∧ st.s3FileMap.length > 0 then
          deleteOrphans env c st.s3FileMap st.remote
        else (none, st.remote) := by
  unfold backupEntries walkStart
  cases sync with
  | false => simp
  | true =>
    simp only [if_true]
    unfold Client.ListObjects
    rw [hlist rfl]
    simp

/-- The walk issues no delete, whatever its outcome. -/
theorem walk_no_delete {env : Env} {c : Client} {pfx : String} {sync : Bool} {es : List Entry}
    {st st2 : WalkState} {res : Option String} (h : walk env c pfx sync es st = (res, st2))
    (hst : ∀ b k, Call.delete b k ∉ st.remote.trace) :
    ∀ b k, Call.delete b k ∉ st2.remote.trace := by
  intro b k hmem
  cases res with
  | none =>
    rcases walk_trace es h _ hmem with h1 | ⟨e, -, -, h1 | h1⟩
    · exact hst b k h1
    · simp at h1
    · simp at h1
  | some err =>
    obtain ⟨pre, e, post, st1, -, hpre, hfail⟩ := walk_fail_split es h
    rcases (walkFn_fail hfail).2 _ hmem with h1 | ⟨-, h1 | h1⟩
    · rcases walk_trace pre hpre _ h1 with h2 | ⟨e1, -, -, h2 | h2⟩
      · exact hst b k h2
      · simp at h2
      · simp at h2
    · simp at h1
    · simp at h1

theorem walkStart_no_delete (s : Service) (c : Client) (store : Store) (sync : Bool)
    (awsCfg : Option AWSConfig) :
    ∀ b k, Call.delete b k ∉ (walkStart s c store sync awsCfg).remote.trace := by
  intro b k
  unfold walkStart
  cases sync <;> simp

/-- C12, amended: when `os.Stat` reports that the source path does not exist, in
the sense of `os.IsNotExist` (and a client is available), `BackupDirectory` returns
the error `source path does not exist: ` followed by the path, for every flag
combination, and issues no call to the store, which is left as it was. -/
theorem BackupDirectory_missing_source (env : Env) (s : Service) (store : Store)
    (sourcePath : String) (sync shouldDelete : Bool) (awsCfg : Option AWSConfig) (c : Client)
    (hc : getS3ClientForConfig env.loadErr s awsCfg = .ok c)
    (hfs : env.fs sourcePath = none) :
    BackupDirectory env s store sourcePath sync shouldDelete awsCfg =
      (some ("source path does not exist: " ++ sourcePath), { store := store, trace := [] }) := by
  unfold BackupDirectory
  rw [hc]
  simp only [hfs]

/-- C12 at the path of the end-to-end test. -/
theorem BackupDirectory_missing_source_witness :
    getS3ClientForConfig sampleEnv.loadErr sampleService none = .ok sampleService.s3Client ∧
    sampleEnv.fs "/nonexistent/path" = none ∧
    BackupDirectory sampleEnv sampleService sampleStore "/nonexistent/path" true true none =
      (some ("source path does not exist: " ++ "/nonexistent/path"),
        { store := sampleStore, trace := [] }) :=
  ⟨rfl, rfl,
    BackupDirectory_missing_source sampleEnv sampleService sampleStore "/nonexistent/path" true true
      none sampleService.s3Client rfl rfl⟩

/-- C12 at a source path that is missing below a regular file: the error of
`os.Stat` is `not a directory`, which `os.IsNotExist` does not accept, so the sync
run lists the bucket and then returns the error of the walk, which does not
contain `source path does not exist`. -/
theorem BackupDirectory_missing_below_file :
    getS3ClientForConfig notDirEnv.loadErr sampleService none = .ok sampleService.s3Client ∧
    BackupDirectory notDirEnv sampleService sampleStore "/data/test1.txt/sub" true false none =
      (some "failed to backup directory: lstat /data/test1.txt/sub: not a directory",
        { store := sampleStore, trace := [Call.list "backme" "backups/"] }) ∧
    BackupDirectory notDirEnv sampleService sampleStore "/data/test1.txt/sub" true false none ≠
      (some ("source path does not exist: " ++ "/data/test1.txt/sub"),
        { store := sampleStore, trace := [] }) ∧
    Call.list "backme" "backups/" ∈
      (BackupDirectory notDirEnv sampleService sampleStore "/data/test1.txt/sub" true false
        none).2.trace ∧
    ¬ "source path does not exist".data <:+:
      "failed to backup directory: lstat /data/test1.txt/sub: not a directory".data :=
  ⟨rfl, by decide, by decide, by decide, by decide⟩

/-- A walk error handed to the callback is returned by it as it is. -/
theorem walkFn_of_walkErr (env : Env) (c : Client) (pfx : String) (sync : Bool) (st : WalkState)
    (e : Entry) (err : String) (h : e.walkErr = some err) :
    walkFn env c pfx sync st e = (some err, st) := by
  unfold walkFn
  rw [h]

/-- In sync mode a failing metadata fetch for a listed key makes the callback
return that error, after the one call it issued. -/
theorem walkFn_of_head_fault (env : Env) (c : Client) (pfx : String) (st : WalkState)
    (e : Entry) (err : String) (hw : e.walkErr = none) (hd : e.isDir = false)
    (hk : GetObjectKey pfx [e.relPath] ∈ st.s3FileMap)
    (hf : env.fault (Call.head c.bucket (GetObjectKey pfx [e.relPath])) = some err) :
    walkFn env c pfx true st e =
      (some ("failed to get S3 object metadata for " ++ e.relPath ++ ": " ++
          ("failed to get object metadata from S3: " ++ err)),
        { st with remote := { st.remote with
            trace := st.remote.trace ++ [Call.head c.bucket (GetObjectKey pfx [e.relPath])] } }) := by
  unfold walkFn
  rw [hw]
  simp only [hd, Bool.false_eq_true, if_false, if_true]
  unfold syncCheck
  simp only [hk, if_true]
  unfold Client.GetObjectMetadata
  rw [hf]

/-- When the upload of a file is due, a failing `os.Open` makes the callback return
that error. -/
theorem walkFn_of_open_fail (env : Env) (c : Client) (pfx : String) (sync : Bool)
    (st : WalkState) (e : Entry) (err : String) (hw : e.walkErr = none) (hd : e.isDir = false)
    (hdue : uploadDue env c (GetObjectKey pfx [e.relPath]) e st sync = true)
    (ho : e.openErr = some err) :
    (walkFn env c pfx sync st e).1 = some ("failed to open file " ++ e.path ++ ": " ++ err) := by
  unfold walkFn
  rw [hw]
  unfold uploadDue at hdue
  generalize GetObjectKey pfx [e.relPath] = key at hdue ⊢
  simp only [hd, Bool.false_eq_true, if_false]
  cases sync with
  | false => simp [uploadFile, ho]
  | true =>
    simp only [if_true]
    unfold syncCheck
    by_cases hk : key ∈ st.s3FileMap
    · simp only [hk, if_true]
      simp only [Bool.not_true, Bool.false_or, hk, not_true_eq_false, decide_False,
        Bool.and_eq_true, Option.isNone_iff_eq_none] at hdue
      obtain ⟨hf, hg⟩ := hdue
      unfold Client.GetObjectMetadata
      rw [hf]
      cases hget : st.remote.store.get c.bucket key with
      | none => rw [hget] at hg; simp at hg
      | some o =>
        rw [hget] at hg
        simp only [decide_eq_true_eq] at hg
        simp [hg, uploadFile, ho]
    · simp [hk, uploadFile, ho]

/-- When the upload of a file is due and the file opens, a failing upload makes the
callback return that error. -/
theorem walkFn_of_put_fault (env : Env) (c : Client) (pfx : String) (sync : Bool)
    (st : WalkState) (e : Entry) (err : String) (hw : e.walkErr = none) (hd : e.isDir = false)
    (hdue : uploadDue env c (GetObjectKey pfx [e.relPath]) e st sync = true)
    (ho : e.openErr = none)
    (hf : env.fault (Call.put c.bucket (GetObjectKey pfx [e.relPath]) e.body) = some err) :
    (walkFn env c pfx sync st e).1 =
      some ("failed to upload file " ++ e.path ++ " to S3: " ++
        ("failed to upload file to S3: " ++ err)) := by
  unfold walkFn
  rw [hw]
  unfold uploadDue at hdue
  generalize GetObjectKey pfx [e.relPath] = key at hdue hf ⊢
  simp only [hd, Bool.false_eq_true, if_false]
  cases sync with
  | false => simp [uploadFile, ho, Client.Upload, hf]
  | true =>
    simp only [if_true]
    unfold syncCheck
    by_cases hk : key ∈ st.s3FileMap
    · simp only [hk, if_true]
      simp only [Bool.not_true, Bool.false_or, hk, not_true_eq_false, decide_False,
        Bool.and_eq_true, Option.isNone_iff_eq_none] at hdue
      obtain ⟨hfh, hg⟩ := hdue
      unfold Client.GetObjectMetadata
      rw [hfh]
      cases hget : st.remote.store.get c.bucket key with
      | none => rw [hget] at hg; simp at hg
      | some o =>
        rw [hget] at hg
        simp only [decide_eq_true_eq] at hg
        simp [hg, uploadFile, ho, Client.Upload, hf]
    · simp [hk, uploadFile, ho, Client.Upload, hf]

/-- A failing listing makes the run return its error with only the listing
call issued and the store untouched. A walk that fails at an entry, after the
entries before it went through, makes the run return that error, wrapped, with the
store as the walk of the earlier entries left it: nothing is removed, the files
visited before are stored, no entry after the failing one is processed and no
delete is issued. Every failing walk is of this kind, and a delete in the trace of
a run means that the whole walk completed without error. -/
theorem BackupDirectory_failure_core (env : Env) (s : Service) (store : Store)
    (sourcePath : String) (sync shouldDelete : Bool) (awsCfg : Option AWSConfig) (c : Client)
    (entries : List Entry)
    (hc : getS3ClientForConfig env.loadErr s awsCfg = .ok c)
    (hfs : env.fs sourcePath = some entries) :
    (∀ err, sync = true → env.fault (Call.list c.bucket (listPrefix s awsCfg)) = some err →
      BackupDirectory env s store sourcePath sync shouldDelete awsCfg =
        (some ("failed to list objects in S3: " ++ ("failed to list objects in S3: " ++ err)),
          { store := store, trace := [Call.list c.bucket (listPrefix s awsCfg)] })) ∧
    (∀ pre e post err st1 st2,
      (sync = true → env.fault (Call.list c.bucket (listPrefix s awsCfg)) = none) →
      entries = pre ++ e :: post →
      walk env c (keyPrefix s awsCfg) sync pre (walkStart s c store sync awsCfg) = (none, st1) →
      walkFn env c (keyPrefix s awsCfg) sync st1 e = (some err, st2) →
        BackupDirectory env s store sourcePath sync shouldDelete awsCfg =
          (some ("failed to backup directory: " ++ err), st2.remote) ∧
        st2.remote.store = st1.remote.store ∧
        (∀ b k, (store.get b k).isSome = true → (st2.remote.store.get b k).isSome = true) ∧
        (∀ e1 ∈ regularFiles pre,
          (st2.remote.store.get c.bucket (fileKey s awsCfg e1)).isSome = true) ∧
        (∀ b k, Call.delete b k ∉ st2.remote.trace) ∧
        (∀ call ∈ st2.remote.trace, call = Call.list c.bucket (listPrefix s awsCfg) ∨
          ∃ e1 ∈ regularFiles (pre ++ [e]),
            call = Call.head c.bucket (fileKey s awsCfg e1) ∨
              call = Call.put c.bucket (fileKey s awsCfg e1) e1.body)) ∧
    (∀ err st2,
      walk env c (keyPrefix s awsCfg) sync entries (walkStart s c store sync awsCfg) =
        (some err, st2) →
      ∃ pre e post st1, entries = pre ++ e :: post ∧
        walk env c (keyPrefix s awsCfg) sync pre (walkStart s c store sync awsCfg) = (none, st1) ∧
        walkFn env c (keyPrefix s awsCfg) sync st1 e = (some err, st2)) ∧
    ((∃ b k, Call.delete b k ∈
        (BackupDirectory env s store sourcePath sync shouldDelete awsCfg).2.trace) →
      sync = true ∧ shouldDelete = true ∧
        ∃ st2, walk env c (keyPrefix s awsCfg) sync entries (walkStart s c store sync awsCfg) =
          (none, st2)) := by
  rw [BackupDirectory_eq hc hfs]
  have hstart_store : (walkStart s c store sync awsCfg).remote.store = store := by
    unfold walkStart; cases sync <;> rfl
  have hstart_trace : ∀ call ∈ (walkStart s c store sync awsCfg).remote.trace,
      call = Call.list c.bucket (listPrefix s awsCfg) := by
    intro call hcall
    unfold walkStart at hcall
    cases sync
    · simp at hcall
    · simpa using hcall
  refine ⟨?_, ?_, fun err st2 h => walk_fail_split entries h, ?_⟩
  · intro err hs hf
    subst hs
    unfold backupEntries Client.ListObjects
    simp [hf]
  · intro pre e post err st1 st2 hlist hes hpre hfail
    have hwalk := walk_append_fail pre e post hpre hfail
    obtain ⟨hstore, htrace⟩ := walkFn_fail hfail
    refine ⟨?_, hstore, ?_, ?_, ?_, ?_⟩
    · rw [backupEntries_of_walk hlist, hes, hwalk]
    · intro b k hsome
      rw [hstore]
      exact walk_keeps pre hpre b k (by rw [hstart_store]; exact hsome)
    · intro e1 he1
      rw [hstore]
      obtain ⟨h1, h2⟩ := mem_regularFiles.1 he1
      exact walk_stored pre hpre e1 h1 h2
    · rw [← hes] at hwalk
      exact walk_no_delete hwalk (walkStart_no_delete s c store sync awsCfg)
    · intro call hcall
      rcases htrace call hcall with h1 | ⟨hd, h1⟩
      · rcases walk_trace pre hpre call h1 with h2 | ⟨e1, he1, hd1, h2⟩
        · exact Or.inl (hstart_trace call h2)
        · right
          refine ⟨e1, mem_regularFiles.2 ⟨List.mem_append.2 (Or.inl he1), hd1⟩, ?_⟩
          rcases h2 with h2 | h2
          · exact Or.inl h2.2
          · exact Or.inr h2
      · exact Or.inr ⟨e, mem_regularFiles.2 ⟨by simp, hd⟩, h1⟩
  · rintro ⟨b, k, hmem⟩
    by_cases hlist : sync = true → env.fault (Call.list c.bucket (listPrefix s awsCfg)) = none
    · rw [backupEntries_of_walk hlist] at hmem
      cases hw : walk env c (keyPrefix s awsCfg) sync entries (walkStart s c store sync awsCfg) with
      | mk res st =>
        rw [hw] at hmem
        have hnd := walk_no_delete hw (walkStart_no_delete s c store sync awsCfg)
        cases res with
        | some err => exact absurd hmem (hnd b k)
        | none =>
          simp only at hmem
          split at hmem
          · next hcond => exact ⟨hcond.1, hcond.2.1, st, rfl⟩
          · exact absurd hmem (hnd b k)
    · simp only [Classical.not_imp] at hlist
      obtain ⟨hs, hf⟩ := hlist
      subst hs
      cases hfe : env.fault (Call.list c.bucket (listPrefix s awsCfg)) with
      | none => exact absurd hfe hf
      | some err =>
        unfold backupEntries Client.ListObjects at hmem
        simp [hfe] at hmem

/-- C13: a failing listing makes the run return its error with only the listing
call issued and the store untouched. When the entries before an entry went through
and a step fails at that entry (the walk error handed to the callback, the metadata
fetch of a listed key, opening a file whose upload is due, or that upload), the run
returns the error of that step, wrapped. A walk that fails at an entry leaves the
store as the walk of the earlier entries left it: nothing is removed, the files
visited before are stored, no entry after the failing one is processed and no
delete is issued. Every failing walk is of this kind, and a delete in the trace of
a run means that the whole walk completed without error. -/
theorem BackupDirectory_first_failure (env : Env) (s : Service) (store : Store)
    (sourcePath : String) (sync shouldDelete : Bool) (awsCfg : Option AWSConfig) (c : Client)
    (entries : List Entry)
    (hc : getS3ClientForConfig env.loadErr s awsCfg = .ok c)
    (hfs : env.fs sourcePath = some entries) :
    (∀ err, sync = true → env.fault (Call.list c.bucket (listPrefix s awsCfg)) = some err →
      BackupDirectory env s store sourcePath sync shouldDelete awsCfg =
        (some ("failed to list objects in S3: " ++ ("failed to list objects in S3: " ++ err)),
          { store := store, trace := [Call.list c.bucket (listPrefix s awsCfg)] })) ∧
    (∀ pre e post err st1 st2,
      (sync = true → env.fault (Call.list c.bucket (listPrefix s awsCfg)) = none) →
      entries = pre ++ e :: post →
      walk env c (keyPrefix s awsCfg) sync pre (walkStart s c store sync awsCfg) = (none, st1) →
      walkFn env c (keyPrefix s awsCfg) sync st1 e = (some err, st2) →
        BackupDirectory env s store sourcePath sync shouldDelete awsCfg =
          (some ("failed to backup directory: " ++ err), st2.remote) ∧
        st2.remote.store = st1.remote.store ∧
        (∀ b k, (store.get b k).isSome = true → (st2.remote.store.get b k).isSome = true) ∧
        (∀ e1 ∈ regularFiles pre,
          (st2.remote.store.get c.bucket (fileKey s awsCfg e1)).isSome = true) ∧
        (∀ b k, Call.delete b k ∉ st2.remote.trace) ∧
        (∀ call ∈ st2.remote.trace, call = Call.list c.bucket (listPrefix s awsCfg) ∨
          ∃ e1 ∈ regularFiles (pre ++ [e]),
            call = Call.head c.bucket (fileKey s awsCfg e1) ∨
              call = Call.put c.bucket (fileKey s awsCfg e1) e1.body)) ∧
    (∀ err st2,
      walk env c (keyPrefix s awsCfg) sync entries (walkStart s c store sync awsCfg) =
        (some err, st2) →
      ∃ pre e post st1, entries = pre ++ e :: post ∧
        walk env c (keyPrefix s awsCfg) sync pre (walkStart s c store sync awsCfg) = (none, st1) ∧
        walkFn env c (keyPrefix s awsCfg) sync st1 e = (some err, st2)) ∧
    ((∃ b k, Call.delete b k ∈
        (BackupDirectory env s store sourcePath sync shouldDelete awsCfg).2.trace) →
      sync = true ∧ shouldDelete = true ∧
        ∃ st2, walk env c (keyPrefix s awsCfg) sync entries (walkStart s c store sync awsCfg) =
          (none, st2)) ∧
    (∀ pre e post st1,
      (sync = true → env.fault (Call.list c.bucket (listPrefix s awsCfg)) = none) →
      entries = pre ++ e :: post →
      walk env c (keyPrefix s awsCfg) sync pre (walkStart s c store sync awsCfg) = (none, st1) →
        (∀ err, e.walkErr = some err →
          (BackupDirectory env s store sourcePath sync shouldDelete awsCfg).1 =
            some ("failed to backup directory: " ++ err)) ∧
        (e.walkErr = none → e.isDir = false →
          (∀ err, sync = true → fileKey s awsCfg e ∈ st1.s3FileMap →
            env.fault (Call.head c.bucket (fileKey s awsCfg e)) = some err →
            (BackupDirectory env s store sourcePath sync shouldDelete awsCfg).1 =
              some ("failed to backup directory: " ++
                ("failed to get S3 object metadata for " ++ e.relPath ++ ": " ++
                  ("failed to get object metadata from S3: " ++ err)))) ∧
          (∀ err, uploadDue env c (fileKey s awsCfg e) e st1 sync = true →
            e.openErr = some err →
            (BackupDirectory env s store sourcePath sync shouldDelete awsCfg).1 =
              some ("failed to backup directory: " ++
                ("failed to open file " ++ e.path ++ ": " ++ err))) ∧
          (∀ err, uploadDue env c (fileKey s awsCfg e) e st1 sync = true →
            e.openErr = none →
            env.fault (Call.put c.bucket (fileKey s awsCfg e) e.body) = some err →
            (BackupDirectory env s store sourcePath sync shouldDelete awsCfg).1 =
              some ("failed to backup directory: " ++
                ("failed to upload file " ++ e.path ++ " to S3: " ++
                  ("failed to upload file to S3: " ++ err)))))) := by
  obtain ⟨hA, hB, hC, hD⟩ := BackupDirectory_failure_core env s store sourcePath sync shouldDelete
    awsCfg c entries hc hfs
  refine ⟨hA, hB, hC, hD, ?_⟩
  intro pre e post st1 hlist hes hpre
  have run : ∀ msg, (walkFn env c (keyPrefix s awsCfg) sync st1 e).1 = some msg →
      (BackupDirectory env s store sourcePath sync shouldDelete awsCfg).1 =
        some ("failed to backup directory: " ++ msg) := by
    intro msg hmsg
    have hfn : walkFn env c (keyPrefix s awsCfg) sync st1 e =
        (some msg, (walkFn env c (keyPrefix s awsCfg) sync st1 e).2) := by
      rw [← hmsg]
    rw [(hB pre e post msg st1 _ hlist hes hpre hfn).1]
  refine ⟨fun err hw => run err ?_, fun hw hd => ⟨fun err hs hk hf => run _ ?_,
    fun err hdue ho => run _ ?_, fun err hdue ho hf => run _ ?_⟩⟩
  · rw [walkFn_of_walkErr env c _ sync st1 e err hw]
  · subst hs
    rw [walkFn_of_head_fault env c _ st1 e err hw hd hk hf]
  · exact walkFn_of_open_fail env c _ sync st1 e err hw hd hdue ho
  · exact walkFn_of_put_fault env c _ sync st1 e err hw hd hdue ho hf

/-- C13 on the sample tree, with the metadata of `test1.txt` failing: `test3.txt`
was visited before, `test2.txt` comes after. -/
theorem BackupDirectory_first_failure_witness :
    getS3ClientForConfig faultyEnv.loadErr sampleService none = .ok sampleService.s3Client ∧
    faultyEnv.fs "/data" = some sampleEntries ∧
    (true = true →
      faultyEnv.fault (Call.list sampleService.s3Client.bucket (listPrefix sampleService none)) =
        none) ∧
    sampleEntries =
      [sampleDir "/data" ".", sampleDir "/data/subdir" "subdir", sampleFile "subdir/test3.txt" 5] ++
        sampleFile "test1.txt" 5 :: [sampleFile "test2.txt" 5] ∧
    (sampleFile "test1.txt" 5).walkErr = none ∧ (sampleFile "test1.txt" 5).isDir = false ∧
    faultyEnv.fault
      (Call.head sampleService.s3Client.bucket (fileKey sampleService none (sampleFile "test1.txt" 5)))
      = some "timeout" ∧
    (BackupDirectory faultyEnv sampleService sampleStore "/data" true true none).1 =
      some ("failed to backup directory: " ++
        ("failed to get S3 object metadata for " ++ (sampleFile "test1.txt" 5).relPath ++ ": " ++
          ("failed to get object metadata from S3: " ++ "timeout"))) ∧
    BackupDirectory faultyEnv sampleService sampleStore "/data" true true none =
      (some ("failed to backup directory: " ++
          "failed to get S3 object metadata for test1.txt: failed to get object metadata from S3: timeout"),
        { store :=
            { bucket := "backme", key := "backups/subdir/test3.txt",
              obj := { lastModified := 10, body := "test content" } } :: sampleStore
          trace :=
            [Call.list "backme" "backups/", Call.put "backme" "backups/subdir/test3.txt" "test content",
              Call.head "backme" "backups/test1.txt"] }) :=
  ⟨rfl, rfl, by decide, by decide, rfl, rfl, by decide,
    ((BackupDirectory_first_failure faultyEnv sampleService sampleStore "/data" true true none
      sampleService.s3Client sampleEntries rfl rfl).2.2.2.2
      [sampleDir "/data" ".", sampleDir "/data/subdir" "subdir", sampleFile "subdir/test3.txt" 5]
      (sampleFile "test1.txt" 5) [sampleFile "test2.txt" 5]
      { remote :=
          { store :=
              { bucket := "backme", key := "backups/subdir/test3.txt",
                obj := { lastModified := 10, body := "test content" } } :: sampleStore
            trace :=
              [Call.list "backme" "backups/",
                Call.put "backme" "backups/subdir/test3.txt" "test content"] }
        s3FileMap := ["backups/test1.txt", "backups/test2.txt", "backups/stale.txt"] }
      (by decide) (by decide) (by decide)).2 rfl rfl |>.1 "timeout" rfl (by decide) (by decide),
    (BackupDirectory_first_failure faultyEnv sampleService sampleStore "/data" true true none
      sampleService.s3Client sampleEntries rfl rfl).2.1
      [sampleDir "/data" ".", sampleDir "/data/subdir" "subdir", sampleFile "subdir/test3.txt" 5]
      (sampleFile "test1.txt" 5) [sampleFile "test2.txt" 5]
      "failed to get S3 object metadata for test1.txt: failed to get object metadata from S3: timeout"
      { remote :=
          { store :=
              { bucket := "backme", key := "backups/subdir/test3.txt",
                obj := { lastModified := 10, body := "test content" } } :: sampleStore
            trace :=
              [Call.list "backme" "backups/",
                Call.put "backme" "backups/subdir/test3.txt" "test content"] }
        s3FileMap := ["backups/test1.txt", "backups/test2.txt", "backups/stale.txt"] }
      { remote :=
          { store :=
              { bucket := "backme", key := "backups/subdir/test3.txt",
                obj := { lastModified := 10, body := "test content" } } :: sampleStore
            trace :=
              [Call.list "backme" "backups/",
                Call.put "backme" "backups/subdir/test3.txt" "test content",
                Call.head "backme" "backups/test1.txt"] }
        s3FileMap := ["backups/test1.txt", "backups/test2.txt", "backups/stale.txt"] }
      (by decide) (by decide) (by decide) (by decide) |>.1⟩

/-- C19 at an override that leaves `DirectoryPrefix` empty: the run lists under
`backups/` and derives the key `test1.txt`, which does not start with `backups/`;
the objects a sync run uploads are not in the listing of the next run. -/
theorem fileKey_outside_listPrefix :
    listPrefix sampleService (some bucketOverride) = "backups/" ∧
    fileKey sampleService (some bucketOverride) (sampleFile "test1.txt" 5) = "test1.txt" ∧
    (listPrefix sampleService (some bucketOverride)).data.isPrefixOf
        (fileKey sampleService (some bucketOverride) (sampleFile "test1.txt" 5)).data = false ∧
    Store.keys
        (BackupDirectory sampleEnv sampleService [] "/data" true false (some bucketOverride)).2.store
        "x" (listPrefix sampleService (some bucketOverride)) = [] := by
  decide

/-! ## Key derivation and the backslash -/

theorem segments_of_no_slash (l : List Char) (h : '/' ∉ l) : segments l = [l] := by
  induction l with
  | nil => rfl
  | cons c t ih =>
    simp only [List.mem_cons, not_or] at h
    have hc : c ≠ '/' := fun hh => h.1 hh.symm
    simp only [segments, hc, if_false, ih h.2]

theorem map_backslash_no_slash (l : List Char) :
    '/' ∉ l.map fun c => if c = '/' then '\\' else c := by
  intro h
  obtain ⟨c, -, hc⟩ := List.mem_map.1 h
  by_cases hs : c = '/'
  · rw [if_pos hs] at hc; exact absurd hc (by decide)
  · rw [if_neg hs] at hc; exact hs hc

theorem map_backslash_eq_self (l : List Char) :
    (l.map fun c => if c = '/' then '\\' else c) = l ↔ '/' ∉ l := by
  induction l with
  | nil => simp
  | cons c t ih =>
    simp only [List.map_cons, List.cons.injEq, ih, List.mem_cons, not_or]
    constructor
    · rintro ⟨h1, h2⟩
      refine ⟨fun hc => ?_, h2⟩
      rw [if_pos hc.symm] at h1
      rw [← h1] at hc
      exact absurd hc (by decide)
    · rintro ⟨h1, h2⟩
      exact ⟨if_neg (fun hc => h1 hc.symm), h2⟩

/-- The backslash spelling of a normalised path is a single path element. -/
theorem Normalised.toBackslash {p : String} (hp : Normalised p) : Normalised (toBackslash p) := by
  have hne := data_length_pos hp.ne_empty
  unfold Normalised Backme.toBackslash
  simp only
  rw [segments_of_no_slash _ (map_backslash_no_slash p.data)]
  intro seg hseg
  rw [List.mem_singleton] at hseg
  subst hseg
  have hdot : ∀ c : Char, (if c = '/' then '\\' else c) = '.' → c = '.' := by
    intro c hc
    by_cases hs : c = '/'
    · rw [if_pos hs] at hc; exact absurd hc (by decide)
    · rw [if_neg hs] at hc; exact hc
  refine ⟨?_, ?_, ?_⟩
  · intro h
    rw [List.map_eq_nil_iff] at h
    rw [h] at hne
    simp at hne
  · intro h
    cases hl : p.data with
    | nil => rw [hl] at hne; simp at hne
    | cons a t =>
      rw [hl] at h
      cases t with
      | nil =>
        simp only [List.map_cons, List.map_nil, List.cons.injEq, and_true] at h
        have := hp ['.'] (by rw [hl, hdot a h]; simp [segments])
        exact this.2.1 rfl
      | cons b u => simp at h
  · intro h
    cases hl : p.data with
    | nil => rw [hl] at hne; simp at hne
    | cons a t =>
      rw [hl] at h
      cases t with
      | nil => simp at h
      | cons b u =>
        cases u with
        | nil =>
          simp only [List.map_cons, List.map_nil, List.cons.injEq, and_true] at h
          have := hp ['.', '.'] (by rw [hl, hdot a h.1, hdot b h.2]; simp [segments])
          exact this.2.2 rfl
        | cons d v => simp at h

/-- Key derivation separates at the forward slash only and keeps a backslash as it
is. For an empty or normalised prefix and a normalised relative
path, the key of the path written with backslashes is that spelling itself
(after the prefix and one slash, if there is a prefix), and it is the key of the
forward-slash spelling exactly when the path has no separator at all. -/
theorem GetObjectKey_backslash (pfx p : String) (hpfx : pfx = "" ∨ Normalised pfx)
    (hp : Normalised p) :
    GetObjectKey pfx [toBackslash p] =
        (if pfx = "" then toBackslash p else pfx ++ "/" ++ toBackslash p) ∧
      (GetObjectKey pfx [toBackslash p] = GetObjectKey pfx [p] ↔ '/' ∉ p.data) := by
  have hb := hp.toBackslash
  constructor
  · unfold GetObjectKey
    rcases hpfx with rfl | hpfx
    · rw [if_pos rfl, if_pos rfl]
      exact Join_single _ hb
    · rw [if_neg hpfx.ne_empty, if_neg hpfx.ne_empty]
      exact Join_pair pfx _ hpfx hb
  · constructor
    · intro h
      have := GetObjectKey_injective pfx hpfx _ _ hb hp h
      have hd := congrArg String.data this
      unfold toBackslash at hd
      exact (map_backslash_eq_self p.data).1 hd
    · intro h
      have : toBackslash p = p := by
        apply String.ext
        unfold toBackslash
        exact (map_backslash_eq_self p.data).2 h
      rw [this]

/-- The backslash spelling of `a/b.txt` under the prefix `backups`. -/
theorem GetObjectKey_backslash_witness :
    ("backups" = "" ∨ Normalised "backups") ∧ Normalised "a/b.txt" ∧
      GetObjectKey "backups" [toBackslash "a/b.txt"] =
        (if "backups" = "" then toBackslash "a/b.txt" else "backups" ++ "/" ++ toBackslash "a/b.txt") :=
  ⟨by decide, by decide,
    (GetObjectKey_backslash "backups" "a/b.txt" (by decide) (by decide)).1⟩

/-- C11 on a host whose separator is the backslash: the file `subdir\test3.txt`
gets the key `subdir\test3.txt`, not the key `subdir/test3.txt` of the forward-slash
spelling, and after a successful run on the tree of the end-to-end tests the store
holds no object at `subdir/test3.txt`; likewise for `a\b.txt`, with or without
prefix. -/
theorem GetObjectKey_backslash_differs :
    toBackslash "subdir/test3.txt" = "subdir\\test3.txt" ∧
      GetObjectKey "" [toBackslash "subdir/test3.txt"] = "subdir\\test3.txt" ∧
      GetObjectKey "" ["subdir/test3.txt"] = "subdir/test3.txt" ∧
      GetObjectKey "" [toBackslash "subdir/test3.txt"] ≠ GetObjectKey "" ["subdir/test3.txt"] ∧
      (BackupDirectory backslashEnv plainService [] "C:\\data" false false none).1 = none ∧
      (BackupDirectory backslashEnv plainService [] "C:\\data" false false none).2.store.get
        "backme" "subdir/test3.txt" = none ∧
      (BackupDirectory backslashEnv plainService [] "C:\\data" false false none).2.store.get
        "backme" "subdir\\test3.txt" = some { lastModified := 10, body := "test content" } ∧
      toBackslash "a/b.txt" = "a\\b.txt" ∧
      GetObjectKey "" [toBackslash "a/b.txt"] = "a\\b.txt" ∧
      GetObjectKey "" ["a/b.txt"] = "a/b.txt" ∧
      GetObjectKey "" [toBackslash "a/b.txt"] ≠ GetObjectKey "" ["a/b.txt"] ∧
      GetObjectKey "backups" [toBackslash "a/b.txt"] ≠ GetObjectKey "backups" ["a/b.txt"] := by
  decide

/-! ## The trigger engine -/

theorem ParseStandard_of_panics (lib : CronLib) (spec : String) (h : parsePanics spec = true) :
    ParseStandard lib spec = .panic "runtime error: slice bounds out of range [:-1]" := by
  unfold parsePanics at h
  simp only [decide_eq_true_eq] at h
  obtain ⟨hp, hs⟩ := h
  have hne : spec ≠ "" := by
    rintro rfl
    revert hp
    decide
  unfold ParseStandard
  rw [if_neg hne, if_pos hp]
  simp only
  rw [if_pos (List.indexOf_eq_length.2 hs)]

theorem ParseStandard_of_not_panics (lib : CronLib) (spec : String)
    (h : parsePanics spec = false) : ∃ r, ParseStandard lib spec = .ret r := by
  unfold parsePanics at h
  simp only [decide_eq_false_iff_not, not_and, not_not] at h
  unfold ParseStandard
  by_cases hne : spec = ""
  · rw [if_pos hne]; exact ⟨_, rfl⟩
  · rw [if_neg hne]
    by_cases hp : "TZ=".data.isPrefixOf spec.data = true ∨ "CRON_TZ=".data.isPrefixOf spec.data = true
    · rw [if_pos hp]
      simp only
      rw [if_neg (fun hh => (List.indexOf_eq_length.1 hh) (h hp))]
      cases lib.loadLocation (String.mk (List.drop (List.indexOf '=' spec.data + 1)
        (List.take (List.indexOf ' ' spec.data) spec.data))) with
      | some err => exact ⟨_, rfl⟩
      | none => exact ⟨_, rfl⟩
    · rw [if_neg hp]; exact ⟨_, rfl⟩

/-- The validation panics exactly on the specs that begin with `TZ=` or `CRON_TZ=`
and hold no space. -/
theorem ParseStandard_panic_iff (lib : CronLib) (spec : String) :
    (∃ msg, ParseStandard lib spec = .panic msg) ↔ parsePanics spec = true := by
  constructor
  · rintro ⟨msg, h⟩
    cases hp : parsePanics spec with
    | true => rfl
    | false =>
      obtain ⟨r, hr⟩ := ParseStandard_of_not_panics lib spec hp
      rw [hr] at h
      cases h
  · intro h
    exact ⟨_, ParseStandard_of_panics lib spec h⟩

theorem ParseStandard_empty (lib : CronLib) :
    ParseStandard lib "" = .ret (some "empty spec string") := by
  unfold ParseStandard
  rw [if_pos rfl]

theorem ParseStandard_daily (lib : CronLib) :
    ParseStandard lib "0 0 * * *" = .ret (lib.parseFields "0 0 * * *") := by
  unfold ParseStandard
  rw [if_neg (by decide), if_neg (by decide)]

theorem ParseStandard_twice (lib : CronLib) :
    ParseStandard lib "0 */12 * * *" = .ret (lib.parseFields "0 */12 * * *") := by
  unfold ParseStandard
  rw [if_neg (by decide), if_neg (by decide)]

theorem ParseStandard_thrice (lib : CronLib) :
    ParseStandard lib "0 */8 * * *" = .ret (lib.parseFields "0 */8 * * *") := by
  unfold ParseStandard
  rw [if_neg (by decide), if_neg (by decide)]

theorem getCronExpression_of_other (lib : CronLib) (expr : String) (h1 : expr ≠ "daily")
    (h2 : expr ≠ "twice_daily") (h3 : expr ≠ "thrice_daily") :
    getCronExpression lib expr =
      match ParseStandard lib expr with
      | .panic msg => .panic msg
      | .ret none => .ret expr
      | .ret (some _) => .ret "" := by
  unfold getCronExpression
  rw [if_neg h1, if_neg h2, if_neg h3]

theorem getCronExpression_empty (lib : CronLib) : getCronExpression lib "" = .ret "" := by
  rw [getCronExpression_of_other lib "" (by decide) (by decide) (by decide), ParseStandard_empty]

/-- `getCronExpression` panics exactly when the validation of its argument does. -/
theorem getCronExpression_of_panics (lib : CronLib) (expr : String)
    (h : parsePanics expr = true) :
    getCronExpression lib expr = .panic "runtime error: slice bounds out of range [:-1]" := by
  have h1 : expr ≠ "daily" := by rintro rfl; revert h; decide
  have h2 : expr ≠ "twice_daily" := by rintro rfl; revert h; decide
  have h3 : expr ≠ "thrice_daily" := by rintro rfl; revert h; decide
  rw [getCronExpression_of_other lib expr h1 h2 h3, ParseStandard_of_panics lib expr h]

/-- When `getCronExpression` returns, the expression it returns is empty or one on
which the validation returns, and it is not empty exactly when `Start` accepts the
argument. -/
theorem getCronExpression_of_not_panics (lib : CronLib) (expr : String)
    (h : parsePanics expr = false) :
    ∃ cronExpr, getCronExpression lib expr = .ret cronExpr ∧
      (cronExpr = "" ∨ ∃ r, ParseStandard lib cronExpr = .ret r) := by
  by_cases h1 : expr = "daily"
  · subst h1
    exact ⟨"0 0 * * *", rfl, Or.inr ⟨_, ParseStandard_daily lib⟩⟩
  by_cases h2 : expr = "twice_daily"
  · subst h2
    exact ⟨"0 */12 * * *", rfl, Or.inr ⟨_, ParseStandard_twice lib⟩⟩
  by_cases h3 : expr = "thrice_daily"
  · subst h3
    exact ⟨"0 */8 * * *", rfl, Or.inr ⟨_, ParseStandard_thrice lib⟩⟩
  rw [getCronExpression_of_other lib expr h1 h2 h3]
  obtain ⟨r, hr⟩ := ParseStandard_of_not_panics lib expr h
  rw [hr]
  cases r with
  | none => exact ⟨expr, rfl, Or.inr ⟨none, hr⟩⟩
  | some err => exact ⟨"", rfl, Or.inl rfl⟩

theorem registersExpression_of_panics (lib : CronLib) (expr : String)
    (h : parsePanics expr = true) : registersExpression lib expr = false := by
  unfold registersExpression
  rw [getCronExpression_of_panics lib expr h]

theorem scheduleDatabase_eq (lib : CronLib) (c : Cron) (d : DatabaseSchedule) :
    scheduleDatabase lib c d =
      if parsePanics d.Expression = true then
        .panic "runtime error: slice bounds out of range [:-1]"
      else if registersExpression lib d.Expression = true then
        .ret { c with entries := c.entries ++ [databaseEntry lib d] }
      else .ret c := by
  cases hp : parsePanics d.Expression with
  | true =>
    unfold scheduleDatabase
    simp only [getCronExpression_of_panics lib _ hp, if_true]
  | false =>
    obtain ⟨cronExpr, hg, hce⟩ := getCronExpression_of_not_panics lib d.Expression hp
    unfold scheduleDatabase registersExpression databaseEntry cronExpressionOf Cron.AddFunc
    simp only [hg, Bool.false_eq_true, if_false]
    by_cases he : cronExpr = ""
    · simp [he]
    · rcases hce with hce | ⟨r, hr⟩
      · exact absurd hce he
      · cases r with
        | none => simp [he, hr]
        | some err => simp [he, hr]

theorem scheduleDirectory_eq (lib : CronLib) (c : Cron) (d : DirectorySchedule) :
    scheduleDirectory lib c d =
      if parsePanics d.Expression = true then
        .panic "runtime error: slice bounds out of range [:-1]"
      else if registersExpression lib d.Expression = true then
        .ret { c with entries := c.entries ++ [directoryEntry lib d] }
      else .ret c := by
  cases hp : parsePanics d.Expression with
  | true =>
    unfold scheduleDirectory
    simp only [getCronExpression_of_panics lib _ hp, if_true]
  | false =>
    obtain ⟨cronExpr, hg, hce⟩ := getCronExpression_of_not_panics lib d.Expression hp
    unfold scheduleDirectory registersExpression directoryEntry cronExpressionOf Cron.AddFunc
    simp only [hg, Bool.false_eq_true, if_false]
    by_cases he : cronExpr = ""
    · simp [he]
    · rcases hce with hce | ⟨r, hr⟩
      · exact absurd hce he
      · cases r with
        | none => simp [he, hr]
        | some err => simp [he, hr]

/-- A loop of `Start` whose body panics exactly on the schedules marked by `bad`
and otherwise adds the entry `entry x` when `reg x`: it gets through the schedules
before the first bad one. -/
theorem scheduleEach_eq {σ : Type} (body : Cron → σ → Outcome Cron) (bad reg : σ → Bool)
    (entry : σ → CronEntry) (msg : String)
    (hbody : ∀ c x, body c x =
      if bad x = true then .panic msg
      else if reg x = true then .ret { c with entries := c.entries ++ [entry x] }
      else .ret c)
    (l : List σ) : ∀ c : Cron,
    scheduleEach body l c =
      (if l.all (fun x => !bad x) = true then none else some msg,
        { c with
          entries :=
            c.entries ++ List.map entry ((l.takeWhile fun x => !bad x).filter reg) }) := by
  induction l with
  | nil => intro c; simp [scheduleEach]
  | cons x xs ih =>
    intro c
    rw [scheduleEach, hbody]
    cases hb : bad x with
    | true => simp [hb, List.takeWhile_cons]
    | false =>
      cases hr : reg x with
      | true => simp [hb, hr, ih, List.takeWhile_cons, List.filter_cons]
      | false => simp [hb, hr, ih, List.takeWhile_cons, List.filter_cons]

/-- The scheduler after `Start`: the cron holds the entries it had, then one per
schedule the loops got through for which an iteration adds a job, in the order of
the lists; it is started, and `Start` returns nil, exactly when no expression makes
the validation panic. -/
theorem Start_eq (lib : CronLib) (s : Scheduler) :
    s.Start lib =
      (if (s.cfg.Schedules.Databases.all (fun d => !parsePanics d.Expression) &&
            s.cfg.Schedules.Directories.all (fun d => !parsePanics d.Expression)) = true then
          .ret none
        else .panic "runtime error: slice bounds out of range [:-1]",
        { s with
          cron :=
            { entries :=
                s.cron.entries ++
                  List.map (databaseEntry lib)
                    ((reachedDatabases s.cfg).filter fun d =>
                      registersExpression lib d.Expression) ++
                  List.map (directoryEntry lib)
                    ((reachedDirectories s.cfg).filter fun d =>
                      registersExpression lib d.Expression)
              running :=
                (s.cfg.Schedules.Databases.all (fun d => !parsePanics d.Expression) &&
                  s.cfg.Schedules.Directories.all (fun d => !parsePanics d.Expression)) ||
                  s.cron.running } }) := by
  unfold Scheduler.Start reachedDatabases reachedDirectories
  rw [scheduleEach_eq (scheduleDatabase lib) (fun d => parsePanics d.Expression)
    (fun d => registersExpression lib d.Expression) (databaseEntry lib) _
    (fun c x => scheduleDatabase_eq lib c x)]
  cases hdb : s.cfg.Schedules.Databases.all (fun d => !parsePanics d.Expression) with
  | false => simp
  | true =>
    simp only [if_true]
    rw [scheduleEach_eq (scheduleDirectory lib) (fun d => parsePanics d.Expression)
      (fun d => registersExpression lib d.Expression) (directoryEntry lib) _
      (fun c x => scheduleDirectory_eq lib c x)]
    cases hdir : s.cfg.Schedules.Directories.all (fun d => !parsePanics d.Expression) with
    | false => simp
    | true => simp

theorem takeWhile_of_all {σ : Type} (p : σ → Bool) (l : List σ) (h : l.all p = true) :
    l.takeWhile p = l := by
  induction l with
  | nil => rfl
  | cons x xs ih =>
    simp only [List.all_cons, Bool.and_eq_true] at h
    rw [List.takeWhile_cons, h.1]
    simp [ih h.2]

/-- With a cron library that accepts the expansions of the three presets, an
iteration of `Start` adds a job exactly for a preset or an expression the library
accepts. -/
theorem registersExpression_eq (lib : CronLib)
    (hdaily : lib.parseFields "0 0 * * *" = none)
    (htwice : lib.parseFields "0 */12 * * *" = none)
    (hthrice : lib.parseFields "0 */8 * * *" = none) (expr : String) :
    registersExpression lib expr = acceptedExpression lib expr := by
  unfold registersExpression acceptedExpression
  by_cases h1 : expr = "daily"
  · subst h1
    have : getCronExpression lib "daily" = .ret "0 0 * * *" := rfl
    rw [this]
    simp [ParseStandard_daily, hdaily]
  by_cases h2 : expr = "twice_daily"
  · subst h2
    have : getCronExpression lib "twice_daily" = .ret "0 */12 * * *" := rfl
    rw [this]
    simp [ParseStandard_twice, htwice]
  by_cases h3 : expr = "thrice_daily"
  · subst h3
    have : getCronExpression lib "thrice_daily" = .ret "0 */8 * * *" := rfl
    rw [this]
    simp [ParseStandard_thrice, hthrice]
  rw [getCronExpression_of_other lib expr h1 h2 h3]
  simp only [h1, h2, h3, false_or]
  cases hp : ParseStandard lib expr with
  | panic msg => simp
  | ret r =>
    cases r with
    | some err => simp
    | none =>
      have : expr ≠ "" := by
        rintro rfl
        rw [ParseStandard_empty] at hp
        cases hp
      simp [hp, this]

/-- On an expression that is not a preset and on which the validation returns,
`getCronExpression` returns the expression unchanged when the validation accepts
it and the empty string when it does not. -/
theorem getCronExpression_of_returns (lib : CronLib) (expr : String)
    (h1 : expr ≠ "daily") (h2 : expr ≠ "twice_daily") (h3 : expr ≠ "thrice_daily")
    (hp : parsePanics expr = false) :
    (ParseStandard lib expr = .ret none → getCronExpression lib expr = .ret expr) ∧
    (ParseStandard lib expr ≠ .ret none → getCronExpression lib expr = .ret "") := by
  rw [getCronExpression_of_other lib expr h1 h2 h3]
  obtain ⟨r, hr⟩ := ParseStandard_of_not_panics lib expr hp
  rw [hr]
  cases r with
  | none => exact ⟨fun _ => rfl, fun h => absurd rfl h⟩
  | some err => exact ⟨fun h => (by cases h), fun _ => rfl⟩

/-- The lemma `getCronExpression_of_returns` at a spec the sample library accepts
and at one it rejects. -/
theorem getCronExpression_of_returns_sample :
    (parsePanics "*/5 * * * *" = false ∧ ParseStandard sampleLib "*/5 * * * *" = .ret none ∧
      getCronExpression sampleLib "*/5 * * * *" = .ret "*/5 * * * *") ∧
    (parsePanics "not a cron" = false ∧ ParseStandard sampleLib "not a cron" ≠ .ret none ∧
      getCronExpression sampleLib "not a cron" = .ret "") :=
  ⟨⟨by decide, by decide,
      (getCronExpression_of_returns sampleLib "*/5 * * * *" (by decide) (by decide) (by decide)
        (by decide)).1 (by decide)⟩,
    ⟨by decide, by decide,
      (getCronExpression_of_returns sampleLib "not a cron" (by decide) (by decide) (by decide)
        (by decide)).2 (by decide)⟩⟩

/-- C14 at the expressions `TZ=UTC` and `CRON_TZ=Asia/Tokyo`, which are not presets:
whatever the cron library accepts, the validation inside `getCronExpression` panics
on them, so the function returns neither the expression nor the empty string. The
presets are mapped to `0 0 * * *`, `0 */12 * * *` and `0 */8 * * *`, and the empty
expression to the empty string. -/
theorem getCronExpression_panics (lib : CronLib) :
    "TZ=UTC" ≠ "daily" ∧ "TZ=UTC" ≠ "twice_daily" ∧ "TZ=UTC" ≠ "thrice_daily" ∧
    ParseStandard lib "TZ=UTC" = .panic "runtime error: slice bounds out of range [:-1]" ∧
    getCronExpression lib "TZ=UTC" = .panic "runtime error: slice bounds out of range [:-1]" ∧
    getCronExpression lib "TZ=UTC" ≠ .ret "TZ=UTC" ∧
    getCronExpression lib "TZ=UTC" ≠ .ret "" ∧
    getCronExpression lib "CRON_TZ=Asia/Tokyo" =
      .panic "runtime error: slice bounds out of range [:-1]" ∧
    getCronExpression lib "daily" = .ret "0 0 * * *" ∧
    getCronExpression lib "twice_daily" = .ret "0 */12 * * *" ∧
    getCronExpression lib "thrice_daily" = .ret "0 */8 * * *" ∧
    getCronExpression lib "" = .ret "" := by
  have h : getCronExpression lib "TZ=UTC" =
      .panic "runtime error: slice bounds out of range [:-1]" :=
    getCronExpression_of_panics lib "TZ=UTC" (by decide)
  refine ⟨by decide, by decide, by decide, ParseStandard_of_panics lib "TZ=UTC" (by decide), h,
    ?_, ?_, getCronExpression_of_panics lib "CRON_TZ=Asia/Tokyo" (by decide), rfl, rfl, rfl,
    getCronExpression_empty lib⟩
  · rw [h]; intro hh; cases hh
  · rw [h]; intro hh; cases hh

/-- When no schedule expression makes the validation panic, and the cron library
accepts the expansions of the three presets, `Start` returns no error, starts the
cron and adds to it exactly one job per database schedule and per directory
schedule whose expression is a preset or is accepted by the library, in the order
of the lists; the other schedules are skipped, wherever they stand. -/
theorem Start_of_returns (lib : CronLib) (s : Scheduler)
    (hdaily : lib.parseFields "0 0 * * *" = none)
    (htwice : lib.parseFields "0 */12 * * *" = none)
    (hthrice : lib.parseFields "0 */8 * * *" = none)
    (hdb : ∀ d ∈ s.cfg.Schedules.Databases, parsePanics d.Expression = false)
    (hdir : ∀ d ∈ s.cfg.Schedules.Directories, parsePanics d.Expression = false) :
    (s.Start lib).1 = .ret none ∧
    (s.Start lib).2.cron.running = true ∧
    (s.Start lib).2.cfg = s.cfg ∧
    (s.Start lib).2.cron.entries =
      s.cron.entries ++
        (s.cfg.Schedules.Databases.filter fun d =>
          acceptedExpression lib d.Expression).map (databaseEntry lib) ++
        (s.cfg.Schedules.Directories.filter fun d =>
          acceptedExpression lib d.Expression).map (directoryEntry lib) := by
  have hdb1 : s.cfg.Schedules.Databases.all (fun d => !parsePanics d.Expression) = true := by
    rw [List.all_eq_true]
    intro d hd
    rw [hdb d hd]; rfl
  have hdir1 : s.cfg.Schedules.Directories.all (fun d => !parsePanics d.Expression) = true := by
    rw [List.all_eq_true]
    intro d hd
    rw [hdir d hd]; rfl
  rw [Start_eq]
  simp only [hdb1, hdir1, Bool.and_self, if_true, Bool.true_or, reachedDatabases,
    reachedDirectories, takeWhile_of_all _ _ hdb1, takeWhile_of_all _ _ hdir1,
    registersExpression_eq lib hdaily htwice hthrice]
  exact ⟨trivial, trivial, trivial, trivial⟩

/-- The lemma `Start_of_returns` on the sample registry: the schedules `users` and
`media` have invalid expressions; `orders`, `docs` and `logs` are registered. -/
theorem Start_of_returns_sample :
    ((Scheduler.New sampleManager.cfg).Start sampleLib).1 = .ret none ∧
    ((Scheduler.New sampleManager.cfg).Start sampleLib).2.cron.running = true ∧
    (((Scheduler.New sampleManager.cfg).Start sampleLib).2.cron.entries.map fun e => e.spec) =
      ["0 0 * * *", "0 0 * * *", "*/5 * * * *"] ∧
    (((Scheduler.New sampleManager.cfg).Start sampleLib).2.cron.entries.map fun e => e.job) =
      [Job.database (sampleDbSchedule "orders" "daily"),
        Job.directory (sampleDirSchedule "docs" "daily"),
        Job.directory (sampleDirSchedule "logs" "*/5 * * * *")] :=
  ⟨(Start_of_returns sampleLib (Scheduler.New sampleManager.cfg) (by decide) (by decide)
      (by decide) (by decide) (by decide)).1,
    (Start_of_returns sampleLib (Scheduler.New sampleManager.cfg) (by decide) (by decide)
      (by decide) (by decide) (by decide)).2.1,
    by decide, by decide⟩

/-- C15 at the configuration with the directory schedules `docs` (`daily`), `tz`
(`TZ=UTC`) and `logs` (`*/5 * * * *`): the validation panics on the expression of
`tz`, so `Start` does not return; the cron holds the job of `docs` alone, the job
of `logs`, whose expression the library accepts, is never added, and the cron is
never started. -/
theorem Start_panics_on_zone :
    zoneConfig.Schedules.Directories.map (fun d => (d.Name, d.Expression)) =
      [("docs", "daily"), ("tz", "TZ=UTC"), ("logs", "*/5 * * * *")] ∧
    acceptedExpression sampleLib "*/5 * * * *" = true ∧
    ((Scheduler.New zoneConfig).Start sampleLib).1 =
      .panic "runtime error: slice bounds out of range [:-1]" ∧
    ((Scheduler.New zoneConfig).Start sampleLib).1 ≠ .ret none ∧
    (((Scheduler.New zoneConfig).Start sampleLib).2.cron.entries.map fun e => e.job) =
      [Job.directory (sampleDirSchedule "docs" "daily")] ∧
    Job.directory (sampleDirSchedule "logs" "*/5 * * * *") ∉
      ((Scheduler.New zoneConfig).Start sampleLib).2.cron.entries.map (fun e => e.job) ∧
    ((Scheduler.New zoneConfig).Start sampleLib).2.cron.running = false := by
  decide

/-- C16: running the job of a directory schedule calls the directory callback once,
and no other, with the payload that embeds the schedule (its `Name`, `SourcePath`,
`Sync`, `Delete`) and carries the schedule's override as `AWS`; running the job of
a database schedule calls the database callback once with the schedule's database
configuration and override. On these payloads the callbacks of the worker pass
their shape check and run the backup. An error of the callback becomes one log
line; the job has no result. The jobs `Start` adds are of these two kinds: one per
schedule its loops get through for which an iteration adds a job, and when no
expression makes the validation panic the loops get through every schedule. -/
theorem Job_run_payload (dbBackupFunc dirBackupFunc : Payload → Option String)
    (d : DirectorySchedule) (b : DatabaseSchedule) (env : Env) (backupSvc : Service) (store : Store)
    (backupDatabase : DatabaseConfig → Option AWSConfig → Option String)
    (lib : CronLib) (s : Scheduler) :
    ((Job.directory d).run dbBackupFunc dirBackupFunc).1 =
      [Invocation.dirBackupFunc (Payload.directory d d.AWS)] ∧
    ((Job.database b).run dbBackupFunc dirBackupFunc).1 =
      [Invocation.dbBackupFunc (Payload.database b.Database b.AWS)] ∧
    workerDirectoryCallback env backupSvc store (Payload.directory d d.AWS) =
      BackupDirectory env backupSvc store d.SourcePath d.Sync d.Delete d.AWS ∧
    workerDatabaseCallback backupDatabase (Payload.database b.Database b.AWS) =
      backupDatabase b.Database b.AWS ∧
    ((Job.directory d).run dbBackupFunc dirBackupFunc).2 =
      (match dirBackupFunc (Payload.directory d d.AWS) with
        | some err => ["Failed to execute scheduled directory backup: " ++ err]
        | none => []) ∧
    ((Job.database b).run dbBackupFunc dirBackupFunc).2 =
      (match dbBackupFunc (Payload.database b.Database b.AWS) with
        | some err => ["Failed to execute scheduled database backup: " ++ err]
        | none => []) ∧
    ((s.Start lib).2.cron.entries.map fun e => e.job) =
      (s.cron.entries.map fun e => e.job) ++
        ((reachedDatabases s.cfg).filter fun d =>
          registersExpression lib d.Expression).map Job.database ++
        ((reachedDirectories s.cfg).filter fun d =>
          registersExpression lib d.Expression).map Job.directory ∧
    ((∀ x ∈ s.cfg.Schedules.Databases, parsePanics x.Expression = false) →
      (∀ x ∈ s.cfg.Schedules.Directories, parsePanics x.Expression = false) →
      ((s.Start lib).2.cron.entries.map fun e => e.job) =
        (s.cron.entries.map fun e => e.job) ++
          (s.cfg.Schedules.Databases.filter fun d =>
            registersExpression lib d.Expression).map Job.database ++
          (s.cfg.Schedules.Directories.filter fun d =>
            registersExpression lib d.Expression).map Job.directory) := by
  have hstart : ((s.Start lib).2.cron.entries.map fun e => e.job) =
      (s.cron.entries.map fun e => e.job) ++
        ((reachedDatabases s.cfg).filter fun d =>
          registersExpression lib d.Expression).map Job.database ++
        ((reachedDirectories s.cfg).filter fun d =>
          registersExpression lib d.Expression).map Job.directory := by
    rw [Start_eq]
    simp [List.map_append, List.map_map, Function.comp_def, databaseEntry, directoryEntry]
  refine ⟨?_, ?_, rfl, rfl, ?_, ?_, hstart, ?_⟩
  · unfold Job.run; simp only; cases dirBackupFunc (Payload.directory d d.AWS) <;> rfl
  · unfold Job.run; simp only; cases dbBackupFunc (Payload.database b.Database b.AWS) <;> rfl
  · unfold Job.run; simp only; cases dirBackupFunc (Payload.directory d d.AWS) <;> rfl
  · unfold Job.run; simp only; cases dbBackupFunc (Payload.database b.Database b.AWS) <;> rfl
  · intro hdb hdir
    have hdb1 : s.cfg.Schedules.Databases.all (fun d => !parsePanics d.Expression) = true := by
      rw [List.all_eq_true]
      intro x hx
      rw [hdb x hx]; rfl
    have hdir1 : s.cfg.Schedules.Directories.all (fun d => !parsePanics d.Expression) = true := by
      rw [List.all_eq_true]
      intro x hx
      rw [hdir x hx]; rfl
    rw [hstart]
    unfold reachedDatabases reachedDirectories
    rw [if_pos hdb1, takeWhile_of_all _ _ hdb1, takeWhile_of_all _ _ hdir1]

/-- C16 on the sample registry, where no expression makes the validation panic:
the jobs `Start` adds are those of `orders`, `docs` and `logs`. -/
theorem Job_run_payload_witness :
    (∀ x ∈ (Scheduler.New sampleManager.cfg).cfg.Schedules.Databases,
      parsePanics x.Expression = false) ∧
    (∀ x ∈ (Scheduler.New sampleManager.cfg).cfg.Schedules.Directories,
      parsePanics x.Expression = false) ∧
    (((Scheduler.New sampleManager.cfg).Start sampleLib).2.cron.entries.map fun e => e.job) =
      ((Scheduler.New sampleManager.cfg).cron.entries.map fun e => e.job) ++
        ((Scheduler.New sampleManager.cfg).cfg.Schedules.Databases.filter fun d =>
          registersExpression sampleLib d.Expression).map Job.database ++
        ((Scheduler.New sampleManager.cfg).cfg.Schedules.Directories.filter fun d =>
          registersExpression sampleLib d.Expression).map Job.directory ∧
    (((Scheduler.New sampleManager.cfg).Start sampleLib).2.cron.entries.map fun e => e.job) =
      [Job.database (sampleDbSchedule "orders" "daily"),
        Job.directory (sampleDirSchedule "docs" "daily"),
        Job.directory (sampleDirSchedule "logs" "*/5 * * * *")] :=
  ⟨by decide, by decide,
    (Job_run_payload (fun _ => none) (fun _ => none) (sampleDirSchedule "docs" "daily")
      (sampleDbSchedule "orders" "daily") sampleEnv sampleService sampleStore (fun _ _ => none)
      sampleLib (Scheduler.New sampleManager.cfg)).2.2.2.2.2.2.2 (by decide) (by decide),
    by decide⟩

/-! ## The schedule registry -/

theorem findNamed_none {σ : Type} (name : σ → String) (target : String) (l : List σ) :
    findNamed name target l = none ↔ ∀ x ∈ l, name x ≠ target := by
  induction l with
  | nil => simp [findNamed]
  | cons a t ih =>
    unfold findNamed
    by_cases h : name a = target
    · simp [h]
    · simp [h, ih]

theorem findNamed_some {σ : Type} (name : σ → String) (target : String) (l : List σ) :
    ∀ i, findNamed name target l = some i →
      ∃ pre old post, l = pre ++ old :: post ∧ pre.length = i ∧ name old = target ∧
        ∀ x ∈ pre, name x ≠ target := by
  induction l with
  | nil => intro i h; simp [findNamed] at h
  | cons a t ih =>
    intro i h
    unfold findNamed at h
    by_cases ha : name a = target
    · rw [if_pos ha] at h
      simp only [Option.some.injEq] at h
      exact ⟨[], a, t, rfl, by simpa using h, ha, by simp⟩
    · rw [if_neg ha] at h
      cases hf : findNamed name target t with
      | none => rw [hf] at h; simp at h
      | some j =>
        rw [hf] at h
        simp only [Option.map_some', Option.some.injEq] at h
        obtain ⟨pre, old, post, hl, hlen, hold, hpre⟩ := ih j hf
        refine ⟨a :: pre, old, post, by rw [hl]; rfl, by simp [hlen, h], hold, ?_⟩
        intro x hx
        rcases List.mem_cons.1 hx with rfl | hx
        · exact ha
        · exact hpre x hx

theorem set_length_append {σ : Type} (pre : List σ) (old s : σ) (post : List σ) :
    (pre ++ old :: post).set pre.length s = pre ++ s :: post := by
  induction pre with
  | nil => rfl
  | cons a t ih => simp [ih]

/-- The list after an `Add`: either the first entry of the name is replaced in
place, or there is no such entry and the schedule is appended. -/
theorem upsertNamed_cases {σ : Type} (name : σ → String) (s : σ) (l : List σ) :
    (∃ pre old post, l = pre ++ old :: post ∧ name old = name s ∧
        (∀ x ∈ pre, name x ≠ name s) ∧ upsertNamed name s l = pre ++ s :: post) ∨
      ((∀ x ∈ l, name x ≠ name s) ∧ upsertNamed name s l = l ++ [s]) := by
  unfold upsertNamed
  cases hf : findNamed name (name s) l with
  | none => exact Or.inr ⟨(findNamed_none name _ l).1 hf, rfl⟩
  | some i =>
    obtain ⟨pre, old, post, hl, hlen, hold, hpre⟩ := findNamed_some name _ l i hf
    left
    refine ⟨pre, old, post, hl, hold, hpre, ?_⟩
    simp only
    rw [hl, ← hlen, set_length_append]

theorem find?_append_of_not {σ : Type} (p : σ → Bool) (pre rest : List σ)
    (h : ∀ x ∈ pre, p x = false) : (pre ++ rest).find? p = rest.find? p := by
  induction pre with
  | nil => rfl
  | cons a t ih =>
    have ha := h a (List.mem_cons_self _ _)
    rw [List.cons_append, List.find?_cons, ha]
    exact ih fun x hx => h x (List.mem_cons_of_mem _ hx)

theorem find?_append_cons_ne {σ : Type} (p : σ → Bool) (pre : List σ) (a b : σ) (post : List σ)
    (ha : p a = false) (hb : p b = false) :
    (pre ++ a :: post).find? p = (pre ++ b :: post).find? p := by
  induction pre with
  | nil => simp [List.find?_cons, ha, hb]
  | cons x t ih => simp only [List.cons_append, List.find?_cons, ih]

/-- Looking the added schedule up by its name finds it. -/
theorem find?_upsertNamed_self {σ : Type} (name : σ → String) (s : σ) (l : List σ) :
    (upsertNamed name s l).find? (fun x => name x = name s) = some s := by
  rcases upsertNamed_cases name s l with ⟨pre, old, post, -, -, hpre, hu⟩ | ⟨hall, hu⟩
  · rw [hu, find?_append_of_not _ pre _ (fun x hx => by simpa using hpre x hx)]
    simp
  · rw [hu, find?_append_of_not _ l _ (fun x hx => by simpa using hall x hx)]
    simp

/-- Looking another name up finds what it found before. -/
theorem find?_upsertNamed_other {σ : Type} (name : σ → String) (s : σ) (l : List σ)
    (other : String) (h : other ≠ name s) :
    (upsertNamed name s l).find? (fun x => name x = other) =
      l.find? (fun x => name x = other) := by
  have hs : decide (name s = other) = false := by simpa using fun hh => h hh.symm
  rcases upsertNamed_cases name s l with ⟨pre, old, post, hl, hold, -, hu⟩ | ⟨-, hu⟩
  · rw [hu, hl]
    exact find?_append_cons_ne _ pre s old post hs (by rw [hold]; exact hs)
  · rw [hu, List.find?_append]
    simp only [List.find?_cons, hs, List.find?_nil]
    cases l.find? fun x => decide (name x = other) <;> rfl

/-- Names that were unique stay unique. -/
theorem upsertNamed_nodup {σ : Type} (name : σ → String) (s : σ) (l : List σ)
    (h : (l.map name).Nodup) : ((upsertNamed name s l).map name).Nodup := by
  rcases upsertNamed_cases name s l with ⟨pre, old, post, hl, hold, -, hu⟩ | ⟨hall, hu⟩
  · rw [hu]
    rw [hl] at h
    simpa [hold] using h
  · rw [hu, List.map_append, List.map_singleton]
    apply List.Nodup.append h (List.nodup_singleton _)
    intro a ha hs
    rw [List.mem_singleton] at hs
    obtain ⟨x, hx, rfl⟩ := List.mem_map.1 ha
    exact hall x hx hs

theorem upsertNamed_length {σ : Type} (name : σ → String) (s : σ) (l : List σ)
    (h : ∃ x ∈ l, name x = name s) : (upsertNamed name s l).length = l.length := by
  rcases upsertNamed_cases name s l with ⟨pre, old, post, hl, -, -, hu⟩ | ⟨hall, -⟩
  · rw [hu, hl]; simp
  · obtain ⟨x, hx, hn⟩ := h
    exact absurd hn (hall x hx)

theorem AddDirectorySchedule_list (saveErr : Option String) (sm : ScheduleManager)
    (s : DirectorySchedule) :
    (AddDirectorySchedule saveErr sm s).2.cfg.Schedules.Directories =
        upsertNamed (fun x : DirectorySchedule => x.Name) s sm.cfg.Schedules.Directories ∧
      (AddDirectorySchedule saveErr sm s).2.cfg.Schedules.Databases = sm.cfg.Schedules.Databases ∧
      (AddDirectorySchedule saveErr sm s).1 = saveConfig saveErr := by
  unfold AddDirectorySchedule upsertNamed
  cases findNamed (fun x : DirectorySchedule => x.Name) s.Name sm.cfg.Schedules.Directories <;>
    exact ⟨rfl, rfl, rfl⟩

theorem AddDatabaseSchedule_list (saveErr : Option String) (sm : ScheduleManager)
    (s : DatabaseSchedule) :
    (AddDatabaseSchedule saveErr sm s).2.cfg.Schedules.Databases =
        upsertNamed (fun x : DatabaseSchedule => x.Name) s sm.cfg.Schedules.Databases ∧
      (AddDatabaseSchedule saveErr sm s).2.cfg.Schedules.Directories =
        sm.cfg.Schedules.Directories ∧
      (AddDatabaseSchedule saveErr sm s).1 = saveConfig saveErr := by
  unfold AddDatabaseSchedule upsertNamed
  cases findNamed (fun x : DatabaseSchedule => x.Name) s.Name sm.cfg.Schedules.Databases <;>
    exact ⟨rfl, rfl, rfl⟩

/-- C18: after `AddDirectorySchedule s` the lookup of `s.Name` returns `(s, true)`
and the lookup of every other name returns what it returned before; when an entry
of that name existed the list keeps its length and order with the first such entry
replaced by `s`, otherwise `s` is appended at the end; unique names stay unique.
The same holds for `AddDatabaseSchedule` and `GetDatabaseSchedule`. -/
theorem AddSchedule_last_write_wins (saveErr : Option String) (sm : ScheduleManager)
    (s : DirectorySchedule) (b : DatabaseSchedule) :
    (GetDirectorySchedule (AddDirectorySchedule saveErr sm s).2 s.Name = (s, true) ∧
      (∀ other, other ≠ s.Name →
        GetDirectorySchedule (AddDirectorySchedule saveErr sm s).2 other =
          GetDirectorySchedule sm other) ∧
      ((∃ x ∈ sm.cfg.Schedules.Directories, x.Name = s.Name) →
        ∃ pre old post, sm.cfg.Schedules.Directories = pre ++ old :: post ∧ old.Name = s.Name ∧
          (∀ x ∈ pre, x.Name ≠ s.Name) ∧
          (AddDirectorySchedule saveErr sm s).2.cfg.Schedules.Directories = pre ++ s :: post) ∧
      ((∀ x ∈ sm.cfg.Schedules.Directories, x.Name ≠ s.Name) →
        (AddDirectorySchedule saveErr sm s).2.cfg.Schedules.Directories =
          sm.cfg.Schedules.Directories ++ [s]) ∧
      ((sm.cfg.Schedules.Directories.map fun x => x.Name).Nodup →
        ((AddDirectorySchedule saveErr sm s).2.cfg.Schedules.Directories.map fun x => x.Name).Nodup)) ∧
    (GetDatabaseSchedule (AddDatabaseSchedule saveErr sm b).2 b.Name = (b, true) ∧
      (∀ other, other ≠ b.Name →
        GetDatabaseSchedule (AddDatabaseSchedule saveErr sm b).2 other =
          GetDatabaseSchedule sm other) ∧
      ((∃ x ∈ sm.cfg.Schedules.Databases, x.Name = b.Name) →
        ∃ pre old post, sm.cfg.Schedules.Databases = pre ++ old :: post ∧ old.Name = b.Name ∧
          (∀ x ∈ pre, x.Name ≠ b.Name) ∧
          (AddDatabaseSchedule saveErr sm b).2.cfg.Schedules.Databases = pre ++ b :: post) ∧
      ((∀ x ∈ sm.cfg.Schedules.Databases, x.Name ≠ b.Name) →
        (AddDatabaseSchedule saveErr sm b).2.cfg.Schedules.Databases =
          sm.cfg.Schedules.Databases ++ [b]) ∧
      ((sm.cfg.Schedules.Databases.map fun x => x.Name).Nodup →
        ((AddDatabaseSchedule saveErr sm b).2.cfg.Schedules.Databases.map fun x => x.Name).Nodup)) := by
  constructor
  · have hl := (AddDirectorySchedule_list saveErr sm s).1
    refine ⟨?_, ?_, ?_, ?_, ?_⟩
    · unfold GetDirectorySchedule
      rw [hl, find?_upsertNamed_self (fun x : DirectorySchedule => x.Name) s]
    · intro other ho
      unfold GetDirectorySchedule
      rw [hl, find?_upsertNamed_other (fun x : DirectorySchedule => x.Name) s _ other ho]
    · rintro ⟨x, hx, hn⟩
      rw [hl]
      rcases upsertNamed_cases (fun x : DirectorySchedule => x.Name) s
        sm.cfg.Schedules.Directories with h | ⟨hall, -⟩
      · exact h
      · exact absurd hn (hall x hx)
    · intro hall
      rw [hl]
      rcases upsertNamed_cases (fun x : DirectorySchedule => x.Name) s
        sm.cfg.Schedules.Directories with ⟨pre, old, post, hp, hold, -, -⟩ | ⟨-, hu⟩
      · exact absurd hold (hall old (by rw [hp]; simp))
      · exact hu
    · intro hnd
      rw [hl]
      exact upsertNamed_nodup (fun x : DirectorySchedule => x.Name) s _ hnd
  · have hl := (AddDatabaseSchedule_list saveErr sm b).1
    refine ⟨?_, ?_, ?_, ?_, ?_⟩
    · unfold GetDatabaseSchedule
      rw [hl, find?_upsertNamed_self (fun x : DatabaseSchedule => x.Name) b]
    · intro other ho
      unfold GetDatabaseSchedule
      rw [hl, find?_upsertNamed_other (fun x : DatabaseSchedule => x.Name) b _ other ho]
    · rintro ⟨x, hx, hn⟩
      rw [hl]
      rcases upsertNamed_cases (fun x : DatabaseSchedule => x.Name) b
        sm.cfg.Schedules.Databases with h | ⟨hall, -⟩
      · exact h
      · exact absurd hn (hall x hx)
    · intro hall
      rw [hl]
      rcases upsertNamed_cases (fun x : DatabaseSchedule => x.Name) b
        sm.cfg.Schedules.Databases with ⟨pre, old, post, hp, hold, -, -⟩ | ⟨-, hu⟩
      · exact absurd hold (hall old (by rw [hp]; simp))
      · exact hu
    · intro hnd
      rw [hl]
      exact upsertNamed_nodup (fun x : DatabaseSchedule => x.Name) b _ hnd

theorem take_set_same {σ : Type} (l : List σ) : ∀ (j : Nat) (a : σ),
    (l.set j a).take j = l.take j := by
  induction l with
  | nil => intro j a; simp
  | cons x t ih =>
    intro j a
    cases j with
    | zero => simp
    | succ j => simp [ih]

theorem set_same {σ : Type} (l : List σ) : ∀ (i : Nat) (h : i < l.length),
    l.set i (l.get ⟨i, h⟩) = l := by
  induction l with
  | nil => intro i h; simp at h
  | cons x t ih =>
    intro i h
    cases i with
    | zero => rfl
    | succ i =>
      simp only [List.set_cons_succ, List.get_cons_succ, List.cons.injEq, true_and]
      exact ih i (by simpa using h)

/-- The filtering loop of `RemoveSchedule`, from read index `i` and write index
`j ≤ i`: the slice it builds holds what was written before and then the entries
from index `i` on whose name is not the target; `found` is set when one of these
has the target name; when nothing has been dropped so far and nothing is found,
the array is as it was. -/
theorem removeLoop_spec {σ : Type} (name : σ → String) (target : String) :
    ∀ (left i : Nat) (arr : List σ) (j : Nat) (found : Bool),
      j ≤ i → i + left = arr.length →
      ((removeLoop name target left i arr j found).1.take
          (removeLoop name target left i arr j found).2.1 =
        arr.take j ++ (arr.drop i).filter fun x => name x ≠ target) ∧
      ((removeLoop name target left i arr j found).2.2 =
        (found || (arr.drop i).any fun x => name x = target)) ∧
      ((found = false → j = i) → (removeLoop name target left i arr j found).2.2 = false →
        (removeLoop name target left i arr j found).1 = arr) := by
  intro left
  induction left with
  | zero =>
    intro i arr j found _ hlen
    have hi : arr.length ≤ i := by omega
    simp [removeLoop, List.drop_eq_nil_of_le hi]
  | succ left ih =>
    intro i arr j found hji hlen
    have hi : i < arr.length := by omega
    have hget : arr.get? i = some arr[i] := by
      rw [List.get?_eq_getElem?, List.getElem?_eq_getElem hi]
    have hdrop : arr.drop i = arr[i] :: arr.drop (i + 1) := List.drop_eq_getElem_cons hi
    rw [removeLoop, hget]
    simp only
    by_cases hn : name arr[i] = target
    · simp only [hn, ne_eq, not_true_eq_false, if_false]
      obtain ⟨h1, h2, h3⟩ := ih (i + 1) arr j true (by omega) (by omega)
      refine ⟨?_, ?_, ?_⟩
      · rw [h1, hdrop, List.filter_cons_of_neg (by simp [hn])]
      · rw [h2, hdrop, List.any_cons]
        simp only [hn, decide_True, Bool.true_or, Bool.or_true]
      · intro _ hf
        rw [h2] at hf
        simp at hf
    · simp only [hn, ne_eq, not_false_eq_true, if_true]
      have hj : j < arr.length := by omega
      obtain ⟨h1, h2, h3⟩ := ih (i + 1) (arr.set j arr[i]) (j + 1) found (by omega)
        (by rw [List.length_set]; omega)
      have e1 : (arr.set j arr[i]).take (j + 1) = arr.take j ++ [arr[i]] := by
        rw [List.take_succ, take_set_same, List.getElem?_set_self hj]
        rfl
      have e2 : (arr.set j arr[i]).drop (i + 1) = arr.drop (i + 1) :=
        List.drop_set_of_lt arr[i] arr (by omega)
      refine ⟨?_, ?_, ?_⟩
      · rw [h1, e1, e2, hdrop, List.filter_cons_of_pos (by simp [hn])]
        simp
      · rw [h2, e2, hdrop, List.any_cons]
        simp only [hn, decide_False, Bool.false_or]
      · intro hfj hf
        have hfalse : found = false := by
          rw [h2] at hf
          cases found
          · rfl
          · simp at hf
        have hij : j = i := hfj hfalse
        subst hij
        rw [h3 (fun _ => rfl) hf]
        exact set_same arr j hj

/-- The filtering loop of `RemoveSchedule` on a whole list: the slice it builds is
the list without the entries of the target name, `found` tells whether there was
one, and without one the array is as it was. -/
theorem removeLoop_start {σ : Type} (name : σ → String) (target : String) (l arr : List σ)
    (j : Nat) (found : Bool) (h : removeLoop name target l.length 0 l 0 false = (arr, j, found)) :
    arr.take j = l.filter (fun x => name x ≠ target) ∧
      found = l.any (fun x => name x = target) ∧ (found = false → arr = l) := by
  obtain ⟨h1, h2, h3⟩ := removeLoop_spec name target l.length 0 l 0 false (Nat.le_refl 0) (by simp)
  rw [h] at h1 h2 h3
  simp only [List.take_zero, List.nil_append, List.drop_zero, Bool.false_or] at h1 h2
  exact ⟨h1, h2, h3 fun _ => rfl⟩

theorem any_named_true {σ : Type} (name : σ → String) (target : String) (l : List σ) :
    l.any (fun x => name x = target) = true ↔ ∃ x ∈ l, name x = target := by
  simp [List.any_eq_true]

/-- C20: `RemoveSchedule name "database"` (resp. `"directory"`), when the list of
that type has an entry of that name, leaves that list without every entry of that
name, the rest in order, and the other list as it was, and returns the outcome of
saving; when there is no such entry it returns the error `schedule '<name>' not
found` and changes nothing; for any other type it returns the error `invalid
schedule type: <type>` and changes nothing. -/
theorem RemoveSchedule_spec (saveErr : Option String) (sm : ScheduleManager)
    (name scheduleType : String) :
    ((∃ x ∈ sm.cfg.Schedules.Databases, x.Name = name) →
      RemoveSchedule saveErr sm name "database" =
        (saveConfig saveErr,
          { cfg := { sm.cfg with Schedules :=
              { Databases := sm.cfg.Schedules.Databases.filter fun x => x.Name ≠ name
                Directories := sm.cfg.Schedules.Directories } } })) ∧
    ((∀ x ∈ sm.cfg.Schedules.Databases, x.Name ≠ name) →
      RemoveSchedule saveErr sm name "database" =
        (some ("schedule '" ++ name ++ "' not found"), sm)) ∧
    ((∃ x ∈ sm.cfg.Schedules.Directories, x.Name = name) →
      RemoveSchedule saveErr sm name "directory" =
        (saveConfig saveErr,
          { cfg := { sm.cfg with Schedules :=
              { Databases := sm.cfg.Schedules.Databases
                Directories := sm.cfg.Schedules.Directories.filter fun x => x.Name ≠ name } } })) ∧
    ((∀ x ∈ sm.cfg.Schedules.Directories, x.Name ≠ name) →
      RemoveSchedule saveErr sm name "directory" =
        (some ("schedule '" ++ name ++ "' not found"), sm)) ∧
    (scheduleType ≠ "database" → scheduleType ≠ "directory" →
      RemoveSchedule saveErr sm name scheduleType =
        (some ("invalid schedule type: " ++ scheduleType), sm)) := by
  refine ⟨?_, ?_, ?_, ?_, ?_⟩
  · intro hex
    unfold RemoveSchedule
    rw [if_pos rfl]
    cases hr : removeLoop (fun s : DatabaseSchedule => s.Name) name
        sm.cfg.Schedules.Databases.length 0 sm.cfg.Schedules.Databases 0 false with
    | mk arr rest =>
      cases rest with
      | mk j found =>
        obtain ⟨h1, h2, -⟩ := removeLoop_start _ _ _ _ _ _ hr
        have hf : found = true := by rw [h2]; exact (any_named_true _ _ _).2 hex
        subst hf
        simp only [Bool.true_eq_false, if_false, h1]
  · intro hall
    unfold RemoveSchedule
    rw [if_pos rfl]
    cases hr : removeLoop (fun s : DatabaseSchedule => s.Name) name
        sm.cfg.Schedules.Databases.length 0 sm.cfg.Schedules.Databases 0 false with
    | mk arr rest =>
      cases rest with
      | mk j found =>
        obtain ⟨-, h2, h3⟩ := removeLoop_start _ _ _ _ _ _ hr
        have hf : found = false := by
          rw [h2]
          cases hany : sm.cfg.Schedules.Databases.any fun x => decide (x.Name = name) with
          | false => rfl
          | true =>
            obtain ⟨x, hx, hn⟩ := (any_named_true _ _ _).1 hany
            exact absurd hn (hall x hx)
        subst hf
        simp only [if_true, h3 rfl, List.take_length]
  · intro hex
    unfold RemoveSchedule
    rw [if_neg (by decide), if_pos rfl]
    cases hr : removeLoop (fun s : DirectorySchedule => s.Name) name
        sm.cfg.Schedules.Directories.length 0 sm.cfg.Schedules.Directories 0 false with
    | mk arr rest =>
      cases rest with
      | mk j found =>
        obtain ⟨h1, h2, -⟩ := removeLoop_start _ _ _ _ _ _ hr
        have hf : found = true := by rw [h2]; exact (any_named_true _ _ _).2 hex
        subst hf
        simp only [Bool.true_eq_false, if_false, h1]
  · intro hall
    unfold RemoveSchedule
    rw [if_neg (by decide), if_pos rfl]
    cases hr : removeLoop (fun s : DirectorySchedule => s.Name) name
        sm.cfg.Schedules.Directories.length 0 sm.cfg.Schedules.Directories 0 false with
    | mk arr rest =>
      cases rest with
      | mk j found =>
        obtain ⟨-, h2, h3⟩ := removeLoop_start _ _ _ _ _ _ hr
        have hf : found = false := by
          rw [h2]
          cases hany : sm.cfg.Schedules.Directories.any fun x => decide (x.Name = name) with
          | false => rfl
          | true =>
            obtain ⟨x, hx, hn⟩ := (any_named_true _ _ _).1 hany
            exact absurd hn (hall x hx)
        subst hf
        simp only [if_true, h3 rfl, List.take_length]
  · intro h1 h2
    unfold RemoveSchedule
    rw [if_neg h1, if_neg h2]

/-- C20 on the sample registry: removing the directory schedule `media`, and
removing a name that is not there. -/
theorem RemoveSchedule_spec_witness :
    (∃ x ∈ sampleManager.cfg.Schedules.Directories, x.Name = "media") ∧
    RemoveSchedule none sampleManager "media" "directory" =
      (saveConfig none,
        { cfg := { sampleManager.cfg with Schedules :=
            { Databases := sampleManager.cfg.Schedules.Databases
              Directories :=
                sampleManager.cfg.Schedules.Directories.filter fun x => x.Name ≠ "media" } } }) ∧
    (∀ x ∈ sampleManager.cfg.Schedules.Databases, x.Name ≠ "media") ∧
    RemoveSchedule none sampleManager "media" "database" =
      (some ("schedule '" ++ "media" ++ "' not found"), sampleManager) ∧
    "file" ≠ "database" ∧ "file" ≠ "directory" ∧
    RemoveSchedule none sampleManager "media" "file" =
      (some ("invalid schedule type: " ++ "file"), sampleManager) :=
  ⟨by decide, (RemoveSchedule_spec none sampleManager "media" "file").2.2.1 (by decide),
    by decide, (RemoveSchedule_spec none sampleManager "media" "file").2.1 (by decide),
    by decide, by decide,
    (RemoveSchedule_spec none sampleManager "media" "file").2.2.2.2 (by decide) (by decide)⟩

/-- C18 on the sample registry: a schedule named `media` replaces the one there, a
schedule with a new name is appended. -/
theorem AddSchedule_last_write_wins_witness :
    (∃ x ∈ sampleManager.cfg.Schedules.Directories, x.Name = (sampleDirSchedule "media" "daily").Name) ∧
    GetDirectorySchedule
        (AddDirectorySchedule none sampleManager (sampleDirSchedule "media" "daily")).2
        (sampleDirSchedule "media" "daily").Name = (sampleDirSchedule "media" "daily", true) ∧
    (AddDirectorySchedule none sampleManager (sampleDirSchedule "media" "daily")).2.cfg.Schedules.Directories =
      [sampleDirSchedule "docs" "daily", sampleDirSchedule "media" "daily",
        sampleDirSchedule "logs" "*/5 * * * *"] ∧
    (∀ x ∈ sampleManager.cfg.Schedules.Databases, x.Name ≠ (sampleDbSchedule "new" "daily").Name) ∧
    (AddDatabaseSchedule none sampleManager (sampleDbSchedule "new" "daily")).2.cfg.Schedules.Databases =
      sampleManager.cfg.Schedules.Databases ++ [sampleDbSchedule "new" "daily"] ∧
    ((sampleManager.cfg.Schedules.Directories.map fun x => x.Name).Nodup ∧
      ((AddDirectorySchedule none sampleManager
        (sampleDirSchedule "media" "daily")).2.cfg.Schedules.Directories.map fun x => x.Name).Nodup) :=
  ⟨by decide,
    (AddSchedule_last_write_wins none sampleManager (sampleDirSchedule "media" "daily")
      (sampleDbSchedule "new" "daily")).1.1,
    by decide, by decide,
    (AddSchedule_last_write_wins none sampleManager (sampleDirSchedule "media" "daily")
      (sampleDbSchedule "new" "daily")).2.2.2.2.1 (by decide),
    ⟨by decide,
      (AddSchedule_last_write_wins none sampleManager (sampleDirSchedule "media" "daily")
        (sampleDbSchedule "new" "daily")).1.2.2.2.2 (by decide)⟩⟩

end Backme
